import Mathlib

/-!
# Netwalker solver: shallow embedding and verification

Embedding of `src/main.cpp` (piece catalogue, cells, the toroidal board, the
stake propagator, the reachability check and the speculative search) together
with the properties proved about it.

Modelling conventions.

* `std::array<T, 4>` is the four-field structure `Quad`, indexed by `Direction`.
* `std::set<X>` is a list kept in the iteration order of the set (strictly
  increasing); `insert` is ordered insertion without duplicates, `erase` removes
  the element, `size()` is the length and `begin()` the head.
* Mutable state is passed explicitly: every operation on a `Table` returns the
  table as the call leaves it together with an `Outcome` saying how control left
  the call (normal return, `UnsolvableException`, the thrown solved `Table`, ...).
* `int`/`unsigned` arithmetic is done in `Int`/`Nat`; index normalisation
  `(line + height) % height` is evaluated in `unsigned`, hence the explicit
  reduction modulo `2 ^ 32` in `wrapIndex`.
* Recursion that the source leaves unbounded takes a fuel argument and leaves
  with `Outcome.outOfFuel` when the fuel is used up.
-/

namespace Netwalker

/-! ## Pieces and directions -/

/-- The piece kinds of `enum PieceType`. -/
inductive PieceType where
  | PT_EMPTY
  | PT_DEADEND
  | PT_LINE
  | PT_ELBOW
  | PT_T
deriving DecidableEq, Repr

/-- The four directions of `enum Direction`, in the order N = 0, E = 1, S = 2, W = 3. -/
inductive Direction where
  | D_N
  | D_E
  | D_S
  | D_W
deriving DecidableEq, Repr

/-- Numeric value of a direction. -/
def Direction.index : Direction → Nat
  | .D_N => 0
  | .D_E => 1
  | .D_S => 2
  | .D_W => 3

/-- The cast `(Direction)n` for `n` in `0..3`. -/
def Direction.ofIndex (n : Nat) : Direction :=
  if n = 0 then .D_N else if n = 1 then .D_E else if n = 2 then .D_S else .D_W

/-- The values `0, 1, 2, 3` of the loops `for (int i = 0; i < 4; i++)`. -/
def Direction.all : List Direction := [.D_N, .D_E, .D_S, .D_W]

/-- Row and column displacement of a direction. -/
def displacement (dir : Direction) : Int × Int :=
  if dir = .D_N then (-1, 0)
  else if dir = .D_E then (0, 1)
  else if dir = .D_S then (1, 0)
  else (0, -1)

/-- The source computes `(Direction)((d + 2) % 4)`. -/
def oppositeDirection (d : Direction) : Direction :=
  Direction.ofIndex ((d.index + 2) % 4)

/-- Model of `std::array<T, 4>`. -/
structure Quad (α : Type) where
  a0 : α
  a1 : α
  a2 : α
  a3 : α
deriving DecidableEq, Repr

/-- Read `a[d]`. -/
def Quad.get {α : Type} (a : Quad α) : Direction → α
  | .D_N => a.a0
  | .D_E => a.a1
  | .D_S => a.a2
  | .D_W => a.a3

/-- Write `a[d] = v`. -/
def Quad.set {α : Type} (a : Quad α) (d : Direction) (v : α) : Quad α :=
  match d with
  | .D_N => { a with a0 := v }
  | .D_E => { a with a1 := v }
  | .D_S => { a with a2 := v }
  | .D_W => { a with a3 := v }

/-- A rotation of a piece: `using Piece = array<bool, 4>`. -/
abbrev Piece := Quad Bool

/-- Position of a piece in the lexicographic order of `array<bool, 4>` (index 0 most
significant, `false < true`), the order `std::set<Piece>` iterates in. -/
def Piece.key (p : Piece) : Nat :=
  (if p.a0 then 8 else 0) + (if p.a1 then 4 else 0) + (if p.a2 then 2 else 0)
    + (if p.a3 then 1 else 0)

/-- Model of `std::set<Piece>::insert`. -/
def pieceInsert (p : Piece) : List Piece → List Piece
  | [] => [p]
  | q :: qs =>
    if p.key < q.key then p :: q :: qs
    else if q.key < p.key then q :: pieceInsert p qs
    else q :: qs

/-- One step of the rotation loop: `newCandidate[(j + 1) % 4] = candidate[j]`. -/
def rotatePiece (candidate : Piece) : Piece :=
  Direction.all.foldl
    (fun newCandidate j => newCandidate.set (Direction.ofIndex ((j.index + 1) % 4)) (candidate.get j))
    candidate

/-! ## Cells -/

/-- Model of `struct Cell`. -/
structure Cell where
  type : PieceType
  candidates : List Piece
  stakes : Quad Nat
deriving DecidableEq, Repr

/-- Inner loop of `refreshStakes`: `if (c[i]) stakes[i]++` for `i = 0..3`. -/
def bumpStakes (stakes : Quad Nat) (c : Piece) : Quad Nat :=
  Direction.all.foldl (fun st i => if c.get i then st.set i (st.get i + 1) else st) stakes

/-- Model of `Cell::refreshStakes`. -/
def Cell.refreshStakes (cell : Cell) : Cell :=
  { cell with stakes := cell.candidates.foldl bumpStakes ⟨0, 0, 0, 0⟩ }

/-- The canonical stub vector chosen by the `switch` of the `Cell` constructor. -/
def canonicalPiece : PieceType → Piece
  | .PT_EMPTY => ⟨false, false, false, false⟩
  | .PT_DEADEND => ⟨true, false, false, false⟩
  | .PT_LINE => ⟨true, false, true, false⟩
  | .PT_ELBOW => ⟨true, true, false, false⟩
  | .PT_T => ⟨true, true, true, false⟩

/-- The loop of the `Cell` constructor: insert the candidate, rotate it, `n` times. -/
def insertRotations : Nat → Piece → List Piece → List Piece
  | 0, _, candidates => candidates
  | n + 1, candidate, candidates =>
    insertRotations n (rotatePiece candidate) (pieceInsert candidate candidates)

/-- Model of the constructor `Cell::Cell(PieceType type)`. -/
def Cell.new (type : PieceType) : Cell :=
  Cell.refreshStakes
    { type := type
      candidates := insertRotations 4 (canonicalPiece type) []
      stakes := ⟨0, 0, 0, 0⟩ }

/-- Model of `Cell::isSolved`. -/
def Cell.isSolved (cell : Cell) : Bool :=
  cell.candidates.length == 1

/-! ## The input decoder -/

/-- Result of decoding one character. -/
inductive Decoded where
  | piece (pt : PieceType)
  | badCharacter
  | outOfFuel
deriving DecidableEq, Repr

/-- Conversion of an `int` to `char` (8 bits, signed). -/
def narrowChar (x : Int) : Int :=
  (x + 128) % 256 - 128

/-- The loop `while (c % 2 == 0) c /= 2;` with C++ truncating division;
`none` when the fuel is used up. -/
def stripEven : Nat → Int → Option Int
  | 0, _ => none
  | fuel + 1, c =>
    if Int.tmod c 2 = 0 then stripEven fuel (narrowChar (Int.tdiv c 2)) else some c

/-- The loop `while (c) { if (c % 2) ones++; c /= 2; }`; `none` when the fuel is used up. -/
def countOnes : Nat → Int → Nat → Option Nat
  | 0, _, _ => none
  | fuel + 1, c, ones =>
    if c = 0 then some ones
    else countOnes fuel (narrowChar (Int.tdiv c 2)) (if Int.tmod c 2 ≠ 0 then ones + 1 else ones)

/-- Body of `charToPT` on the value of the `char` argument. A `char` has 8 bits, so 9
rounds of halving are enough for both loops. -/
def charToPTCode (c0 : Int) : Decoded :=
  let c : Int :=
    if c0 ≥ 97 then narrowChar (c0 - 97 + 10)
    else if c0 ≥ 65 then narrowChar (c0 - 65)
    else narrowChar (c0 - 48)
  if c = 0 then .piece .PT_EMPTY
  else
    match stripEven 9 c with
    | none => .outOfFuel
    | some c =>
      if c = 1 then .piece .PT_DEADEND
      else if c = 5 then .piece .PT_LINE
      else
        match countOnes 9 c 0 with
        | none => .outOfFuel
        | some ones =>
          if ones = 2 then .piece .PT_ELBOW
          else if ones = 3 then .piece .PT_T
          else .badCharacter

/-- Model of `charToPT(char c)`: the character is read as the signed 8-bit value of its
code (the raw table is a byte string). -/
def charToPT (c : Char) : Decoded :=
  charToPTCode (narrowChar (c.toNat : Int))

/-! ## The board -/

/-- Model of `struct Table`. The two coordinate sets are `std::set<pair<int, int>>`. -/
structure Table where
  width : Nat
  height : Nat
  cells : List (List Cell)
  nonEmptyCells : List (Nat × Nat)
  unsolvedCells : List (Nat × Nat)
deriving DecidableEq, Repr

/-- What a call can leave with instead of returning. -/
inductive Raised where
  /-- The statement `throw UnsolvableException()`. -/
  | unsolvable
  /-- The statement `throw *this` of `solve`, carrying the solved board. -/
  | solved (s : Table)
  /-- A `runtime_error` thrown for a malformed raw table. -/
  | badInput
  /-- The source has no defined behaviour here (dereferenced `end()`, index out of range,
  signed overflow). -/
  | undefinedBehaviour
  /-- The fuel of the model is used up. -/
  | outOfFuel
deriving DecidableEq, Repr

/-- How control leaves a call: a normal return with a value, or a raise. -/
inductive Outcome (α : Type) where
  | ok (a : α)
  | raised (e : Raised)
deriving DecidableEq, Repr

/-- The expression `(x + n) % n` with `x` an `int` and `n` an `unsigned`: the sum is
taken in `unsigned`, that is modulo `2 ^ 32`. -/
def wrapIndex (x : Int) (n : Nat) : Nat :=
  (((x + (n : Int)) % 4294967296) % (n : Int)).toNat

/-- Read `cells[line][col]`. -/
def Table.cellAt (t : Table) (line col : Nat) : Cell :=
  (t.cells.getD line []).getD col (Cell.new .PT_EMPTY)

/-- Write `cells[line][col]`. -/
def Table.setCell (t : Table) (line col : Nat) (cell : Cell) : Table :=
  { t with cells := t.cells.set line ((t.cells.getD line []).set col cell) }

/-- Total number of candidates on the board. -/
def Table.candidateCount (t : Table) : Nat :=
  (t.cells.map (fun row => (row.map (fun cell => cell.candidates.length)).sum)).sum

/-- The lambda `predicate` of `forceBorder`. -/
def forcePredicate (close : Bool) (wantsOpen : Bool) : Bool :=
  if close then !wantsOpen else wantsOpen

/-- Model of `Table::enforceStakes`, with the `forceBorder` it calls (through
`closeBorder` and `openBorder`) as a parameter. The cell is a reference in the source, so
its stakes are read from the current table in every round of the loop. -/
def enforceLoop (fb : Table → Int → Int → Direction → Bool → Table × Outcome Bool)
    (line col : Nat) : List Direction → Table → Bool → Table × Outcome Bool
  | [], t, ret => (t, .ok ret)
  | i :: rest, t, ret =>
    let cell := t.cellAt line col
    let disp := displacement i
    if cell.stakes.get i = 0 then
      match fb t ((line : Int) + disp.1) ((col : Int) + disp.2) (oppositeDirection i) true with
      | (t', .ok b) => enforceLoop fb line col rest t' (ret || b)
      | (t', .raised e) => (t', .raised e)
    else if cell.stakes.get i = cell.candidates.length then
      match fb t ((line : Int) + disp.1) ((col : Int) + disp.2) (oppositeDirection i) false with
      | (t', .ok b) => enforceLoop fb line col rest t' (ret || b)
      | (t', .raised e) => (t', .raised e)
    else enforceLoop fb line col rest t ret

/-- Model of `Table::enforceStakes` over a given `forceBorder`. -/
def enforceStakesWith (fb : Table → Int → Int → Direction → Bool → Table × Outcome Bool)
    (t : Table) (line col : Int) : Table × Outcome Bool :=
  enforceLoop fb (wrapIndex line t.height) (wrapIndex col t.width) Direction.all t false

/-- The last branch of `forceBorder` up to the call of `enforceStakes`: keep the candidates
of `cells[line][col]` that agree with the requested state, refresh the stakes and drop the
cell from `unsolvedCells` when it is solved. The new candidate set is built by inserting
the kept candidates in iteration order, which leaves them in that order. -/
def Table.tighten (t : Table) (line col : Nat) (dir : Direction) (close : Bool) : Table :=
  let cell := t.cellAt line col
  let newCandidates := cell.candidates.filter (fun c => forcePredicate close (c.get dir))
  let cell1 := Cell.refreshStakes { cell with candidates := newCandidates }
  let t1 := t.setCell line col cell1
  if cell1.isSolved then { t1 with unsolvedCells := t1.unsolvedCells.erase (line, col) }
  else t1

/-- Model of `Table::forceBorder`; the recursion through `enforceStakes` uses one unit of
fuel. -/
def forceBorderFuel : Nat → Table → Int → Int → Direction → Bool → Table × Outcome Bool
  | 0, t, _, _, _, _ => (t, .raised .outOfFuel)
  | fuel + 1, t, line, col, dir, close =>
    let line := wrapIndex line t.height
    let col := wrapIndex col t.width
    let cell := t.cellAt line col
    if cell.stakes.get dir = 0 then
      if close then (t, .ok false) else (t, .raised .unsolvable)
    else if cell.stakes.get dir = cell.candidates.length then
      if !close then (t, .ok false) else (t, .raised .unsolvable)
    else
      enforceStakesWith (forceBorderFuel fuel) (t.tighten line col dir close) line col

/-- Model of `Table::enforceStakes` with a given fuel. -/
def enforceStakesFuel (fuel : Nat) (t : Table) (line col : Int) : Table × Outcome Bool :=
  enforceStakesWith (forceBorderFuel fuel) t line col

/-- Model of `Table::forceBorder`: every recursive call removes a candidate, so the fuel
`candidateCount + 1` is never used up (`forceBorderFuel_total`). -/
def Table.forceBorder (t : Table) (line col : Int) (dir : Direction) (close : Bool) :
    Table × Outcome Bool :=
  forceBorderFuel (t.candidateCount + 1) t line col dir close

/-- Model of `Table::enforceStakes`. -/
def Table.enforceStakes (t : Table) (line col : Int) : Table × Outcome Bool :=
  enforceStakesFuel (t.candidateCount + 1) t line col

/-- Model of `Table::closeBorder`. -/
def Table.closeBorder (t : Table) (line col : Int) (dir : Direction) : Table × Outcome Bool :=
  t.forceBorder line col dir true

/-- Model of `Table::openBorder`. -/
def Table.openBorder (t : Table) (line col : Int) (dir : Direction) : Table × Outcome Bool :=
  t.forceBorder line col dir false

/-! ## Reachability -/

/-- The toroidal neighbour of `coords` across direction `i`, as computed in
`checkReachability`. -/
def Table.neighbour (t : Table) (coords : Nat × Nat) (i : Direction) : Nat × Nat :=
  (wrapIndex ((coords.1 : Int) + (displacement i).1) t.height,
   wrapIndex ((coords.2 : Int) + (displacement i).2) t.width)

/-- The `for` loop inside the `while` loop of `checkReachability`, on the pair
`(unvisited, toVisit)`. -/
def visitNeighbours (t : Table) (coords : Nat × Nat) :
    List Direction → List (Nat × Nat) → List (Nat × Nat) → List (Nat × Nat) × List (Nat × Nat)
  | [], unvisited, toVisit => (unvisited, toVisit)
  | i :: rest, unvisited, toVisit =>
    if (t.cellAt coords.1 coords.2).stakes.get i = 0 then
      visitNeighbours t coords rest unvisited toVisit
    else if t.neighbour coords i ∈ unvisited then
      visitNeighbours t coords rest (unvisited.erase (t.neighbour coords i))
        (toVisit ++ [t.neighbour coords i])
    else visitNeighbours t coords rest unvisited toVisit

/-- The `while (!toVisit.empty())` loop of `checkReachability`; returns the cells left
unvisited, `none` when the fuel is used up. -/
def reachLoop (t : Table) : Nat → List (Nat × Nat) → List (Nat × Nat) → Option (List (Nat × Nat))
  | 0, _, _ => none
  | _ + 1, unvisited, [] => some unvisited
  | fuel + 1, unvisited, coords :: toVisit =>
    reachLoop t fuel (visitNeighbours t coords Direction.all unvisited toVisit).1
      (visitNeighbours t coords Direction.all unvisited toVisit).2

/-- Model of `Table::checkReachability`. With no non-empty cell the source dereferences
`unvisited.begin()` of an empty set. Every round of the loop takes one cell that was
removed from `unvisited`, so `|nonEmptyCells| + 1` rounds are enough. -/
def Table.checkReachability (t : Table) : Table × Outcome Unit :=
  match t.nonEmptyCells with
  | [] => (t, .raised .undefinedBehaviour)
  | start :: _ =>
    match reachLoop t (t.nonEmptyCells.length + 1) (t.nonEmptyCells.erase start) [start] with
    | none => (t, .raised .outOfFuel)
    | some unvisited =>
      if unvisited.isEmpty then (t, .ok ()) else (t, .raised .unsolvable)

/-! ## Construction -/

/-- Model of `std::set<pair<int, int>>::insert` (lexicographic order on pairs). -/
def coordInsert (p : Nat × Nat) : List (Nat × Nat) → List (Nat × Nat)
  | [] => [p]
  | q :: qs =>
    if p.1 < q.1 ∨ (p.1 = q.1 ∧ p.2 < q.2) then p :: q :: qs
    else if q.1 < p.1 ∨ (q.1 = p.1 ∧ q.2 < p.2) then q :: coordInsert p qs
    else q :: qs

/-- Read `rawTable[idx]` where `idx` is the `int` holding `j + i * width`; outside the
string the read is undefined. -/
def rawAt (rawTable : List Char) (idx : Nat) : Option Char :=
  if idx < 2147483648 then rawTable.get? idx else none

/-- The inner loop of the constructor over the columns `j` of row `i`: the state is the
row being filled and `nonEmptyCells`. -/
def fillRow (width : Nat) (rawTable : List Char) (i : Nat) :
    List Nat → List Cell → List (Nat × Nat) → Outcome (List Cell × List (Nat × Nat))
  | [], row, nonEmpty => .ok (row, nonEmpty)
  | j :: rest, row, nonEmpty =>
    match rawAt rawTable ((j + i * width) % 4294967296) with
    | none => .raised .undefinedBehaviour
    | some ch =>
      match charToPT ch with
      | .piece pt =>
        fillRow width rawTable i rest (row ++ [Cell.new pt])
          (if pt ≠ .PT_EMPTY then coordInsert (i, j) nonEmpty else nonEmpty)
      | .badCharacter => .raised .badInput
      | .outOfFuel => .raised .outOfFuel

/-- The outer loop of the constructor over the rows `i`: the state is `cells` and
`nonEmptyCells`. -/
def fillRows (width : Nat) (rawTable : List Char) :
    List Nat → List (List Cell) → List (Nat × Nat) →
      Outcome (List (List Cell) × List (Nat × Nat))
  | [], cells, nonEmpty => .ok (cells, nonEmpty)
  | i :: rest, cells, nonEmpty =>
    match fillRow width rawTable i (List.range width) (cells.getD i []) nonEmpty with
    | .ok (row, nonEmpty1) => fillRows width rawTable rest (cells.set i row) nonEmpty1
    | .raised e => .raised e

/-- The coordinates `(i, j)` in the order of the nested loops `for i < height`,
`for j < width`. -/
def allCoords (width height : Nat) : List (Nat × Nat) :=
  (List.range height).foldr (fun i acc => (List.range width).map (fun j => (i, j)) ++ acc) []

/-- The second pair of loops of the constructor: `enforceStakes(i, j)` on every cell. -/
def enforceAll : List (Nat × Nat) → Table → Table × Outcome Unit
  | [], t => (t, .ok ())
  | (i, j) :: rest, t =>
    match t.enforceStakes i j with
    | (t1, .ok _) => enforceAll rest t1
    | (t1, .raised e) => (t1, .raised e)

/-- Model of the constructor `Table::Table(width, height, rawTable)`. The product
`width * height` is taken in `unsigned`. A dimension outside the range of `int` makes the
index arithmetic of the source overflow; such boards are outside the model. The raw table
is a string of single-byte characters, so its length is its number of characters. -/
def Table.create (width height : Nat) (rawTable : String) : Outcome Table :=
  if rawTable.length ≠ (width * height) % 4294967296 then .raised .badInput
  else if 2147483648 ≤ width ∨ 2147483648 ≤ height then .raised .undefinedBehaviour
  else
    match fillRows width rawTable.toList (List.range height) (List.replicate height []) [] with
    | .raised e => .raised e
    | .ok (cells, nonEmpty) =>
      match enforceAll (allCoords width height)
          { width := width, height := height, cells := cells,
            nonEmptyCells := nonEmpty, unsolvedCells := nonEmpty } with
      | (_, .raised e) => .raised e
      | (t1, .ok _) =>
        match t1.checkReachability with
        | (t2, .ok _) => .ok t2
        | (_, .raised e) => .raised e

/-! ## Search -/

/-- The `try` block of `Table::attempt` for the probe of `solve`: clone the board, force
the edge on the clone, check reachability if that reported a change, solve the clone. The
clone is dropped; only the way control leaves the block is kept. -/
def tryBlock (solveRec : Table → Int → Table × Outcome Unit) (t : Table) (depth : Int)
    (i j : Nat) (dir : Direction) (close : Bool) : Outcome Unit :=
  match t.forceBorder i j dir close with
  | (_, .raised e) => .raised e
  | (other, .ok changed) =>
    if changed then
      match other.checkReachability with
      | (_, .raised e) => .raised e
      | (other1, .ok _) => (solveRec other1 (depth - 1)).2
    else (solveRec other (depth - 1)).2

/-- Model of `Table::attempt` with the three lambdas built by `attemptToTamper` in `solve`:
the condition reads the cell `(i, j)`, the trial forces `dir` to `close` on the clone and
the resolution forces the opposite state on the board itself. Only `UnsolvableException`
is caught. -/
def attemptWith (solveRec : Table → Int → Table × Outcome Unit) (t : Table) (depth : Int)
    (i j : Nat) (dir : Direction) (close : Bool) : Table × Outcome Bool :=
  let cell := t.cellAt i j
  if cell.stakes.get dir > 0 ∧ cell.stakes.get dir < cell.candidates.length then
    match tryBlock solveRec t depth i j dir close with
    | .ok _ => (t, .ok false)
    | .raised .unsolvable =>
      match t.forceBorder i j dir (!close) with
      | (t1, .raised e) => (t1, .raised e)
      | (t1, .ok changed) =>
        if changed then
          match t1.checkReachability with
          | (t2, .raised e) => (t2, .raised e)
          | (t2, .ok _) => (t2, .ok true)
        else (t1, .ok true)
    | .raised e => (t, .raised e)
  else (t, .ok false)

/-- The probes of one cell in `solve`: `for d in {D_W, D_S}`, `for close in {true, false}`. -/
def probes : List (Direction × Bool) :=
  [(.D_W, true), (.D_W, false), (.D_S, true), (.D_S, false)]

/-- The two innermost loops of `solve` on cell `(i, j)`: returns `true` at the first
attempt that reports progress (`goto again`). -/
def scanProbes (solveRec : Table → Int → Table × Outcome Unit) (depth : Int) (i j : Nat) :
    List (Direction × Bool) → Table → Table × Outcome Bool
  | [], t => (t, .ok false)
  | (d, close) :: rest, t =>
    match attemptWith solveRec t depth i j d close with
    | (t1, .ok true) => (t1, .ok true)
    | (t1, .ok false) => scanProbes solveRec depth i j rest t1
    | (t1, .raised e) => (t1, .raised e)

/-- The loops of `solve` over the cells at one depth: returns `none` for `goto again` and
`some nothingToDo` when the scan is over. -/
def scanCells (solveRec : Table → Int → Table × Outcome Unit) (depth : Int) :
    List (Nat × Nat) → Table → Bool → Table × Outcome (Option Bool)
  | [], t, nothingToDo => (t, .ok (some nothingToDo))
  | (i, j) :: rest, t, nothingToDo =>
    if (t.cellAt i j).isSolved then scanCells solveRec depth rest t nothingToDo
    else
      match scanProbes solveRec depth i j probes t with
      | (t1, .ok true) => (t1, .ok none)
      | (t1, .ok false) => scanCells solveRec depth rest t1 false
      | (t1, .raised e) => (t1, .raised e)

/-- Model of `Table::solve`, entered at the head of the `for` loop with the given `depth`.
One unit of fuel is used by every round of the loop, every `goto again` and every nested
`solve` of an attempt. `depth++` at `INT_MAX` overflows. -/
def solveFuel : Nat → Table → Int → Int → Table × Outcome Unit
  | 0, t, _, _ => (t, .raised .outOfFuel)
  | fuel + 1, t, maxDepth, depth =>
    if depth ≤ maxDepth then
      match scanCells (fun other d => solveFuel fuel other d 1) depth
          (allCoords t.width t.height) t true with
      | (t1, .raised e) => (t1, .raised e)
      | (t1, .ok none) => solveFuel fuel t1 maxDepth 1
      | (t1, .ok (some nothingToDo)) =>
        if nothingToDo then (t1, .raised (.solved t1))
        else if depth = 2147483647 then (t1, .raised .undefinedBehaviour)
        else solveFuel fuel t1 maxDepth (depth + 1)
    else (t, .ok ())

/-- Model of `Table::solve(maxDepth)`. -/
def Table.solve (fuel : Nat) (t : Table) (maxDepth : Int) : Table × Outcome Unit :=
  solveFuel fuel t maxDepth 1

/-- The default argument of `solve`: `std::numeric_limits<int>::max()`. -/
def intMax : Int := 2147483647

/-! ## Specification-side definitions -/

/-- Value of a hexadecimal digit written with `0..9` and `a..f`. -/
def hexValue (c : Char) : Nat :=
  if c.toNat < 58 then c.toNat - 48 else c.toNat - 97 + 10

/-- Number of set bits among the low four bits. -/
def popcount4 (v : Nat) : Nat :=
  v % 2 + v / 2 % 2 + v / 4 % 2 + v / 8 % 2

/-- The decoding rules for a 4-bit value, as the specification words them. -/
def decodeRule (v : Nat) : Decoded :=
  if v = 0 then .piece .PT_EMPTY
  else if popcount4 v = 1 then .piece .PT_DEADEND
  else if v = 5 ∨ v = 10 then .piece .PT_LINE
  else if popcount4 v = 2 then .piece .PT_ELBOW
  else if popcount4 v = 3 then .piece .PT_T
  else .badCharacter

/-! ## Properties of boards -/

/-- The stakes of a cell are consistent with its candidates: `stakes[d]` is the number of
candidates that have a stub on `d`. -/
def Cell.StakesOK (cell : Cell) : Prop :=
  ∀ d ∈ Direction.all, cell.stakes.get d = cell.candidates.countP (fun p => p.get d)

/-- Every cell of the board has consistent stakes. -/
def Table.StakesOK (t : Table) : Prop :=
  ∀ row ∈ t.cells, ∀ cell ∈ row, cell.StakesOK

/-- Every cell of the board has at least one candidate. -/
def Table.CandidatesNonempty (t : Table) : Prop :=
  ∀ row ∈ t.cells, ∀ cell ∈ row, 1 ≤ cell.candidates.length

/-- The cells form a `height × width` grid with both dimensions positive and in the range
of `int`. -/
def Table.Grid (t : Table) : Prop :=
  0 < t.height ∧ t.height < 2147483648 ∧ 0 < t.width ∧ t.width < 2147483648 ∧
    t.cells.length = t.height ∧ ∀ row ∈ t.cells, row.length = t.width

/-- A well-formed board: a grid whose cells have consistent stakes and at least one
candidate each. -/
def Table.WellFormed (t : Table) : Prop :=
  t.Grid ∧ t.StakesOK ∧ t.CandidatesNonempty

/-- Cell by cell, the candidates of `t1` are candidates of `t`. -/
def Table.Sub (t1 t : Table) : Prop :=
  ∀ line col, ∀ p ∈ (t1.cellAt line col).candidates, p ∈ (t.cellAt line col).candidates

/-- Edge `d` of the cell is determined to the state `close` (closed: no candidate has a
stub there; open: every candidate has one). -/
def Cell.Determined (cell : Cell) (d : Direction) (close : Bool) : Prop :=
  if close then cell.stakes.get d = 0 else cell.stakes.get d = cell.candidates.length

/-- Neighbour agreement at cell `p` across direction `d`: a determined edge of the cell is
determined the same way on the other side. -/
def Table.SettledAt (t : Table) (p : Nat × Nat) (d : Direction) : Prop :=
  ((t.cellAt p.1 p.2).stakes.get d = 0 →
      (t.cellAt (t.neighbour p d).1 (t.neighbour p d).2).stakes.get (oppositeDirection d) = 0) ∧
  ((t.cellAt p.1 p.2).stakes.get d = (t.cellAt p.1 p.2).candidates.length →
      (t.cellAt (t.neighbour p d).1 (t.neighbour p d).2).stakes.get (oppositeDirection d)
        = (t.cellAt (t.neighbour p d).1 (t.neighbour p d).2).candidates.length)

/-- Neighbour agreement on the whole board. -/
def Table.Agreement (t : Table) : Prop :=
  ∀ line, line < t.height → ∀ col, col < t.width → ∀ d ∈ Direction.all, t.SettledAt (line, col) d

/-- The cell invariants in per-coordinate form: at every coordinate the stakes are
consistent and there is a candidate. -/
def CellsOK (t : Table) : Prop :=
  ∀ line col, (t.cellAt line col).StakesOK ∧ 1 ≤ (t.cellAt line col).candidates.length

/-- What the propagation lemmas need of the `forceBorder` called by `enforceStakes`: on a
well-formed board a call that returns keeps every settled pair settled and leaves the
forced edge determined as requested. -/
def KeepsSettled (fb : Table → Int → Int → Direction → Bool → Table × Outcome Bool) : Prop :=
  ∀ (t : Table) (line col : Int) (dir : Direction) (close : Bool) (t1 : Table) (b : Bool),
    t.Grid → CellsOK t → fb t line col dir close = (t1, .ok b) →
      (∀ p d, t.SettledAt p d → t1.SettledAt p d) ∧
      (t1.cellAt (wrapIndex line t.height) (wrapIndex col t.width)).Determined dir close

instance (cell : Cell) : Decidable cell.StakesOK := by
  unfold Cell.StakesOK; infer_instance

instance (t : Table) : Decidable t.StakesOK := by
  unfold Table.StakesOK; infer_instance

instance (t : Table) : Decidable t.CandidatesNonempty := by
  unfold Table.CandidatesNonempty; infer_instance

instance (t : Table) : Decidable t.Grid := by
  unfold Table.Grid; infer_instance

instance (t : Table) : Decidable t.WellFormed := by
  unfold Table.WellFormed; infer_instance

instance (cell : Cell) (d : Direction) (close : Bool) : Decidable (cell.Determined d close) := by
  unfold Cell.Determined; infer_instance

instance (t : Table) (p : Nat × Nat) (d : Direction) : Decidable (t.SettledAt p d) := by
  unfold Table.SettledAt; infer_instance

instance (t : Table) : Decidable t.Agreement := by
  unfold Table.Agreement; infer_instance

/-! ## Sample boards -/

/-- The board of the raw table `1111` of width 4 and height 1, as the constructor leaves
it: four DEADEND cells with all rotations. -/
def deadendRow : Table :=
  { width := 4, height := 1
    cells := [List.replicate 4 (Cell.new .PT_DEADEND)]
    nonEmptyCells := [(0, 0), (0, 1), (0, 2), (0, 3)]
    unsolvedCells := [(0, 0), (0, 1), (0, 2), (0, 3)] }

/-! ## Reachability, as the specification words it -/

/-- The order of `pair<int, int>`: lexicographic. -/
def coordLt (p q : Nat × Nat) : Prop :=
  p.1 < q.1 ∨ (p.1 = q.1 ∧ p.2 < q.2)

instance (p q : Nat × Nat) : Decidable (coordLt p q) := by
  unfold coordLt; infer_instance

/-- The list `nonEmptyCells` is a valid `std::set`: strictly increasing. -/
def Table.NonEmptySorted (t : Table) : Prop :=
  t.nonEmptyCells.Pairwise coordLt

instance (t : Table) : Decidable t.NonEmptySorted := by
  unfold Table.NonEmptySorted; infer_instance

/-- One step of a path of the reachability graph: leave the cell `p` through a direction
`d` with `stakes[d] > 0` to its toroidal neighbour `q`, a non-empty cell. -/
def Table.PossibleStep (t : Table) (p q : Nat × Nat) : Prop :=
  ∃ d : Direction, (t.cellAt p.1 p.2).stakes.get d ≠ 0 ∧ q = t.neighbour p d ∧
    q ∈ t.nonEmptyCells

/-- The cell `q` is reached from `start` by a path of possible steps. -/
def Table.Reachable (t : Table) (start q : Nat × Nat) : Prop :=
  Relation.ReflTransGen t.PossibleStep start q

/-- The invariant of the `while` loop of `checkReachability` on the pair
`(unvisited, toVisit)`. -/
structure ReachInv (t : Table) (start : Nat × Nat) (unvisited toVisit : List (Nat × Nat)) :
    Prop where
  nodup : unvisited.Nodup
  sub : ∀ q ∈ unvisited, q ∈ t.nonEmptyCells
  start_out : start ∉ unvisited
  queue : ∀ q ∈ toVisit, q ∈ t.nonEmptyCells ∧ q ∉ unvisited ∧ t.Reachable start q
  visited : ∀ p ∈ t.nonEmptyCells, p ∉ unvisited → t.Reachable start p
  closed : ∀ p ∈ t.nonEmptyCells, p ∉ unvisited → p ∉ toVisit →
    ∀ d : Direction, (t.cellAt p.1 p.2).stakes.get d ≠ 0 → t.neighbour p d ∉ unvisited

/-! ## Solutions, as the specification words them -/

/-- The assignment `σ` picks, for every cell of the grid, one of its current candidates. -/
def Table.Chooses (t : Table) (σ : Nat × Nat → Piece) : Prop :=
  ∀ line, line < t.height → ∀ col, col < t.width →
    σ (line, col) ∈ (t.cellAt line col).candidates

/-- Under `σ`, every stub of a cell meets a stub on the opposite edge of its toroidal
neighbour. -/
def Table.StubsMatch (t : Table) (σ : Nat × Nat → Piece) : Prop :=
  ∀ line, line < t.height → ∀ col, col < t.width → ∀ d : Direction,
    (σ (line, col)).get d = true →
      (σ (t.neighbour (line, col) d)).get (oppositeDirection d) = true

/-- One step over an open edge of `σ`: leave `p` through a stub to a non-empty cell. -/
def Table.OpenStep (t : Table) (σ : Nat × Nat → Piece) (p q : Nat × Nat) : Prop :=
  ∃ d : Direction, (σ p).get d = true ∧ q = t.neighbour p d ∧ q ∈ t.nonEmptyCells

/-- Under `σ`, the non-empty cells form one connected component over the open edges. -/
def Table.ConnectedUnder (t : Table) (σ : Nat × Nat → Piece) : Prop :=
  ∀ p ∈ t.nonEmptyCells, ∀ q ∈ t.nonEmptyCells, Relation.ReflTransGen (t.OpenStep σ) p q

/-- The coordinates in `nonEmptyCells` are cells of the grid. -/
def Table.NonEmptyInGrid (t : Table) : Prop :=
  ∀ p ∈ t.nonEmptyCells, p.1 < t.height ∧ p.2 < t.width

instance (t : Table) : Decidable t.NonEmptyInGrid := by
  unfold Table.NonEmptyInGrid; infer_instance

/-- A solved DEADEND cell holding the one rotation `p`. -/
def deadendCell (p : Piece) : Cell :=
  Cell.refreshStakes { type := .PT_DEADEND, candidates := [p], stakes := ⟨0, 0, 0, 0⟩ }

/-- The board that `solve` throws for the raw table `1111` of width 4 and height 1: the
cells point E, W, E, W, which pairs them up in two separate components. -/
def deadendPairs : Table :=
  { width := 4, height := 1
    cells := [[deadendCell ⟨false, true, false, false⟩, deadendCell ⟨false, false, false, true⟩,
      deadendCell ⟨false, true, false, false⟩, deadendCell ⟨false, false, false, true⟩]]
    nonEmptyCells := [(0, 0), (0, 1), (0, 2), (0, 3)]
    unsolvedCells := [] }

/-- The orbit of the canonical stub vector of a kind under the rotation by 90° clockwise:
the four iterates, before duplicates are removed. -/
def orbit (pt : PieceType) : List Piece :=
  (List.range 4).map (fun k => rotatePiece^[k] (canonicalPiece pt))

/-- The number of distinct rotations of a kind, as the specification tabulates it. -/
def rotationCount : PieceType → Nat
  | .PT_EMPTY => 1
  | .PT_DEADEND => 4
  | .PT_LINE => 2
  | .PT_ELBOW => 4
  | .PT_T => 4

/-- The 1×1 board holding a fresh cell of the given kind, as the constructor leaves it for
a non-EMPTY kind. -/
def singleBoard (pt : PieceType) : Table :=
  { width := 1, height := 1
    cells := [[Cell.new pt]]
    nonEmptyCells := [(0, 0)]
    unsolvedCells := [(0, 0)] }

/-- A LINE cell holding the one rotation `p`. -/
def lineCell (p : Piece) : Cell :=
  Cell.refreshStakes { type := .PT_LINE, candidates := [p], stakes := ⟨0, 0, 0, 0⟩ }

/-- The vertical rotation of a LINE: stubs on N and S. -/
def verticalLine : Piece := ⟨true, false, true, false⟩

/-- The horizontal rotation of a LINE: stubs on E and W. -/
def horizontalLine : Piece := ⟨false, true, false, true⟩

/-- The 1×1 board whose LINE cell holds the vertical rotation. -/
def verticalSingle : Table :=
  { width := 1, height := 1
    cells := [[lineCell verticalLine]]
    nonEmptyCells := [(0, 0)]
    unsolvedCells := [] }

/-- The nested `solve` called `rec2` does what `rec1` does whenever `rec1` does not run out
of fuel. -/
def FuelExtends (rec1 rec2 : Table → Int → Table × Outcome Unit) : Prop :=
  ∀ (other : Table) (d : Int), (rec1 other d).2 ≠ .raised .outOfFuel →
    rec2 other d = rec1 other d

/-! ## Counting the tightening steps of a propagation -/

/-- The loop of `enforceStakes` with a counter: `n` is the number of calls of `forceBorder`
that removed candidates so far, and every call made by the loop adds its own number. -/
def enforceLoopCount (fb : Table → Int → Int → Direction → Bool → (Table × Outcome Bool) × Nat)
    (line col : Nat) : List Direction → Table → Bool → Nat → (Table × Outcome Bool) × Nat
  | [], t, ret, n => ((t, .ok ret), n)
  | i :: rest, t, ret, n =>
    let cell := t.cellAt line col
    let disp := displacement i
    if cell.stakes.get i = 0 then
      match fb t ((line : Int) + disp.1) ((col : Int) + disp.2) (oppositeDirection i) true with
      | ((t1, .ok b), k) => enforceLoopCount fb line col rest t1 (ret || b) (n + k)
      | ((t1, .raised e), k) => ((t1, .raised e), n + k)
    else if cell.stakes.get i = cell.candidates.length then
      match fb t ((line : Int) + disp.1) ((col : Int) + disp.2) (oppositeDirection i) false with
      | ((t1, .ok b), k) => enforceLoopCount fb line col rest t1 (ret || b) (n + k)
      | ((t1, .raised e), k) => ((t1, .raised e), n + k)
    else enforceLoopCount fb line col rest t ret n

/-- The function `forceBorderFuel` with a counter: besides the result, the number of calls of
`forceBorder` in this propagation (this call and the ones it causes) that removed
candidates. -/
def forceBorderCount : Nat → Table → Int → Int → Direction → Bool → (Table × Outcome Bool) × Nat
  | 0, t, _, _, _, _ => ((t, .raised .outOfFuel), 0)
  | fuel + 1, t, line, col, dir, close =>
    let line := wrapIndex line t.height
    let col := wrapIndex col t.width
    let cell := t.cellAt line col
    if cell.stakes.get dir = 0 then
      if close then ((t, .ok false), 0) else ((t, .raised .unsolvable), 0)
    else if cell.stakes.get dir = cell.candidates.length then
      if !close then ((t, .ok false), 0) else ((t, .raised .unsolvable), 0)
    else
      enforceLoopCount (forceBorderCount fuel)
        (wrapIndex line (t.tighten line col dir close).height)
        (wrapIndex col (t.tighten line col dir close).width)
        Direction.all (t.tighten line col dir close) false 1

/-- The function `enforceStakesFuel` with the counter. -/
def enforceStakesCount (fuel : Nat) (t : Table) (line col : Int) : (Table × Outcome Bool) × Nat :=
  enforceLoopCount (forceBorderCount fuel) (wrapIndex line t.height) (wrapIndex col t.width)
    Direction.all t false 0

/-- Number of undetermined edges of a cell. -/
def Cell.undetermined (cell : Cell) : Nat :=
  Direction.all.countP
    (fun d => decide (cell.stakes.get d ≠ 0 ∧ cell.stakes.get d ≠ cell.candidates.length))

/-- Number of undetermined edges on the board, counted cell by cell. -/
def Table.undeterminedCount (t : Table) : Nat :=
  (t.cells.map (fun row => (row.map Cell.undetermined).sum)).sum

/-! ## Solutions under propagation -/

instance : Fintype Direction :=
  ⟨⟨Direction.all, by decide⟩, fun d => by cases d <;> decide⟩

instance (t : Table) (σ : Nat × Nat → Piece) : Decidable (t.Chooses σ) := by
  unfold Table.Chooses; infer_instance

instance (t : Table) (σ : Nat × Nat → Piece) : Decidable (t.StubsMatch σ) := by
  unfold Table.StubsMatch; infer_instance

/-- What the lemmas on solutions need of the `forceBorder` called by `enforceStakes`: on a
grid with consistent stakes on which `σ` picks candidates with matching stubs, a call that
forces an edge to the state `σ` has there does not raise `Unsolvable` and leaves the
choices of `σ` among the candidates. -/
def KeepsSolution (σ : Nat × Nat → Piece)
    (fb : Table → Int → Int → Direction → Bool → Table × Outcome Bool) : Prop :=
  ∀ (t : Table) (line col : Int) (dir : Direction) (close : Bool),
    t.Grid → CellsOK t → t.Chooses σ → t.StubsMatch σ →
    forcePredicate close ((σ (wrapIndex line t.height, wrapIndex col t.width)).get dir) = true →
    (fb t line col dir close).2 ≠ .raised .unsolvable ∧ (fb t line col dir close).1.Chooses σ

/-- The board of the raw table `11` of width 2 and height 1, as the constructor leaves it:
two DEADEND cells with all rotations. -/
def deadendPair : Table :=
  { width := 2, height := 1
    cells := [List.replicate 2 (Cell.new .PT_DEADEND)]
    nonEmptyCells := [(0, 0), (0, 1)]
    unsolvedCells := [(0, 0), (0, 1)] }

/-- The solution of `deadendPair`: the left cell points E, the right cell points W. -/
def facingPair (p : Nat × Nat) : Piece :=
  if p.2 = 0 then ⟨false, true, false, false⟩ else ⟨false, false, false, true⟩

/-- A board on which `σ` is a choice of candidates with matching stubs: a grid with
consistent stakes and a candidate in every cell, on which `σ` picks candidates whose stubs
match. -/
def HasSolution (σ : Nat × Nat → Piece) (t : Table) : Prop :=
  t.Grid ∧ CellsOK t ∧ t.Chooses σ ∧ t.StubsMatch σ

/-! ## The kinds of a raw table -/

/-- The kind that the character at position `idx` of the raw table decodes to (EMPTY when
there is none). -/
def kindAt (raw : List Char) (idx : Nat) : PieceType :=
  match raw.get? idx with
  | some ch =>
    match charToPT ch with
    | .piece pt => pt
    | _ => .PT_EMPTY
  | none => .PT_EMPTY

/-- The decoder returned a piece kind. -/
def Decoded.isPiece : Decoded → Bool
  | .piece _ => true
  | _ => false

/-- Every character of the raw table decodes to a piece kind. -/
def Decodes (raw : List Char) : Prop :=
  ∀ ch ∈ raw, (charToPT ch).isPiece = true

instance (raw : List Char) : Decidable (Decodes raw) := by
  unfold Decodes; infer_instance

/-- The updates of `nonEmptyCells` made while row `i` is filled: the coordinates of the
columns `js` whose kind is not EMPTY are inserted. -/
def insertRow (width : Nat) (raw : List Char) (i : Nat) (js : List Nat)
    (ne : List (Nat × Nat)) : List (Nat × Nat) :=
  js.foldl (fun acc j =>
    if kindAt raw (j + i * width) ≠ .PT_EMPTY then coordInsert (i, j) acc else acc) ne

/-- The row `i` of fresh cells of the kinds of the raw table. -/
def freshRow (width : Nat) (raw : List Char) (i : Nat) : List Cell :=
  (List.range width).map (fun j => Cell.new (kindAt raw (j + i * width)))

/-- The updates of `nonEmptyCells` made while the rows `rows` are filled. -/
def insertRows (width : Nat) (raw : List Char) (rows : List Nat)
    (ne : List (Nat × Nat)) : List (Nat × Nat) :=
  rows.foldl (fun acc i => insertRow width raw i (List.range width) acc) ne

/-- The board that the constructor has built when it starts the pass of `enforceStakes`:
fresh cells of the kinds of the raw table. -/
def freshBoard (width height : Nat) (raw : List Char) : Table :=
  { width := width, height := height
    cells := (List.range height).map (freshRow width raw)
    nonEmptyCells := insertRows width raw (List.range height) []
    unsolvedCells := insertRows width raw (List.range height) [] }

/-- The raw table of a row of `w` LINE pieces: `w` times the character `5`. -/
def lineRaw (w : Nat) : List Char := List.replicate w '5'

/-! ## A board with one piece -/

/-- A board whose only piece is a DEADEND at `(r, c)`: a grid with consistent cells and
neighbour agreement in which every other cell has the candidates of an EMPTY cell and the
cell `(r, c)` has some of the candidates of a DEADEND. -/
def LoneDeadend (t : Table) (r c : Nat) : Prop :=
  t.Grid ∧ CellsOK t ∧ t.Agreement ∧ r < t.height ∧ c < t.width ∧
  (∀ i j, i < t.height → j < t.width → (i, j) ≠ (r, c) →
    (t.cellAt i j).candidates = (Cell.new .PT_EMPTY).candidates) ∧
  (t.cellAt r c).candidates.Sublist (Cell.new .PT_DEADEND).candidates

/-- Number of candidates in the list with a stub on `d`. -/
def stubCount (d : Direction) (l : List Piece) : Nat :=
  l.countP (fun p => p.get d)

/-- What neighbour agreement of a cell with itself across the pair of directions `a`, `b`
says of its candidates `l`: when every candidate has a stub on one of them, every candidate
has a stub on the other. -/
def SelfFacing (a b : Direction) (l : List Piece) : Prop :=
  (stubCount a l = l.length → stubCount b l = l.length) ∧
  (stubCount b l = l.length → stubCount a l = l.length)

instance (a b : Direction) (l : List Piece) : Decidable (SelfFacing a b l) := by
  unfold SelfFacing; infer_instance
/-! # Theorems -/

/-! ## The decoder -/

/-- C10: for every character in `0..9` and `a..f`, read as a 4-bit value, `charToPT`
returns EMPTY for 0, DEADEND for popcount 1, LINE for 5 and 10, ELBOW for the other values
of popcount 2, T for popcount 3 and fails with the bad-character error for popcount 4. -/
theorem charToPT_hex_digit (c : Char)
    (h : (48 ≤ c.toNat ∧ c.toNat ≤ 57) ∨ (97 ≤ c.toNat ∧ c.toNat ≤ 102)) :
    charToPT c = decodeRule (hexValue c) := by
  have hc : charToPT c = charToPTCode (narrowChar (c.toNat : Int)) := rfl
  rw [hc]
  unfold hexValue
  generalize c.toNat = n at h
  rcases h with ⟨h1, h2⟩ | ⟨h1, h2⟩ <;> interval_cases n <;> decide

/-- C10 at the digit `f`, of popcount 4. -/
theorem charToPT_hex_digit_witness :
    ((48 ≤ 'f'.toNat ∧ 'f'.toNat ≤ 57) ∨ (97 ≤ 'f'.toNat ∧ 'f'.toNat ≤ 102)) ∧
      charToPT 'f' = decodeRule (hexValue 'f') :=
  ⟨by decide, charToPT_hex_digit 'f' (by decide)⟩


/-! ## Basic facts -/

theorem bumpStakes_get (st : Quad Nat) (c : Piece) (d : Direction) :
    (bumpStakes st c).get d = st.get d + (if c.get d then 1 else 0) := by
  obtain ⟨c0, c1, c2, c3⟩ := c
  cases d <;> cases c0 <;> cases c1 <;> cases c2 <;> cases c3 <;>
    simp [bumpStakes, Direction.all, Quad.get, Quad.set]

theorem foldl_bumpStakes_get (l : List Piece) (st : Quad Nat) (d : Direction) :
    (l.foldl bumpStakes st).get d = st.get d + l.countP (fun p => p.get d) := by
  induction l generalizing st with
  | nil => simp
  | cons p ps ih =>
    rw [List.foldl_cons, ih, bumpStakes_get, List.countP_cons]
    omega

theorem refreshStakes_get (cell : Cell) (d : Direction) :
    (Cell.refreshStakes cell).stakes.get d = cell.candidates.countP (fun p => p.get d) := by
  show (cell.candidates.foldl bumpStakes ⟨0, 0, 0, 0⟩).get d = _
  rw [foldl_bumpStakes_get]
  cases d <;> simp [Quad.get]

theorem setCell_cells_of_not_inRange (t : Table) (line col : Nat) (x : Cell)
    (h : ¬ (line < t.cells.length ∧ col < (t.cells.getD line []).length)) :
    (t.setCell line col x).cells = t.cells := by
  unfold Table.setCell
  simp only
  by_cases h1 : line < t.cells.length
  · have h2 : ¬ col < (t.cells.getD line []).length := fun e => h ⟨h1, e⟩
    rw [List.set_eq_of_length_le (Nat.le_of_not_lt h2)]
    apply List.ext_getElem? 
    intro n
    rw [List.getElem?_set]
    by_cases h3 : line = n
    · subst h3
      simp [h1, List.getD_eq_getElem?_getD]
    · simp [h3]
  · exact List.set_eq_of_length_le (Nat.le_of_not_lt h1)

theorem cellAt_setCell_ne (t : Table) (line col l c : Nat) (x : Cell)
    (h : ¬ (l = line ∧ c = col)) : (t.setCell line col x).cellAt l c = t.cellAt l c := by
  by_cases hr : line < t.cells.length ∧ col < (t.cells.getD line []).length
  · unfold Table.cellAt Table.setCell
    simp only [List.getD_eq_getElem?_getD, List.getElem?_set]
    by_cases h1 : line = l
    · subst h1
      have h2 : ¬ col = c := fun e => h ⟨rfl, e.symm⟩
      simp [hr.1, List.getElem?_set, h2]
    · simp [h1]
  · unfold Table.cellAt
    rw [setCell_cells_of_not_inRange t line col x hr]

theorem cellAt_setCell_eq (t : Table) (line col : Nat) (x : Cell)
    (h1 : line < t.cells.length) (h2 : col < (t.cells.getD line []).length) :
    (t.setCell line col x).cellAt line col = x := by
  unfold Table.cellAt Table.setCell
  simp only [List.getD_eq_getElem?_getD, List.getElem?_set] at h2 ⊢
  simp only [List.getElem?_eq_getElem h1, Option.getD_some] at h2
  simp [h1, List.getElem?_set, h2]

theorem cellAt_setCell_cases (t : Table) (line col l c : Nat) (x : Cell) :
    (t.setCell line col x).cellAt l c = x ∨ (t.setCell line col x).cellAt l c = t.cellAt l c := by
  by_cases h : line < t.cells.length ∧ col < (t.cells.getD line []).length
  · by_cases h1 : l = line ∧ c = col
    · obtain ⟨rfl, rfl⟩ := h1
      exact Or.inl (cellAt_setCell_eq t l c x h.1 h.2)
    · exact Or.inr (cellAt_setCell_ne t line col l c x h1)
  · right
    unfold Table.cellAt
    rw [setCell_cells_of_not_inRange t line col x h]

/-! ## Cells of a board -/

theorem direction_mem_all (d : Direction) : d ∈ Direction.all := by
  cases d <;> simp [Direction.all]

theorem cellAt_mem_or_default (t : Table) (line col : Nat) :
    (∃ row ∈ t.cells, t.cellAt line col ∈ row) ∨ t.cellAt line col = Cell.new .PT_EMPTY := by
  unfold Table.cellAt
  simp only [List.getD_eq_getElem?_getD]
  by_cases h1 : line < t.cells.length
  · by_cases h2 : col < (t.cells[line]).length
    · left
      refine ⟨t.cells[line], List.getElem_mem _, ?_⟩
      simp [List.getElem?_eq_getElem h1, List.getElem?_eq_getElem h2]
    · right
      simp [List.getElem?_eq_getElem h1, List.getElem?_eq_none (Nat.le_of_not_lt h2)]
  · right
    simp [List.getElem?_eq_none (Nat.le_of_not_lt h1)]

theorem mem_cells_exists_cellAt (t : Table) (row : List Cell) (hr : row ∈ t.cells)
    (cell : Cell) (hc : cell ∈ row) : ∃ line col, t.cellAt line col = cell := by
  obtain ⟨line, h1, rfl⟩ := List.getElem_of_mem hr
  obtain ⟨col, h2, rfl⟩ := List.getElem_of_mem hc
  refine ⟨line, col, ?_⟩
  unfold Table.cellAt
  simp [List.getD_eq_getElem?_getD, List.getElem?_eq_getElem h1, List.getElem?_eq_getElem h2]

/-- A property of cells that the default cell has holds for every cell of the board iff it
holds at every coordinate. -/
theorem forall_cells_iff (t : Table) (P : Cell → Prop) (hd : P (Cell.new .PT_EMPTY)) :
    (∀ row ∈ t.cells, ∀ cell ∈ row, P cell) ↔ ∀ line col, P (t.cellAt line col) := by
  constructor
  · intro h line col
    rcases cellAt_mem_or_default t line col with ⟨row, hr, hc⟩ | he
    · exact h row hr _ hc
    · rw [he]; exact hd
  · intro h row hr cell hc
    obtain ⟨line, col, rfl⟩ := mem_cells_exists_cellAt t row hr cell hc
    exact h line col

theorem stakesOK_refresh (cell : Cell) : (Cell.refreshStakes cell).StakesOK := by
  intro d _
  rw [refreshStakes_get]
  rfl

theorem stakesOK_new (pt : PieceType) : (Cell.new pt).StakesOK :=
  stakesOK_refresh _

theorem candidates_new_pos (pt : PieceType) : 1 ≤ (Cell.new pt).candidates.length := by
  cases pt <;> decide

theorem stakesOK_iff (t : Table) : t.StakesOK ↔ ∀ line col, (t.cellAt line col).StakesOK :=
  forall_cells_iff t Cell.StakesOK (stakesOK_new _)

theorem candidatesNonempty_iff (t : Table) :
    t.CandidatesNonempty ↔ ∀ line col, 1 ≤ (t.cellAt line col).candidates.length :=
  forall_cells_iff t (fun cell => 1 ≤ cell.candidates.length) (candidates_new_pos _)

/-! ## One tightening step -/

/-- The cell that `tighten` writes. -/
theorem tighten_cells (t : Table) (line col : Nat) (dir : Direction) (close : Bool) :
    (t.tighten line col dir close).cells =
      (t.setCell line col (Cell.refreshStakes
        { t.cellAt line col with
          candidates := (t.cellAt line col).candidates.filter
            (fun c => forcePredicate close (c.get dir)) })).cells := by
  unfold Table.tighten
  simp only
  split <;> rfl

theorem tighten_height (t : Table) (line col : Nat) (dir : Direction) (close : Bool) :
    (t.tighten line col dir close).height = t.height := by
  unfold Table.tighten
  simp only
  split <;> rfl

theorem tighten_width (t : Table) (line col : Nat) (dir : Direction) (close : Bool) :
    (t.tighten line col dir close).width = t.width := by
  unfold Table.tighten
  simp only
  split <;> rfl

theorem tighten_nonEmptyCells (t : Table) (line col : Nat) (dir : Direction) (close : Bool) :
    (t.tighten line col dir close).nonEmptyCells = t.nonEmptyCells := by
  unfold Table.tighten
  simp only
  split <;> rfl

theorem cellAt_congr {t1 t2 : Table} (h : t1.cells = t2.cells) (line col : Nat) :
    t1.cellAt line col = t2.cellAt line col := by
  unfold Table.cellAt
  rw [h]

theorem cellAt_tighten_ne (t : Table) (line col l c : Nat) (dir : Direction) (close : Bool)
    (h : ¬ (l = line ∧ c = col)) :
    (t.tighten line col dir close).cellAt l c = t.cellAt l c := by
  rw [cellAt_congr (tighten_cells t line col dir close)]
  exact cellAt_setCell_ne t line col l c _ h

theorem cellAt_tighten_cases (t : Table) (line col l c : Nat) (dir : Direction) (close : Bool) :
    (t.tighten line col dir close).cellAt l c =
        Cell.refreshStakes
          { t.cellAt line col with
            candidates := (t.cellAt line col).candidates.filter
              (fun c => forcePredicate close (c.get dir)) } ∧ l = line ∧ c = col
      ∨ (t.tighten line col dir close).cellAt l c = t.cellAt l c := by
  rw [cellAt_congr (tighten_cells t line col dir close)]
  by_cases h : l = line ∧ c = col
  · obtain ⟨rfl, rfl⟩ := h
    rcases cellAt_setCell_cases t l c l c (Cell.refreshStakes
        { t.cellAt l c with
          candidates := (t.cellAt l c).candidates.filter
            (fun c => forcePredicate close (c.get dir)) }) with h1 | h1
    · exact Or.inl ⟨h1, rfl, rfl⟩
    · exact Or.inr h1
  · exact Or.inr (cellAt_setCell_ne t line col l c _ h)

theorem refreshStakes_candidates (cell : Cell) :
    (Cell.refreshStakes cell).candidates = cell.candidates := rfl

/-- A tightening step only removes candidates. -/
theorem tighten_sub (t : Table) (line col : Nat) (dir : Direction) (close : Bool) :
    (t.tighten line col dir close).Sub t := by
  intro l c p hp
  rcases cellAt_tighten_cases t line col l c dir close with ⟨h, rfl, rfl⟩ | h
  · rw [h, refreshStakes_candidates] at hp
    exact (List.mem_filter.mp hp).1
  · rwa [h] at hp

theorem Table.Sub.refl (t : Table) : t.Sub t := fun _ _ _ h => h

theorem Table.Sub.trans {t1 t2 t3 : Table} (h12 : t1.Sub t2) (h23 : t2.Sub t3) : t1.Sub t3 :=
  fun l c p h => h23 l c p (h12 l c p h)

theorem cellsOK_iff (t : Table) : CellsOK t ↔ t.StakesOK ∧ t.CandidatesNonempty := by
  rw [stakesOK_iff, candidatesNonempty_iff]
  exact ⟨fun h => ⟨fun l c => (h l c).1, fun l c => (h l c).2⟩, fun h l c => ⟨h.1 l c, h.2 l c⟩⟩

theorem length_filter_forcePredicate_pos (cands : List Piece) (dir : Direction) (close : Bool)
    (h0 : cands.countP (fun p => p.get dir) ≠ 0)
    (h1 : cands.countP (fun p => p.get dir) ≠ cands.length) :
    1 ≤ (cands.filter (fun c => forcePredicate close (c.get dir))).length := by
  have hsum := List.length_eq_countP_add_countP (fun p : Piece => p.get dir) cands
  cases close with
  | false =>
    have : (fun c : Piece => forcePredicate false (c.get dir)) = fun p => p.get dir := by
      funext c; simp [forcePredicate]
    rw [this, ← List.countP_eq_length_filter]
    omega
  | true =>
    have : (fun c : Piece => forcePredicate true (c.get dir)) = fun p => !(p.get dir) := by
      funext c; simp [forcePredicate]
    rw [this, ← List.countP_eq_length_filter]
    simp only [Bool.not_eq_true, Bool.decide_eq_false] at hsum
    omega

/-- A tightening step at an undetermined edge keeps the cell invariants. -/
theorem tighten_cellsOK (t : Table) (line col : Nat) (dir : Direction) (close : Bool)
    (h : CellsOK t) (h0 : (t.cellAt line col).stakes.get dir ≠ 0)
    (h1 : (t.cellAt line col).stakes.get dir ≠ (t.cellAt line col).candidates.length) :
    CellsOK (t.tighten line col dir close) := by
  intro l c
  rcases cellAt_tighten_cases t line col l c dir close with ⟨he, rfl, rfl⟩ | he
  · rw [he]
    refine ⟨stakesOK_refresh _, ?_⟩
    rw [refreshStakes_candidates]
    have hs := (h l c).1 dir (direction_mem_all dir)
    rw [hs] at h0 h1
    exact length_filter_forcePredicate_pos _ dir close h0 h1
  · rw [he]; exact h l c

/-! ## Induction over the propagation -/

/-- A property of boards kept by whatever `forceBorder` is used is kept by the loop of
`enforceStakes`, however control leaves it. -/
theorem enforceLoop_inv (P : Table → Prop)
    (fb : Table → Int → Int → Direction → Bool → Table × Outcome Bool)
    (hfb : ∀ t line col dir close, P t → P (fb t line col dir close).1) (line col : Nat) :
    ∀ (dirs : List Direction) (t : Table) (ret : Bool),
      P t → P (enforceLoop fb line col dirs t ret).1 := by
  intro dirs
  induction dirs with
  | nil => intro t ret h; exact h
  | cons i rest ih =>
    intro t ret h
    unfold enforceLoop
    simp only
    split
    · have h1 := hfb t ((line : Int) + (displacement i).1) ((col : Int) + (displacement i).2)
        (oppositeDirection i) true h
      split
      · next t1 b heq => rw [heq] at h1; exact ih t1 _ h1
      · next t1 e heq => rw [heq] at h1; exact h1
    · split
      · have h1 := hfb t ((line : Int) + (displacement i).1) ((col : Int) + (displacement i).2)
          (oppositeDirection i) false h
        split
        · next t1 b heq => rw [heq] at h1; exact ih t1 _ h1
        · next t1 e heq => rw [heq] at h1; exact h1
      · exact ih t ret h

/-- A property of boards kept by every tightening step at an undetermined edge is kept by
`forceBorder`, for every fuel and however control leaves the call. -/
theorem forceBorderFuel_inv (P : Table → Prop)
    (hT : ∀ t line col dir close, P t → (t.cellAt line col).stakes.get dir ≠ 0 →
      (t.cellAt line col).stakes.get dir ≠ (t.cellAt line col).candidates.length →
      P (t.tighten line col dir close)) :
    ∀ (fuel : Nat) (t : Table) (line col : Int) (dir : Direction) (close : Bool),
      P t → P (forceBorderFuel fuel t line col dir close).1 := by
  intro fuel
  induction fuel with
  | zero => intro t line col dir close h; exact h
  | succ fuel ih =>
    intro t line col dir close h
    unfold forceBorderFuel
    simp only
    split
    · split <;> exact h
    · next h0 =>
      split
      · split <;> exact h
      · next h1 =>
        unfold enforceStakesWith
        exact enforceLoop_inv P _ ih _ _ _ _ _ (hT _ _ _ _ _ h h0 h1)

theorem enforceStakesFuel_inv (P : Table → Prop)
    (hT : ∀ t line col dir close, P t → (t.cellAt line col).stakes.get dir ≠ 0 →
      (t.cellAt line col).stakes.get dir ≠ (t.cellAt line col).candidates.length →
      P (t.tighten line col dir close))
    (fuel : Nat) (t : Table) (line col : Int) (h : P t) :
    P (enforceStakesFuel fuel t line col).1 := by
  unfold enforceStakesFuel enforceStakesWith
  exact enforceLoop_inv P _ (forceBorderFuel_inv P hT fuel) _ _ _ _ _ h

/-- Propagation keeps the cell invariants. -/
theorem forceBorderFuel_cellsOK (fuel : Nat) (t : Table) (line col : Int) (dir : Direction)
    (close : Bool) (h : CellsOK t) : CellsOK (forceBorderFuel fuel t line col dir close).1 :=
  forceBorderFuel_inv CellsOK (fun t line col dir close h h0 h1 =>
    tighten_cellsOK t line col dir close h h0 h1) fuel t line col dir close h

/-- Propagation only removes candidates, given the cell invariants. -/
theorem forceBorderFuel_sub (fuel : Nat) (t : Table) (line col : Int) (dir : Direction)
    (close : Bool) : (forceBorderFuel fuel t line col dir close).1.Sub t :=
  forceBorderFuel_inv (fun t1 => t1.Sub t) (fun t1 line col dir close h _ _ =>
    (tighten_sub t1 line col dir close).trans h) fuel t line col dir close (Table.Sub.refl t)

theorem enforceStakesFuel_sub (fuel : Nat) (t : Table) (line col : Int) :
    (enforceStakesFuel fuel t line col).1.Sub t :=
  enforceStakesFuel_inv (fun t1 => t1.Sub t) (fun t1 line col dir close h _ _ =>
    (tighten_sub t1 line col dir close).trans h) fuel t line col (Table.Sub.refl t)

/-! ## Determined edges -/

theorem inRange_of_stakes_ne_zero (t : Table) (l c : Nat) (d : Direction)
    (h : (t.cellAt l c).stakes.get d ≠ 0) :
    l < t.cells.length ∧ c < (t.cells.getD l []).length := by
  by_contra hr
  apply h
  have hd : t.cellAt l c = Cell.new .PT_EMPTY := by
    unfold Table.cellAt
    simp only [List.getD_eq_getElem?_getD] at hr ⊢
    by_cases h1 : l < t.cells.length
    · have h2 : ¬ c < (t.cells[l]?.getD []).length := fun e => hr ⟨h1, e⟩
      rw [List.getElem?_eq_none (Nat.le_of_not_lt h2)]
      rfl
    · rw [List.getElem?_eq_none (Nat.le_of_not_lt h1)]
      rfl
  rw [hd]
  cases d <;> decide

theorem cellAt_tighten_eq (t : Table) (line col : Nat) (dir : Direction) (close : Bool)
    (h : (t.cellAt line col).stakes.get dir ≠ 0) :
    (t.tighten line col dir close).cellAt line col =
      Cell.refreshStakes
        { t.cellAt line col with
          candidates := (t.cellAt line col).candidates.filter
            (fun c => forcePredicate close (c.get dir)) } := by
  rw [cellAt_congr (tighten_cells t line col dir close)]
  obtain ⟨h1, h2⟩ := inRange_of_stakes_ne_zero t line col dir h
  exact cellAt_setCell_eq t line col _ h1 h2

theorem determined_of_forall (cell : Cell) (dir : Direction) (close : Bool)
    (hs : cell.StakesOK)
    (h : ∀ p ∈ cell.candidates, forcePredicate close (p.get dir) = true) :
    cell.Determined dir close := by
  unfold Cell.Determined
  rw [hs dir (direction_mem_all dir)]
  cases close with
  | true =>
    simp only [if_true]
    rw [List.countP_eq_zero]
    intro p hp
    have := h p hp
    simpa [forcePredicate] using this
  | false =>
    simp only [Bool.false_eq_true, if_false]
    rw [List.countP_eq_length]
    intro p hp
    have := h p hp
    simpa [forcePredicate] using this

theorem forall_of_determined (cell : Cell) (dir : Direction) (close : Bool)
    (hs : cell.StakesOK) (h : cell.Determined dir close) :
    ∀ p ∈ cell.candidates, forcePredicate close (p.get dir) = true := by
  unfold Cell.Determined at h
  rw [hs dir (direction_mem_all dir)] at h
  cases close with
  | true =>
    simp only [if_true] at h
    rw [List.countP_eq_zero] at h
    intro p hp
    have := h p hp
    simpa [forcePredicate] using this
  | false =>
    simp only [Bool.false_eq_true, if_false] at h
    rw [List.countP_eq_length] at h
    intro p hp
    have := h p hp
    simpa [forcePredicate] using this

/-- A determined edge stays determined, the same way, when candidates are removed. -/
theorem determined_mono (cell cell1 : Cell) (dir : Direction) (close : Bool)
    (hs : cell.StakesOK) (hs1 : cell1.StakesOK)
    (hsub : ∀ p ∈ cell1.candidates, p ∈ cell.candidates)
    (h : cell.Determined dir close) : cell1.Determined dir close :=
  determined_of_forall cell1 dir close hs1
    (fun p hp => forall_of_determined cell dir close hs h p (hsub p hp))

/-- With a candidate left, an edge is not determined both ways. -/
theorem determined_unique (cell : Cell) (dir : Direction) (close : Bool)
    (hn : 1 ≤ cell.candidates.length) (h : cell.Determined dir close) :
    ¬ cell.Determined dir (!close) := by
  unfold Cell.Determined at h ⊢
  cases close <;> simp at h ⊢ <;> omega

/-! ## The return value of propagation -/

theorem enforceLoop_never_true
    (fb : Table → Int → Int → Direction → Bool → Table × Outcome Bool)
    (hfb : ∀ t line col dir close, (fb t line col dir close).2 ≠ .ok true) (line col : Nat) :
    ∀ (dirs : List Direction) (t : Table),
      (enforceLoop fb line col dirs t false).2 ≠ .ok true := by
  intro dirs
  induction dirs with
  | nil => intro t; simp [enforceLoop]
  | cons i rest ih =>
    intro t
    unfold enforceLoop
    simp only
    split
    · have h1 := hfb t ((line : Int) + (displacement i).1) ((col : Int) + (displacement i).2)
        (oppositeDirection i) true
      split
      · next t1 b heq =>
        rw [heq] at h1
        have hb : b = false := by
          cases b
          · rfl
          · exact absurd rfl h1
        subst hb
        exact ih t1
      · simp
    · split
      · have h1 := hfb t ((line : Int) + (displacement i).1) ((col : Int) + (displacement i).2)
          (oppositeDirection i) false
        split
        · next t1 b heq =>
          rw [heq] at h1
          have hb : b = false := by
            cases b
            · rfl
            · exact absurd rfl h1
          subst hb
          exact ih t1
        · simp
      · exact ih t

/-- No call of `forceBorder` returns `true`. -/
theorem forceBorderFuel_never_true :
    ∀ (fuel : Nat) (t : Table) (line col : Int) (dir : Direction) (close : Bool),
      (forceBorderFuel fuel t line col dir close).2 ≠ .ok true := by
  intro fuel
  induction fuel with
  | zero => intro t line col dir close; simp [forceBorderFuel]
  | succ fuel ih =>
    intro t line col dir close
    unfold forceBorderFuel
    simp only
    split
    · split <;> simp
    · split
      · split <;> simp
      · unfold enforceStakesWith
        exact enforceLoop_never_true _ ih _ _ _ _

/-! ## Index arithmetic -/

theorem wrapIndex_lt (x : Int) (n : Nat) (h : 0 < n) : wrapIndex x n < n := by
  unfold wrapIndex
  have hn : (0 : Int) < n := by exact_mod_cast h
  have h1 := Int.emod_lt_of_pos ((x + (n : Int)) % 4294967296) hn
  have h2 := Int.emod_nonneg ((x + (n : Int)) % 4294967296) (Int.ne_of_gt hn)
  omega

theorem wrapIndex_of_lt (r n : Nat) (h : r < n) (hn : n < 2147483648) :
    wrapIndex (r : Int) n = r := by
  unfold wrapIndex
  have h1 : ((r : Int) + (n : Int)) % 4294967296 = (r : Int) + (n : Int) :=
    Int.emod_eq_of_lt (by omega) (by omega)
  rw [h1, Int.add_emod_self, Int.emod_eq_of_lt (by omega) (by omega)]
  simp

theorem wrapIndex_idem (x : Int) (n : Nat) (h : 0 < n) (hn : n < 2147483648) :
    wrapIndex (wrapIndex x n : Int) n = wrapIndex x n :=
  wrapIndex_of_lt _ n (wrapIndex_lt x n h) hn

/-! ## The grid -/

theorem tighten_grid (t : Table) (line col : Nat) (dir : Direction) (close : Bool)
    (h : t.Grid) : (t.tighten line col dir close).Grid := by
  obtain ⟨h1, h2, h3, h4, h5, h6⟩ := h
  refine ⟨?_, ?_, ?_, ?_, ?_, ?_⟩
  · rw [tighten_height]; exact h1
  · rw [tighten_height]; exact h2
  · rw [tighten_width]; exact h3
  · rw [tighten_width]; exact h4
  · rw [tighten_cells, tighten_height]
    unfold Table.setCell
    simp only [List.length_set]
    exact h5
  · rw [tighten_cells, tighten_width]
    unfold Table.setCell
    simp only
    intro row hrow
    by_cases hl : line < t.cells.length
    · rcases List.mem_or_eq_of_mem_set hrow with hm | he
      · exact h6 row hm
      · rw [he, List.length_set]
        apply h6
        rw [List.getD_eq_getElem?_getD, List.getElem?_eq_getElem hl]
        exact List.getElem_mem _
    · rw [List.set_eq_of_length_le (Nat.le_of_not_lt hl)] at hrow
      exact h6 row hrow

/-- The facts that every propagation step keeps, relative to the board `t0` it started on. -/
theorem forceBorderFuel_frame (fuel : Nat) (t : Table) (line col : Int) (dir : Direction)
    (close : Bool) (hg : t.Grid) (hc : CellsOK t) :
    (forceBorderFuel fuel t line col dir close).1.Grid ∧
    CellsOK (forceBorderFuel fuel t line col dir close).1 ∧
    (forceBorderFuel fuel t line col dir close).1.Sub t ∧
    (forceBorderFuel fuel t line col dir close).1.height = t.height ∧
    (forceBorderFuel fuel t line col dir close).1.width = t.width ∧
    (forceBorderFuel fuel t line col dir close).1.nonEmptyCells = t.nonEmptyCells := by
  refine ⟨?_, forceBorderFuel_cellsOK fuel t line col dir close hc,
    forceBorderFuel_sub fuel t line col dir close, ?_, ?_, ?_⟩
  · exact forceBorderFuel_inv Table.Grid (fun t1 l c d cl h _ _ => tighten_grid t1 l c d cl h)
      fuel t line col dir close hg
  · exact forceBorderFuel_inv (fun t1 => t1.height = t.height)
      (fun t1 l c d cl h _ _ => (tighten_height t1 l c d cl).trans h) fuel t line col dir close rfl
  · exact forceBorderFuel_inv (fun t1 => t1.width = t.width)
      (fun t1 l c d cl h _ _ => (tighten_width t1 l c d cl).trans h) fuel t line col dir close rfl
  · exact forceBorderFuel_inv (fun t1 => t1.nonEmptyCells = t.nonEmptyCells)
      (fun t1 l c d cl h _ _ => (tighten_nonEmptyCells t1 l c d cl).trans h)
      fuel t line col dir close rfl

theorem enforceLoop_frame (fuel : Nat) (line col : Nat) (dirs : List Direction) (t : Table)
    (ret : Bool) (hg : t.Grid) (hc : CellsOK t) :
    (enforceLoop (forceBorderFuel fuel) line col dirs t ret).1.Grid ∧
    CellsOK (enforceLoop (forceBorderFuel fuel) line col dirs t ret).1 ∧
    (enforceLoop (forceBorderFuel fuel) line col dirs t ret).1.Sub t ∧
    (enforceLoop (forceBorderFuel fuel) line col dirs t ret).1.height = t.height ∧
    (enforceLoop (forceBorderFuel fuel) line col dirs t ret).1.width = t.width ∧
    (enforceLoop (forceBorderFuel fuel) line col dirs t ret).1.nonEmptyCells
      = t.nonEmptyCells := by
  have key := enforceLoop_inv
    (fun t1 => t1.Grid ∧ CellsOK t1 ∧ t1.Sub t ∧ t1.height = t.height ∧ t1.width = t.width ∧
      t1.nonEmptyCells = t.nonEmptyCells)
    (forceBorderFuel fuel)
    (fun t1 l c d cl h => by
      obtain ⟨a1, a2, a3, a4, a5, a6⟩ := forceBorderFuel_frame fuel t1 l c d cl h.1 h.2.1
      exact ⟨a1, a2, a3.trans h.2.2.1, a4.trans h.2.2.2.1, a5.trans h.2.2.2.2.1,
        a6.trans h.2.2.2.2.2⟩)
    line col dirs t ret ⟨hg, hc, Table.Sub.refl t, rfl, rfl, rfl⟩
  exact key

/-! ## Neighbour agreement under propagation -/

theorem settledAt_iff (t : Table) (p : Nat × Nat) (d : Direction) :
    t.SettledAt p d ↔ ∀ close, (t.cellAt p.1 p.2).Determined d close →
      (t.cellAt (t.neighbour p d).1 (t.neighbour p d).2).Determined (oppositeDirection d) close := by
  unfold Table.SettledAt Cell.Determined
  constructor
  · intro h close
    cases close
    · simpa using h.2
    · simpa using h.1
  · intro h
    exact ⟨by simpa using h true, by simpa using h false⟩

theorem neighbour_congr {t t1 : Table} (hh : t1.height = t.height) (hw : t1.width = t.width)
    (p : Nat × Nat) (d : Direction) : t1.neighbour p d = t.neighbour p d := by
  unfold Table.neighbour
  rw [hh, hw]

/-- A settled pair stays settled when the cell itself is untouched and candidates are only
removed elsewhere. -/
theorem settledAt_mono (t t1 : Table) (hh : t1.height = t.height) (hw : t1.width = t.width)
    (hc : CellsOK t) (hc1 : CellsOK t1) (hsub : t1.Sub t) (p : Nat × Nat) (d : Direction)
    (hA : t1.cellAt p.1 p.2 = t.cellAt p.1 p.2) (h : t.SettledAt p d) : t1.SettledAt p d := by
  rw [settledAt_iff] at h ⊢
  intro close hd
  rw [hA] at hd
  rw [neighbour_congr hh hw]
  exact determined_mono _ _ _ close (hc _ _).1 (hc1 _ _).1 (hsub _ _) (h close hd)

/-- One call made by the loop of `enforceStakes`: the edge of the cell is determined, the
call on the neighbour returns, and the pair is settled afterwards. -/
theorem settledAt_after_call (fuel : Nat) (hfb : KeepsSettled (forceBorderFuel fuel))
    (t t1 : Table) (line col : Nat) (i : Direction) (close b : Bool)
    (hg : t.Grid) (hc : CellsOK t)
    (hA : (t.cellAt line col).Determined i close)
    (hcall : forceBorderFuel fuel t ((line : Int) + (displacement i).1)
      ((col : Int) + (displacement i).2) (oppositeDirection i) close = (t1, .ok b)) :
    (∀ p d, t.SettledAt p d → t1.SettledAt p d) ∧ t1.SettledAt (line, col) i ∧
      t1.Grid ∧ CellsOK t1 := by
  obtain ⟨hpres, hdet⟩ := hfb t _ _ _ close t1 b hg hc hcall
  have hfr := forceBorderFuel_frame fuel t ((line : Int) + (displacement i).1)
      ((col : Int) + (displacement i).2) (oppositeDirection i) close hg hc
  rw [hcall] at hfr
  obtain ⟨hg1, hc1, hsub, hh, hw, _⟩ := hfr
  refine ⟨hpres, ?_, hg1, hc1⟩
  rw [settledAt_iff]
  intro close1 hd1
  have hA1 : (t1.cellAt line col).Determined i close :=
    determined_mono _ _ i close (hc _ _).1 (hc1 _ _).1 (hsub _ _) hA
  have hcl : close1 = close := by
    by_contra hne
    have : close1 = !close := by cases close <;> cases close1 <;> simp_all
    rw [this] at hd1
    exact determined_unique _ i close (hc1 _ _).2 hA1 hd1
  rw [hcl, neighbour_congr hh hw]
  exact hdet

/-- The loop of `enforceStakes` on cell `(line, col)`: when it returns, every settled pair
is still settled and the pairs of the cell across the directions of the loop are settled. -/
theorem enforceLoop_settled (fuel : Nat) (hfb : KeepsSettled (forceBorderFuel fuel))
    (line col : Nat) :
    ∀ (dirs : List Direction) (t : Table) (ret : Bool) (t1 : Table) (b : Bool),
      t.Grid → CellsOK t →
      enforceLoop (forceBorderFuel fuel) line col dirs t ret = (t1, .ok b) →
      (∀ p d, t.SettledAt p d → t1.SettledAt p d) ∧
      (∀ d ∈ dirs, t1.SettledAt (line, col) d) := by
  intro dirs
  induction dirs with
  | nil =>
    intro t ret t1 b _ _ h
    simp only [enforceLoop, Prod.mk.injEq] at h
    rw [← h.1]
    exact ⟨fun _ _ h => h, fun _ hd => absurd hd (List.not_mem_nil _)⟩
  | cons i rest ih =>
    intro t ret t1 b hg hc h
    unfold enforceLoop at h
    simp only at h
    split at h
    · next h0 =>
      split at h
      · next t2 b2 heq =>
        obtain ⟨hp2, hs2, hg2, hc2⟩ := settledAt_after_call fuel hfb t t2 line col i true b2
          hg hc (by unfold Cell.Determined; simpa using h0) heq
        obtain ⟨hp1, hs1⟩ := ih t2 _ t1 b hg2 hc2 h
        refine ⟨fun p d hs => hp1 p d (hp2 p d hs), ?_⟩
        intro d hd
        rcases List.mem_cons.mp hd with rfl | hd
        · exact hp1 _ _ hs2
        · exact hs1 d hd
      · simp at h
    · next h0 =>
      split at h
      · next h1 =>
        split at h
        · next t2 b2 heq =>
          obtain ⟨hp2, hs2, hg2, hc2⟩ := settledAt_after_call fuel hfb t t2 line col i false b2
            hg hc (by unfold Cell.Determined; simpa using h1) heq
          obtain ⟨hp1, hs1⟩ := ih t2 _ t1 b hg2 hc2 h
          refine ⟨fun p d hs => hp1 p d (hp2 p d hs), ?_⟩
          intro d hd
          rcases List.mem_cons.mp hd with rfl | hd
          · exact hp1 _ _ hs2
          · exact hs1 d hd
        · simp at h
      · next h1 =>
        obtain ⟨hp1, hs1⟩ := ih t ret t1 b hg hc h
        refine ⟨hp1, ?_⟩
        intro d hd
        rcases List.mem_cons.mp hd with rfl | hd
        · apply hp1
          exact ⟨fun e => absurd e h0, fun e => absurd e h1⟩
        · exact hs1 d hd

/-- The propagation keeps settled pairs settled and determines the forced edge. -/
theorem forceBorderFuel_keepsSettled : ∀ fuel : Nat, KeepsSettled (forceBorderFuel fuel) := by
  intro fuel
  induction fuel with
  | zero =>
    intro t line col dir close t1 b _ _ h
    simp [forceBorderFuel] at h
  | succ fuel ih =>
    intro t line col dir close t1 b hg hc h
    unfold forceBorderFuel at h
    simp only at h
    split at h
    · next h0 =>
      split at h
      · next hcl =>
        simp only [Prod.mk.injEq] at h
        rw [← h.1]
        refine ⟨fun _ _ hs => hs, ?_⟩
        unfold Cell.Determined
        simp [hcl, h0]
      · simp at h
    · next h0 =>
      split at h
      · next h1 =>
        split at h
        · next hcl =>
          simp only [Prod.mk.injEq] at h
          rw [← h.1]
          refine ⟨fun _ _ hs => hs, ?_⟩
          unfold Cell.Determined
          have : close = false := by simpa using hcl
          simp [this, h1]
        · simp at h
      · next h1 =>
        obtain ⟨hh1, hh2, hw1, hw2, _, _⟩ := hg
        have hg2 := tighten_grid t (wrapIndex line t.height) (wrapIndex col t.width) dir close
          ⟨hh1, hh2, hw1, hw2, by assumption, by assumption⟩
        have hc2 := tighten_cellsOK t (wrapIndex line t.height) (wrapIndex col t.width) dir close
          hc h0 h1
        unfold enforceStakesWith at h
        rw [tighten_height, tighten_width, wrapIndex_idem line _ hh1 hh2,
          wrapIndex_idem col _ hw1 hw2] at h
        obtain ⟨hp, hs⟩ := enforceLoop_settled fuel ih _ _ _ _ _ t1 b hg2 hc2 h
        have hfr := enforceLoop_frame fuel (wrapIndex line t.height) (wrapIndex col t.width)
          Direction.all (t.tighten (wrapIndex line t.height) (wrapIndex col t.width) dir close)
          false hg2 hc2
        rw [h] at hfr
        obtain ⟨_, hc1, hsub1, _, _, _⟩ := hfr
        constructor
        · intro p d hsp
          by_cases hpN : p.1 = wrapIndex line t.height ∧ p.2 = wrapIndex col t.width
          · have : p = (wrapIndex line t.height, wrapIndex col t.width) :=
              Prod.ext hpN.1 hpN.2
            rw [this]
            exact hs d (direction_mem_all d)
          · apply hp
            exact settledAt_mono t _ (tighten_height _ _ _ _ _) (tighten_width _ _ _ _ _) hc hc2
              (tighten_sub _ _ _ _ _) p d (cellAt_tighten_ne _ _ _ _ _ _ _ hpN) hsp
        · apply determined_mono _ _ dir close (hc2 _ _).1 (hc1 _ _).1 (hsub1 _ _)
          rw [cellAt_tighten_eq t _ _ dir close h0]
          apply determined_of_forall _ _ _ (stakesOK_refresh _)
          intro p hp
          rw [refreshStakes_candidates] at hp
          exact (List.mem_filter.mp hp).2

/-- On a grid the neighbour computed by the source is the toroidal neighbour: the row and
the column are shifted by the displacement and reduced modulo the height and the width. -/
theorem neighbour_eq_mod (t : Table) (hg : t.Grid) (line col : Nat) (hl : line < t.height)
    (hc : col < t.width) (d : Direction) :
    t.neighbour (line, col) d =
      ((((line : Int) + (displacement d).1) % (t.height : Int)).toNat,
       (((col : Int) + (displacement d).2) % (t.width : Int)).toNat) := by
  obtain ⟨h1, h2, h3, h4, _, _⟩ := hg
  have hd1 : -1 ≤ (displacement d).1 ∧ (displacement d).1 ≤ 1 := by
    cases d <;> simp [displacement]
  have hd2 : -1 ≤ (displacement d).2 ∧ (displacement d).2 ≤ 1 := by
    cases d <;> simp [displacement]
  unfold Table.neighbour wrapIndex
  simp only
  rw [Int.emod_eq_of_lt (a := (line : Int) + (displacement d).1 + (t.height : Int))
      (by omega) (by omega),
    Int.emod_eq_of_lt (a := (col : Int) + (displacement d).2 + (t.width : Int))
      (by omega) (by omega),
    Int.add_emod_self, Int.add_emod_self]

theorem oppositeDirection_involutive (d : Direction) :
    oppositeDirection (oppositeDirection d) = d := by
  cases d <;> rfl

theorem displacement_opposite (d : Direction) :
    displacement (oppositeDirection d) = (-(displacement d).1, -(displacement d).2) := by
  cases d <;> rfl

theorem neighbour_lt (t : Table) (hg : t.Grid) (p : Nat × Nat) (d : Direction) :
    (t.neighbour p d).1 < t.height ∧ (t.neighbour p d).2 < t.width :=
  ⟨wrapIndex_lt _ _ hg.1, wrapIndex_lt _ _ hg.2.2.1⟩

/-- On a grid, going to the neighbour across `d` and back across the opposite direction
returns to the cell. -/
theorem neighbour_neighbour (t : Table) (hg : t.Grid) (line col : Nat) (hl : line < t.height)
    (hc : col < t.width) (d : Direction) :
    t.neighbour (t.neighbour (line, col) d) (oppositeDirection d) = (line, col) := by
  obtain ⟨hl2, hc2⟩ := neighbour_lt t hg (line, col) d
  have h1 := neighbour_eq_mod t hg line col hl hc d
  have h2 := neighbour_eq_mod t hg _ _ hl2 hc2 (oppositeDirection d)
  rw [h2, displacement_opposite]
  simp only
  have hh : (0 : Int) < t.height := by exact_mod_cast hg.1
  have hw : (0 : Int) < t.width := by exact_mod_cast hg.2.2.1
  have e1 : ((t.neighbour (line, col) d).1 : Int)
      = ((line : Int) + (displacement d).1) % (t.height : Int) := by
    rw [h1]
    exact Int.toNat_of_nonneg (Int.emod_nonneg _ (Int.ne_of_gt hh))
  have e2 : ((t.neighbour (line, col) d).2 : Int)
      = ((col : Int) + (displacement d).2) % (t.width : Int) := by
    rw [h1]
    exact Int.toNat_of_nonneg (Int.emod_nonneg _ (Int.ne_of_gt hw))
  rw [e1, e2, Int.emod_add_emod, Int.emod_add_emod]
  have r1 : ((line : Int) + (displacement d).1 + -(displacement d).1) % (t.height : Int)
      = (line : Int) := by
    rw [Int.add_neg_cancel_right]
    exact Int.emod_eq_of_lt (by omega) (by omega)
  have r2 : ((col : Int) + (displacement d).2 + -(displacement d).2) % (t.width : Int)
      = (col : Int) := by
    rw [Int.add_neg_cancel_right]
    exact Int.emod_eq_of_lt (by omega) (by omega)
  rw [r1, r2]
  simp

/-- With neighbour agreement on a grid, an undetermined edge of a cell is undetermined on
the other side too. -/
theorem undetermined_across (t : Table) (hg : t.Grid) (hag : t.Agreement) (line col : Nat)
    (hl : line < t.height) (hc : col < t.width) (d : Direction)
    (h0 : (t.cellAt line col).stakes.get d ≠ 0)
    (h1 : (t.cellAt line col).stakes.get d ≠ (t.cellAt line col).candidates.length) :
    (t.cellAt (t.neighbour (line, col) d).1 (t.neighbour (line, col) d).2).stakes.get
        (oppositeDirection d) ≠ 0 ∧
    (t.cellAt (t.neighbour (line, col) d).1 (t.neighbour (line, col) d).2).stakes.get
        (oppositeDirection d) ≠
      (t.cellAt (t.neighbour (line, col) d).1 (t.neighbour (line, col) d).2).candidates.length := by
  obtain ⟨hl2, hc2⟩ := neighbour_lt t hg (line, col) d
  have hs := hag _ hl2 _ hc2 (oppositeDirection d) (direction_mem_all _)
  unfold Table.SettledAt at hs
  rw [neighbour_neighbour t hg line col hl hc d, oppositeDirection_involutive] at hs
  exact ⟨fun e => h0 (hs.1 e), fun e => h1 (hs.2 e)⟩

/-! ## The set of non-empty cells -/

theorem mem_coordInsert (p : Nat × Nat) :
    ∀ (l : List (Nat × Nat)) (x : Nat × Nat), x ∈ coordInsert p l → x = p ∨ x ∈ l := by
  intro l
  induction l with
  | nil => intro x hx; exact Or.inl (by simpa [coordInsert] using hx)
  | cons q qs ih =>
    intro x hx
    unfold coordInsert at hx
    split at hx
    · rcases List.mem_cons.mp hx with h | h
      · exact Or.inl h
      · exact Or.inr h
    · split at hx
      · rcases List.mem_cons.mp hx with h | h
        · exact Or.inr (h ▸ List.mem_cons_self _ _)
        · rcases ih x h with h | h
          · exact Or.inl h
          · exact Or.inr (List.mem_cons_of_mem _ h)
      · exact Or.inr hx

theorem coordLt_trans {a b c : Nat × Nat} (h1 : coordLt a b) (h2 : coordLt b c) :
    coordLt a c := by
  unfold coordLt at *
  omega

/-- Insertion keeps the set of coordinates strictly increasing. -/
theorem coordInsert_sorted (p : Nat × Nat) :
    ∀ l : List (Nat × Nat), l.Pairwise coordLt → (coordInsert p l).Pairwise coordLt := by
  intro l
  induction l with
  | nil => intro _; simp [coordInsert]
  | cons q qs ih =>
    intro h
    have hq : ∀ {x : Nat × Nat}, x ∈ qs → coordLt q x := fun hx => List.rel_of_pairwise_cons h hx
    have hqs := List.Pairwise.of_cons h
    unfold coordInsert
    split
    · next hlt =>
      refine List.Pairwise.cons ?_ h
      intro x hx
      rcases List.mem_cons.mp hx with e | hm
      · rw [e]; exact hlt
      · exact coordLt_trans hlt (hq hm)
    · split
      · next hgt =>
        refine List.Pairwise.cons ?_ (ih hqs)
        intro x hx
        rcases mem_coordInsert p qs x hx with e | hm
        · rw [e]; exact hgt
        · exact hq hm
      · exact h

theorem fillRow_nonEmpty (width : Nat) (raw : List Char) (i : Nat) :
    ∀ (js : List Nat) (row : List Cell) (ne : List (Nat × Nat)) (row1 : List Cell)
      (ne1 : List (Nat × Nat)),
      fillRow width raw i js row ne = .ok (row1, ne1) →
      (ne.Pairwise coordLt → ne1.Pairwise coordLt) ∧
      (∀ x ∈ ne1, x ∈ ne ∨ (x.1 = i ∧ x.2 ∈ js)) := by
  intro js
  induction js with
  | nil =>
    intro row ne row1 ne1 h
    simp only [fillRow, Outcome.ok.injEq, Prod.mk.injEq] at h
    obtain ⟨_, rfl⟩ := h
    exact ⟨fun h => h, fun x hx => Or.inl hx⟩
  | cons j rest ih =>
    intro row ne row1 ne1 h
    unfold fillRow at h
    split at h
    · simp at h
    · split at h
      · next pt _ =>
        obtain ⟨h1, h2⟩ := ih _ _ _ _ h
        constructor
        · intro hs
          apply h1
          split
          · exact coordInsert_sorted _ _ hs
          · exact hs
        · intro x hx
          rcases h2 x hx with hm | ⟨e1, e2⟩
          · split at hm
            · rcases mem_coordInsert _ _ x hm with e | hm
              · rw [e]
                exact Or.inr ⟨rfl, List.mem_cons_self _ _⟩
              · exact Or.inl hm
            · exact Or.inl hm
          · exact Or.inr ⟨e1, List.mem_cons_of_mem _ e2⟩
      · simp at h
      · simp at h

theorem fillRows_nonEmpty (width : Nat) (raw : List Char) :
    ∀ (rows : List Nat) (cells : List (List Cell)) (ne : List (Nat × Nat))
      (cells1 : List (List Cell)) (ne1 : List (Nat × Nat)),
      fillRows width raw rows cells ne = .ok (cells1, ne1) →
      (ne.Pairwise coordLt → ne1.Pairwise coordLt) ∧
      (∀ x ∈ ne1, x ∈ ne ∨ (x.1 ∈ rows ∧ x.2 < width)) := by
  intro rows
  induction rows with
  | nil =>
    intro cells ne cells1 ne1 h
    simp only [fillRows, Outcome.ok.injEq, Prod.mk.injEq] at h
    obtain ⟨_, rfl⟩ := h
    exact ⟨fun h => h, fun x hx => Or.inl hx⟩
  | cons i rest ih =>
    intro cells ne cells1 ne1 h
    unfold fillRows at h
    split at h
    · next row ne2 heq =>
      obtain ⟨r1, r2⟩ := fillRow_nonEmpty width raw i _ _ _ _ _ heq
      obtain ⟨h1, h2⟩ := ih _ _ _ _ h
      constructor
      · exact fun hs => h1 (r1 hs)
      · intro x hx
        rcases h2 x hx with hm | ⟨e1, e2⟩
        · rcases r2 x hm with hm | ⟨e1, e2⟩
          · exact Or.inl hm
          · exact Or.inr ⟨e1 ▸ List.mem_cons_self _ _, List.mem_range.mp e2⟩
        · exact Or.inr ⟨List.mem_cons_of_mem _ e1, e2⟩
    · simp at h

/-- Every character decodes without running out of fuel. -/
theorem charToPTCode_total (x : Int) (h1 : -128 ≤ x) (h2 : x ≤ 127) :
    charToPTCode x ≠ .outOfFuel := by
  interval_cases x <;> decide

theorem charToPT_total (c : Char) : charToPT c ≠ .outOfFuel := by
  unfold charToPT
  apply charToPTCode_total
  · unfold narrowChar; omega
  · unfold narrowChar; omega

/-! ## Construction -/

theorem fillRow_spec (width : Nat) (raw : List Char) (i : Nat) :
    ∀ (js : List Nat) (row : List Cell) (ne : List (Nat × Nat)) (row1 : List Cell)
      (ne1 : List (Nat × Nat)),
      fillRow width raw i js row ne = .ok (row1, ne1) →
      row1.length = row.length + js.length ∧
      (∀ c ∈ row1, c ∈ row ∨ ∃ pt, c = Cell.new pt) ∧
      (js = [] → ne1 = ne) := by
  intro js
  induction js with
  | nil =>
    intro row ne row1 ne1 h
    simp only [fillRow, Outcome.ok.injEq, Prod.mk.injEq] at h
    obtain ⟨rfl, rfl⟩ := h
    exact ⟨by simp, fun c hc => Or.inl hc, fun _ => rfl⟩
  | cons j rest ih =>
    intro row ne row1 ne1 h
    unfold fillRow at h
    split at h
    · simp at h
    · split at h
      · next pt _ =>
        obtain ⟨h1, h2, _⟩ := ih _ _ _ _ h
        refine ⟨by rw [h1]; simp; omega, ?_, by simp⟩
        intro c hc
        rcases h2 c hc with hm | hm
        · rcases List.mem_append.mp hm with hm | hm
          · exact Or.inl hm
          · exact Or.inr ⟨pt, by simpa using hm⟩
        · exact Or.inr hm
      · simp at h
      · simp at h

theorem fillRows_spec (width : Nat) (raw : List Char) :
    ∀ (m k : Nat) (cells : List (List Cell)) (ne : List (Nat × Nat))
      (cells1 : List (List Cell)) (ne1 : List (Nat × Nat)),
      fillRows width raw (List.range' k m) cells ne = .ok (cells1, ne1) →
      cells.length = k + m →
      (∀ n, n < k → (cells.getD n []).length = width) →
      (∀ n, k ≤ n → cells.getD n [] = []) →
      (∀ row ∈ cells, ∀ c ∈ row, ∃ pt, c = Cell.new pt) →
      cells1.length = k + m ∧
      (∀ n, n < k + m → (cells1.getD n []).length = width) ∧
      (∀ row ∈ cells1, ∀ c ∈ row, ∃ pt, c = Cell.new pt) ∧
      (width = 0 → ne1 = ne) := by
  intro m
  induction m with
  | zero =>
    intro k cells ne cells1 ne1 h hl hlt _ hnew
    simp only [List.range'_zero, fillRows, Outcome.ok.injEq, Prod.mk.injEq] at h
    obtain ⟨rfl, rfl⟩ := h
    exact ⟨hl, fun n hn => hlt n (by omega), hnew, fun _ => rfl⟩
  | succ m ih =>
    intro k cells ne cells1 ne1 h hl hlt hge hnew
    rw [List.range'_succ] at h
    unfold fillRows at h
    split at h
    · next row ne2 heq =>
      obtain ⟨hr1, hr2, hr3⟩ := fillRow_spec width raw k _ _ _ _ _ heq
      rw [hge k (Nat.le_refl k)] at hr1 hr2
      simp only [List.length_nil, List.length_range, Nat.zero_add] at hr1
      have hk : k < cells.length := by omega
      obtain ⟨a1, a2, a3, a4⟩ := ih (k + 1) (cells.set k row) ne2 cells1 ne1 h
        (by rw [List.length_set]; omega)
        (by
          intro n hn
          rw [List.getD_eq_getElem?_getD, List.getElem?_set]
          by_cases hkn : k = n
          · subst hkn
            simp [hk, hr1]
          · simp only [hkn, if_false]
            rw [← List.getD_eq_getElem?_getD]
            exact hlt n (by omega))
        (by
          intro n hn
          rw [List.getD_eq_getElem?_getD, List.getElem?_set]
          have hkn : ¬ k = n := by omega
          simp only [hkn, if_false]
          rw [← List.getD_eq_getElem?_getD]
          exact hge n (by omega))
        (by
          intro r hr c hc
          rcases List.mem_or_eq_of_mem_set hr with hm | he
          · exact hnew r hm c hc
          · rw [he] at hc
            rcases hr2 c hc with hm | hm
            · exact absurd hm (List.not_mem_nil _)
            · exact hm)
      refine ⟨by omega, fun n hn => a2 n (by omega), a3, ?_⟩
      intro hw
      rw [a4 hw]
      apply hr3
      rw [hw]
      rfl
    · simp at h

theorem mem_allCoords (width height i j : Nat) :
    (i, j) ∈ allCoords width height ↔ i < height ∧ j < width := by
  unfold allCoords
  have key : ∀ L : List Nat,
      (i, j) ∈ L.foldr (fun i acc => (List.range width).map (fun j => (i, j)) ++ acc) []
        ↔ i ∈ L ∧ j < width := by
    intro L
    induction L with
    | nil => simp
    | cons a L ih =>
      simp only [List.foldr_cons, List.mem_append, List.mem_map, List.mem_range, Prod.mk.injEq,
        ih, List.mem_cons]
      constructor
      · rintro (⟨b, hb, rfl, rfl⟩ | ⟨h1, h2⟩)
        · exact ⟨Or.inl rfl, hb⟩
        · exact ⟨Or.inr h1, h2⟩
      · rintro ⟨rfl | h1, h2⟩
        · exact Or.inl ⟨j, h2, rfl, rfl⟩
        · exact Or.inr ⟨h1, h2⟩
  rw [key, List.mem_range]

theorem checkReachability_state (t : Table) : t.checkReachability.1 = t := by
  unfold Table.checkReachability
  split
  · rfl
  · split
    · rfl
    · split <;> rfl

/-- The pass of `enforceStakes` over a list of cells: when it returns, the board is still
well formed, settled pairs are still settled and the pairs of the listed cells are
settled. -/
theorem enforceAll_settled :
    ∀ (coords : List (Nat × Nat)) (t t1 : Table) (u : Unit), t.Grid → CellsOK t →
      enforceAll coords t = (t1, .ok u) →
      t1.Grid ∧ CellsOK t1 ∧ t1.height = t.height ∧ t1.width = t.width ∧
      t1.nonEmptyCells = t.nonEmptyCells ∧
      (∀ p d, t.SettledAt p d → t1.SettledAt p d) ∧
      (∀ p ∈ coords, p.1 < t.height → p.2 < t.width → ∀ d, t1.SettledAt p d) := by
  intro coords
  induction coords with
  | nil =>
    intro t t1 u hg hc h
    simp only [enforceAll, Prod.mk.injEq] at h
    rw [← h.1]
    exact ⟨hg, hc, rfl, rfl, rfl, fun _ _ h => h, fun _ hp => absurd hp (List.not_mem_nil _)⟩
  | cons q rest ih =>
    intro t t1 u hg hc h
    obtain ⟨i, j⟩ := q
    unfold enforceAll at h
    split at h
    · next t2 b heq =>
      have heq2 : enforceLoop (forceBorderFuel (t.candidateCount + 1)) (wrapIndex i t.height)
          (wrapIndex j t.width) Direction.all t false = (t2, .ok b) := heq
      have hfr := enforceLoop_frame (t.candidateCount + 1) (wrapIndex i t.height)
          (wrapIndex j t.width) Direction.all t false hg hc
      rw [heq2] at hfr
      obtain ⟨hg2, hc2, _, hh2, hw2, hn2⟩ := hfr
      obtain ⟨hp2, hs2⟩ := enforceLoop_settled _ (forceBorderFuel_keepsSettled _) _ _ _ _ _ _ _
        hg hc heq2
      obtain ⟨a1, a2, a3, a4, a5, a6, a7⟩ := ih t2 t1 u hg2 hc2 h
      refine ⟨a1, a2, a3.trans hh2, a4.trans hw2, a5.trans hn2,
        fun p d hs => a6 p d (hp2 p d hs), ?_⟩
      intro p hp hp1 hp2' d
      rcases List.mem_cons.mp hp with rfl | hp
      · apply a6
        have := hs2 d (direction_mem_all d)
        rwa [wrapIndex_of_lt _ _ hp1 hg.2.1, wrapIndex_of_lt _ _ hp2' hg.2.2.2.1] at this
      · exact a7 p hp (by rw [hh2]; exact hp1) (by rw [hw2]; exact hp2') d
    · simp at h

/-- A board accepted by the constructor is a well-formed grid of the requested size on
which neighbour agreement holds, and it has a non-empty cell. -/
theorem create_ok (width height : Nat) (rawTable : String) (t : Table)
    (h : Table.create width height rawTable = .ok t) :
    t.Grid ∧ CellsOK t ∧ t.Agreement ∧ t.width = width ∧ t.height = height ∧
      t.nonEmptyCells ≠ [] ∧ t.NonEmptySorted ∧ t.NonEmptyInGrid := by
  unfold Table.create at h
  split at h
  · simp at h
  · split at h
    · simp at h
    · next hdim =>
      split at h
      · simp at h
      · next cells ne hfill =>
        split at h
        · simp at h
        · next t1 u hall =>
          split at h
          · next t2 u2 hreach =>
            simp only [Outcome.ok.injEq] at h
            have hst := checkReachability_state t1
            rw [hreach] at hst
            simp only at hst
            have ht : t1 = t := hst.symm.trans h
            rw [ht] at hall hreach
            obtain ⟨n1, n2⟩ := fillRows_nonEmpty width rawTable.toList _ _ _ _ _ hfill
            rw [List.range_eq_range'] at hfill
            obtain ⟨f1, f2, f3, f4⟩ := fillRows_spec width rawTable.toList height 0
              (List.replicate height []) [] cells ne hfill (by simp)
              (fun n hn => absurd hn (Nat.not_lt_zero n))
              (by
                intro n _
                rw [List.getD_eq_getElem?_getD]
                by_cases hn : n < height
                · simp [List.getElem?_replicate, hn]
                · simp [List.getElem?_replicate, hn])
              (by
                intro row hrow c hc
                rw [List.eq_of_mem_replicate hrow] at hc
                exact absurd hc (List.not_mem_nil _))
            have hne : t.nonEmptyCells ≠ [] := by
              intro he
              unfold Table.checkReachability at hreach
              rw [he] at hreach
              simp at hreach
            have hc0 : CellsOK (Table.mk width height cells ne ne) := by
              rw [cellsOK_iff]
              constructor
              · intro row hrow c hc
                obtain ⟨pt, rfl⟩ := f3 row hrow c hc
                exact stakesOK_new pt
              · intro row hrow c hc
                obtain ⟨pt, rfl⟩ := f3 row hrow c hc
                exact candidates_new_pos pt
            have hpos : 0 < height ∧ 0 < width := by
              by_contra hcon
              have hz : ne = [] := by
                by_cases hw : width = 0
                · exact f4 hw
                · have hh : height = 0 := by omega
                  subst hh
                  simp only [List.range'_zero, fillRows, Outcome.ok.injEq, Prod.mk.injEq] at hfill
                  exact hfill.2.symm
              subst hz
              have hfr : t.nonEmptyCells = [] := by
                have hinv : ∀ (coords : List (Nat × Nat)) (s : Table),
                    (enforceAll coords s).1.nonEmptyCells = s.nonEmptyCells := by
                  intro coords
                  induction coords with
                  | nil => intro s; rfl
                  | cons q rest ih =>
                    intro s
                    obtain ⟨i, j⟩ := q
                    unfold enforceAll
                    have hs : (s.enforceStakes i j).1.nonEmptyCells = s.nonEmptyCells :=
                      enforceStakesFuel_inv (fun s1 => s1.nonEmptyCells = s.nonEmptyCells)
                        (fun s1 l c d cl h _ _ => (tighten_nonEmptyCells s1 l c d cl).trans h)
                        _ s i j rfl
                    split
                    · next s1 b heq =>
                      rw [heq] at hs
                      rw [ih s1]; exact hs
                    · next s1 e heq =>
                      rw [heq] at hs
                      exact hs
                have := hinv (allCoords width height) (Table.mk width height cells [] [])
                rw [hall] at this
                exact this
              exact hne hfr
            have hg0 : Table.Grid (Table.mk width height cells ne ne) := by
              have hd1 : height < 2147483648 := by omega
              have hd2 : width < 2147483648 := by omega
              refine ⟨hpos.1, hd1, hpos.2, hd2, by simpa using f1, ?_⟩
              intro row hrow
              obtain ⟨n, hn, rfl⟩ := List.getElem_of_mem hrow
              have := f2 n (by simpa [f1] using hn)
              rw [List.getD_eq_getElem?_getD, List.getElem?_eq_getElem hn] at this
              simpa using this
            obtain ⟨a1, a2, a3, a4, a5, a6, a7⟩ := enforceAll_settled _ _ _ _ hg0 hc0 hall
            simp only at a3 a4 a5
            refine ⟨a1, a2, ?_, a4, a3, hne, ?_, ?_⟩
            · intro line hl col hcl d _
              rw [a3] at hl
              rw [a4] at hcl
              exact a7 (line, col) ((mem_allCoords width height line col).mpr ⟨hl, hcl⟩) hl hcl d
            · unfold Table.NonEmptySorted
              rw [a5]
              exact n1 List.Pairwise.nil
            · intro p hp
              rw [a5] at hp
              rcases n2 p hp with hm | ⟨h1, h2⟩
              · exact absurd hm (List.not_mem_nil _)
              · rw [a3, a4]
                exact ⟨List.mem_range.mp h1, h2⟩
          · simp at h

/-! ## The contract of `forceBorder` -/

theorem wellFormed_iff (t : Table) : t.WellFormed ↔ t.Grid ∧ CellsOK t := by
  unfold Table.WellFormed
  rw [cellsOK_iff]

/-- C2: `forceBorder(N, e, state)` on a well-formed board follows the three-row table. If
edge `e` of `N` is already determined to the requested state the call returns `false` and
the board is unchanged; if it is determined to the opposite state the call raises
`Unsolvable`; otherwise, if the call returns, the candidates of `N` are old candidates that
agree with the requested state on `e`, and edge `e` of `N` is determined to that state. -/
theorem forceBorder_contract (t : Table) (line col : Int) (dir : Direction) (close : Bool)
    (hwf : t.WellFormed) :
    ((t.cellAt (wrapIndex line t.height) (wrapIndex col t.width)).Determined dir close →
      t.forceBorder line col dir close = (t, .ok false)) ∧
    ((t.cellAt (wrapIndex line t.height) (wrapIndex col t.width)).Determined dir (!close) →
      t.forceBorder line col dir close = (t, .raised .unsolvable)) ∧
    (¬ (t.cellAt (wrapIndex line t.height) (wrapIndex col t.width)).Determined dir close →
      ¬ (t.cellAt (wrapIndex line t.height) (wrapIndex col t.width)).Determined dir (!close) →
      ∀ t1 b, t.forceBorder line col dir close = (t1, .ok b) →
        (∀ p ∈ (t1.cellAt (wrapIndex line t.height) (wrapIndex col t.width)).candidates,
          p ∈ (t.cellAt (wrapIndex line t.height) (wrapIndex col t.width)).candidates ∧
            p.get dir = !close) ∧
        (t1.cellAt (wrapIndex line t.height) (wrapIndex col t.width)).Determined dir close) := by
  obtain ⟨hg, hc⟩ := (wellFormed_iff t).mp hwf
  have hn := (hc (wrapIndex line t.height) (wrapIndex col t.width)).2
  refine ⟨?_, ?_, ?_⟩
  · intro hd
    unfold Cell.Determined at hd
    unfold Table.forceBorder forceBorderFuel
    cases close with
    | true =>
      simp only [if_true] at hd
      simp [hd]
    | false =>
      simp only [Bool.false_eq_true, if_false] at hd
      have hne : (t.cellAt (wrapIndex line t.height) (wrapIndex col t.width)).candidates ≠ [] := by
        intro e
        rw [e] at hn
        simp at hn
      simp [hd, hne]
  · intro hd
    unfold Cell.Determined at hd
    unfold Table.forceBorder forceBorderFuel
    cases close with
    | true =>
      simp only [Bool.not_true, Bool.false_eq_true, if_false] at hd
      have hne : (t.cellAt (wrapIndex line t.height) (wrapIndex col t.width)).candidates ≠ [] := by
        intro e
        rw [e] at hn
        simp at hn
      simp [hd, hne]
    | false =>
      simp only [Bool.not_false, if_true] at hd
      simp [hd]
  · intro hd1 hd2 t1 b h
    have hdet := (forceBorderFuel_keepsSettled _ t line col dir close t1 b hg hc h).2
    refine ⟨?_, hdet⟩
    intro p hp
    have hfr := forceBorderFuel_frame (t.candidateCount + 1) t line col dir close hg hc
    have h' : forceBorderFuel (t.candidateCount + 1) t line col dir close = (t1, .ok b) := h
    rw [h'] at hfr
    obtain ⟨_, hc1, hsub, _, _, _⟩ := hfr
    refine ⟨hsub _ _ p hp, ?_⟩
    have := forall_of_determined _ dir close (hc1 _ _).1 hdet p hp
    cases close <;> simpa [forcePredicate] using this

/-- C2 on the board `1111`: the W edge of the first cell is undetermined, and closing it
leaves it closed. -/
theorem forceBorder_contract_witness :
    deadendRow.WellFormed ∧
    ((deadendRow.forceBorder 0 0 .D_W true).1.cellAt 0 0).Determined .D_W true :=
  ⟨by decide,
    ((forceBorder_contract deadendRow 0 0 .D_W true (by decide)).2.2 (by decide) (by decide)
      (deadendRow.forceBorder 0 0 .D_W true).1 false (by decide)).2⟩

/-! ## The return value of `forceBorder` -/

/-- C3 fails on the code: no call of `forceBorder` returns `true`, because the only value
it returns besides the literal `false` is the disjunction that `enforceStakes` builds from
the results of `forceBorder`. On the board `1111` closing the undetermined W edge of the
first cell removes a candidate of that cell and returns `false`. -/
theorem forceBorder_never_reports_change :
    (∀ (fuel : Nat) (t : Table) (line col : Int) (dir : Direction) (close : Bool),
      (forceBorderFuel fuel t line col dir close).2 ≠ .ok true) ∧
    Table.create 4 1 "1111" = .ok deadendRow ∧
    (deadendRow.forceBorder 0 0 .D_W true).2 = .ok false ∧
    ((deadendRow.forceBorder 0 0 .D_W true).1.cellAt 0 0).candidates.length = 3 ∧
    (deadendRow.cellAt 0 0).candidates.length = 4 :=
  ⟨forceBorderFuel_never_true, by decide, by decide, by decide, by decide⟩

/-! ## Invariants -/

/-- C4: neighbour agreement is an invariant of propagation. It holds on every board the
constructor returns, and a call of `forceBorder` that returns on a well-formed board with
neighbour agreement leaves a well-formed board with neighbour agreement: for every cell
`A`, direction `d` and neighbour `B` across `d`, `A.stakes[d] = 0` implies
`B.stakes[opposite d] = 0` and `A.stakes[d] = |A.candidates|` implies
`B.stakes[opposite d] = |B.candidates|`. Hence an undetermined edge of a cell is
undetermined in the neighbour across it. -/
theorem neighbour_agreement_invariant :
    (∀ (width height : Nat) (rawTable : String) (t : Table),
      Table.create width height rawTable = .ok t → t.WellFormed ∧ t.Agreement) ∧
    (∀ (fuel : Nat) (t : Table) (line col : Int) (dir : Direction) (close : Bool)
      (t1 : Table) (b : Bool), t.WellFormed → t.Agreement →
      forceBorderFuel fuel t line col dir close = (t1, .ok b) →
      t1.WellFormed ∧ t1.Agreement) ∧
    (∀ (t : Table), t.WellFormed → t.Agreement →
      ∀ line, line < t.height → ∀ col, col < t.width → ∀ d : Direction,
      (t.cellAt line col).stakes.get d ≠ 0 →
      (t.cellAt line col).stakes.get d ≠ (t.cellAt line col).candidates.length →
      (t.cellAt (t.neighbour (line, col) d).1 (t.neighbour (line, col) d).2).stakes.get
          (oppositeDirection d) ≠ 0 ∧
      (t.cellAt (t.neighbour (line, col) d).1 (t.neighbour (line, col) d).2).stakes.get
          (oppositeDirection d) ≠
        (t.cellAt (t.neighbour (line, col) d).1
          (t.neighbour (line, col) d).2).candidates.length) := by
  refine ⟨?_, ?_, ?_⟩
  · intro width height rawTable t h
    obtain ⟨h1, h2, h3, _⟩ := create_ok width height rawTable t h
    exact ⟨(wellFormed_iff t).mpr ⟨h1, h2⟩, h3⟩
  · intro fuel t line col dir close t1 b hwf hag h
    obtain ⟨hg, hc⟩ := (wellFormed_iff t).mp hwf
    have hfr := forceBorderFuel_frame fuel t line col dir close hg hc
    rw [h] at hfr
    obtain ⟨hg1, hc1, _, hh, hw, _⟩ := hfr
    refine ⟨(wellFormed_iff t1).mpr ⟨hg1, hc1⟩, ?_⟩
    intro l hl c hcl d hd
    rw [hh] at hl
    rw [hw] at hcl
    exact (forceBorderFuel_keepsSettled fuel t line col dir close t1 b hg hc h).1 _ _
      (hag l hl c hcl d hd)
  · intro t hwf hag line hl col hc d h0 h1
    exact undetermined_across t hwf.1 hag line col hl hc d h0 h1

/-- C4 on the board `1111`: the constructed board and the board left by closing the W edge
of the first cell both satisfy neighbour agreement. -/
theorem neighbour_agreement_invariant_witness :
    Table.create 4 1 "1111" = .ok deadendRow ∧ deadendRow.Agreement ∧
    (deadendRow.forceBorder 0 0 .D_W true).1.Agreement :=
  ⟨by decide, (neighbour_agreement_invariant.1 4 1 "1111" deadendRow (by decide)).2,
    (neighbour_agreement_invariant.2.1 (deadendRow.candidateCount + 1) deadendRow 0 0 .D_W true
      (deadendRow.forceBorder 0 0 .D_W true).1 false (by decide) (by decide) (by decide)).2⟩

/-- C5: no cell ever has an empty candidate set. A freshly constructed cell and every
cell of a board returned by the constructor have a candidate, and `forceBorder` and
`enforceStakes` on a board whose cells have consistent stakes and a candidate each leave
every cell with a candidate, whether they return or raise. -/
theorem candidates_never_empty :
    (∀ pt : PieceType, 1 ≤ (Cell.new pt).candidates.length) ∧
    (∀ (width height : Nat) (rawTable : String) (t : Table),
      Table.create width height rawTable = .ok t → t.CandidatesNonempty) ∧
    (∀ (fuel : Nat) (t : Table) (line col : Int) (dir : Direction) (close : Bool),
      t.StakesOK → t.CandidatesNonempty →
      (forceBorderFuel fuel t line col dir close).1.CandidatesNonempty) ∧
    (∀ (fuel : Nat) (t : Table) (line col : Int),
      t.StakesOK → t.CandidatesNonempty →
      (enforceStakesFuel fuel t line col).1.CandidatesNonempty) := by
  refine ⟨candidates_new_pos, ?_, ?_, ?_⟩
  · intro width height rawTable t h
    exact ((cellsOK_iff t).mp (create_ok width height rawTable t h).2.1).2
  · intro fuel t line col dir close hs hn
    exact ((cellsOK_iff _).mp
      (forceBorderFuel_cellsOK fuel t line col dir close ((cellsOK_iff t).mpr ⟨hs, hn⟩))).2
  · intro fuel t line col hs hn
    exact ((cellsOK_iff _).mp
      (enforceStakesFuel_inv CellsOK (fun t line col dir close h h0 h1 =>
        tighten_cellsOK t line col dir close h h0 h1) fuel t line col
        ((cellsOK_iff t).mpr ⟨hs, hn⟩))).2

/-- C5 on the board `1111`: opening the S edge of the first cell raises `Unsolvable` and
every cell still has a candidate. -/
theorem candidates_never_empty_witness :
    deadendRow.StakesOK ∧ deadendRow.CandidatesNonempty ∧
    (deadendRow.forceBorder 0 0 .D_S false).2 = .raised .unsolvable ∧
    (deadendRow.forceBorder 0 0 .D_S false).1.CandidatesNonempty :=
  ⟨by decide, by decide, by decide,
    candidates_never_empty.2.2.1 _ deadendRow 0 0 .D_S false (by decide) (by decide)⟩

/-- C6: stakes are always consistent with candidates. In a freshly constructed cell, on
every board returned by the constructor, and on the board that `forceBorder` or
`enforceStakes` leaves (returning or raising) when started on a board with consistent
stakes, `stakes[d]` of every cell is the number of its candidates with a stub on `d`. -/
theorem stakes_always_consistent :
    (∀ pt : PieceType, (Cell.new pt).StakesOK) ∧
    (∀ (width height : Nat) (rawTable : String) (t : Table),
      Table.create width height rawTable = .ok t → t.StakesOK) ∧
    (∀ (fuel : Nat) (t : Table) (line col : Int) (dir : Direction) (close : Bool),
      t.StakesOK → (forceBorderFuel fuel t line col dir close).1.StakesOK) ∧
    (∀ (fuel : Nat) (t : Table) (line col : Int),
      t.StakesOK → (enforceStakesFuel fuel t line col).1.StakesOK) := by
  have step : ∀ (t : Table) (line col : Nat) (dir : Direction) (close : Bool),
      (∀ l c, (t.cellAt l c).StakesOK) →
      (t.cellAt line col).stakes.get dir ≠ 0 →
      (t.cellAt line col).stakes.get dir ≠ (t.cellAt line col).candidates.length →
      ∀ l c, ((t.tighten line col dir close).cellAt l c).StakesOK := by
    intro t line col dir close h _ _ l c
    rcases cellAt_tighten_cases t line col l c dir close with ⟨he, _, _⟩ | he
    · rw [he]; exact stakesOK_refresh _
    · rw [he]; exact h l c
  refine ⟨stakesOK_new, ?_, ?_, ?_⟩
  · intro width height rawTable t h
    exact ((cellsOK_iff t).mp (create_ok width height rawTable t h).2.1).1
  · intro fuel t line col dir close hs
    rw [stakesOK_iff] at hs ⊢
    exact forceBorderFuel_inv (fun t => ∀ l c, (t.cellAt l c).StakesOK) step fuel t line col
      dir close hs
  · intro fuel t line col hs
    rw [stakesOK_iff] at hs ⊢
    exact enforceStakesFuel_inv (fun t => ∀ l c, (t.cellAt l c).StakesOK) step fuel t line col hs

/-- C6 on the board `1111`: after closing the W edge of the first cell the stakes are
consistent. -/
theorem stakes_always_consistent_witness :
    deadendRow.StakesOK ∧ (deadendRow.forceBorder 0 0 .D_W true).1.StakesOK :=
  ⟨by decide, stakes_always_consistent.2.2.1 _ deadendRow 0 0 .D_W true (by decide)⟩

/-! ## Monotonicity of the search -/

theorem enforceLoop_raised (Q : Raised → Prop)
    (fb : Table → Int → Int → Direction → Bool → Table × Outcome Bool)
    (hfb : ∀ t line col dir close e, (fb t line col dir close).2 = .raised e → Q e)
    (line col : Nat) :
    ∀ (dirs : List Direction) (t : Table) (ret : Bool) (e : Raised),
      (enforceLoop fb line col dirs t ret).2 = .raised e → Q e := by
  intro dirs
  induction dirs with
  | nil => intro t ret e h; simp [enforceLoop] at h
  | cons i rest ih =>
    intro t ret e h
    unfold enforceLoop at h
    simp only at h
    split at h
    · split at h
      · exact ih _ _ e h
      · next t1 e1 heq =>
        simp only [Outcome.raised.injEq] at h
        subst h
        exact hfb t _ _ _ true e1 (by rw [heq])
    · split at h
      · split at h
        · exact ih _ _ e h
        · next t1 e1 heq =>
          simp only [Outcome.raised.injEq] at h
          subst h
          exact hfb t _ _ _ false e1 (by rw [heq])
      · exact ih _ _ e h

/-- The propagation raises nothing but `Unsolvable` (or runs out of fuel). -/
theorem forceBorderFuel_raised :
    ∀ (fuel : Nat) (t : Table) (line col : Int) (dir : Direction) (close : Bool) (e : Raised),
      (forceBorderFuel fuel t line col dir close).2 = .raised e →
      e = .unsolvable ∨ e = .outOfFuel := by
  intro fuel
  induction fuel with
  | zero =>
    intro t line col dir close e h
    simp only [forceBorderFuel, Outcome.raised.injEq] at h
    exact Or.inr h.symm
  | succ fuel ih =>
    intro t line col dir close e h
    unfold forceBorderFuel at h
    simp only at h
    split at h
    · split at h
      · simp at h
      · simp only [Outcome.raised.injEq] at h
        exact Or.inl h.symm
    · split at h
      · split at h
        · simp at h
        · simp only [Outcome.raised.injEq] at h
          exact Or.inl h.symm
      · unfold enforceStakesWith at h
        exact enforceLoop_raised _ _ ih _ _ _ _ _ e h

theorem checkReachability_raised (t : Table) (e : Raised)
    (h : t.checkReachability.2 = .raised e) :
    e = .unsolvable ∨ e = .undefinedBehaviour ∨ e = .outOfFuel := by
  unfold Table.checkReachability at h
  split at h
  · simp only [Outcome.raised.injEq] at h
    exact Or.inr (Or.inl h.symm)
  · split at h
    · simp only [Outcome.raised.injEq] at h
      exact Or.inr (Or.inr h.symm)
    · split at h
      · simp at h
      · simp only [Outcome.raised.injEq] at h
        exact Or.inl h.symm

theorem forceBorder_sub (t : Table) (line col : Int) (dir : Direction) (close : Bool) :
    (t.forceBorder line col dir close).1.Sub t :=
  forceBorderFuel_sub _ t line col dir close

/-- The board carried by a solved signal that leaves the `try` block of an attempt has
only candidates of the board the attempt was made on. -/
theorem tryBlock_solved (solveRec : Table → Int → Table × Outcome Unit)
    (hrec : ∀ other d s, (solveRec other d).2 = .raised (.solved s) → s.Sub other)
    (t : Table) (depth : Int) (i j : Nat) (dir : Direction) (close : Bool) (s : Table)
    (h : tryBlock solveRec t depth i j dir close = .raised (.solved s)) : s.Sub t := by
  unfold tryBlock at h
  have hsub := forceBorder_sub t i j dir close
  split at h
  · next t1 e heq =>
    have := forceBorderFuel_raised _ t i j dir close e (by
      show (t.forceBorder i j dir close).2 = _
      rw [heq])
    simp only [Outcome.raised.injEq] at h
    rcases this with rfl | rfl <;> simp at h
  · next other changed heq =>
    rw [heq] at hsub
    split at h
    · split at h
      · next t2 e heq2 =>
        have := checkReachability_raised other e (by rw [heq2])
        simp only [Outcome.raised.injEq] at h
        rcases this with rfl | rfl | rfl <;> simp at h
      · next other1 u heq2 =>
        have hst := checkReachability_state other
        rw [heq2] at hst
        simp only at hst
        subst hst
        exact (hrec _ _ s h).trans hsub
    · exact (hrec _ _ s h).trans hsub

/-- An attempt only removes candidates from the board, and a solved signal leaving it
carries a board with only candidates of that board. -/
theorem attemptWith_sub (solveRec : Table → Int → Table × Outcome Unit)
    (hrec : ∀ other d s, (solveRec other d).2 = .raised (.solved s) → s.Sub other)
    (t : Table) (depth : Int) (i j : Nat) (dir : Direction) (close : Bool) :
    (attemptWith solveRec t depth i j dir close).1.Sub t ∧
    ∀ s, (attemptWith solveRec t depth i j dir close).2 = .raised (.solved s) → s.Sub t := by
  unfold attemptWith
  simp only
  split
  · split
    · exact ⟨Table.Sub.refl t, fun s h => by simp at h⟩
    · have hsub := forceBorder_sub t i j dir (!close)
      have hr := forceBorderFuel_raised (t.candidateCount + 1) t i j dir (!close)
      split
      · next t1 e heq =>
        rw [heq] at hsub
        refine ⟨hsub, fun s h => ?_⟩
        have := hr e (by
          show (t.forceBorder i j dir (!close)).2 = _
          rw [heq])
        simp only [Outcome.raised.injEq] at h
        rcases this with rfl | rfl <;> simp at h
      · next t1 changed heq =>
        rw [heq] at hsub
        split
        · have hst := checkReachability_state t1
          split
          · next t2 e heq2 =>
            rw [heq2] at hst
            simp only at hst
            subst hst
            refine ⟨hsub, fun s h => ?_⟩
            have := checkReachability_raised t2 e (by rw [heq2])
            simp only [Outcome.raised.injEq] at h
            rcases this with rfl | rfl | rfl <;> simp at h
          · next t2 u heq2 =>
            rw [heq2] at hst
            simp only at hst
            subst hst
            exact ⟨hsub, fun s h => by simp at h⟩
        · exact ⟨hsub, fun s h => by simp at h⟩
    · next e hne heq =>
      refine ⟨Table.Sub.refl t, fun s h => ?_⟩
      simp only [Outcome.raised.injEq] at h
      subst h
      exact tryBlock_solved solveRec hrec t depth i j dir close s heq
  · exact ⟨Table.Sub.refl t, fun s h => by simp at h⟩

theorem scanProbes_sub (solveRec : Table → Int → Table × Outcome Unit)
    (hrec : ∀ other d s, (solveRec other d).2 = .raised (.solved s) → s.Sub other)
    (depth : Int) (i j : Nat) :
    ∀ (ps : List (Direction × Bool)) (t : Table),
      (scanProbes solveRec depth i j ps t).1.Sub t ∧
      ∀ s, (scanProbes solveRec depth i j ps t).2 = .raised (.solved s) → s.Sub t := by
  intro ps
  induction ps with
  | nil => intro t; exact ⟨Table.Sub.refl t, fun s h => by simp [scanProbes] at h⟩
  | cons q rest ih =>
    intro t
    obtain ⟨d, close⟩ := q
    unfold scanProbes
    have ha := attemptWith_sub solveRec hrec t depth i j d close
    split
    · next t1 heq =>
      rw [heq] at ha
      exact ⟨ha.1, fun s h => by simp at h⟩
    · next t1 heq =>
      rw [heq] at ha
      exact ⟨(ih t1).1.trans ha.1, fun s h => ((ih t1).2 s h).trans ha.1⟩
    · next t1 e heq =>
      rw [heq] at ha
      exact ⟨ha.1, fun s h => ha.2 s h⟩

theorem scanCells_sub (solveRec : Table → Int → Table × Outcome Unit)
    (hrec : ∀ other d s, (solveRec other d).2 = .raised (.solved s) → s.Sub other)
    (depth : Int) :
    ∀ (coords : List (Nat × Nat)) (t : Table) (nothingToDo : Bool),
      (scanCells solveRec depth coords t nothingToDo).1.Sub t ∧
      ∀ s, (scanCells solveRec depth coords t nothingToDo).2 = .raised (.solved s) →
        s.Sub t := by
  intro coords
  induction coords with
  | nil => intro t n; exact ⟨Table.Sub.refl t, fun s h => by simp [scanCells] at h⟩
  | cons q rest ih =>
    intro t n
    obtain ⟨i, j⟩ := q
    unfold scanCells
    split
    · exact ih t n
    · have hp := scanProbes_sub solveRec hrec depth i j probes t
      split
      · next t1 heq =>
        rw [heq] at hp
        exact ⟨hp.1, fun s h => by simp at h⟩
      · next t1 heq =>
        rw [heq] at hp
        exact ⟨(ih t1 false).1.trans hp.1, fun s h => ((ih t1 false).2 s h).trans hp.1⟩
      · next t1 e heq =>
        rw [heq] at hp
        refine ⟨hp.1, fun s h => hp.2 s ?_⟩
        simp only [Outcome.raised.injEq] at h ⊢
        exact h

/-- The search only removes candidates: the board it leaves, and the board carried by a
solved signal, have only candidates of the board it started on. -/
theorem solveFuel_sub :
    ∀ (fuel : Nat) (t : Table) (maxDepth depth : Int),
      (solveFuel fuel t maxDepth depth).1.Sub t ∧
      ∀ s, (solveFuel fuel t maxDepth depth).2 = .raised (.solved s) → s.Sub t := by
  intro fuel
  induction fuel with
  | zero =>
    intro t maxDepth depth
    exact ⟨Table.Sub.refl t, fun s h => by simp [solveFuel] at h⟩
  | succ fuel ih =>
    intro t maxDepth depth
    unfold solveFuel
    split
    · have hs := scanCells_sub (fun other d => solveFuel fuel other d 1)
        (fun other d s h => (ih other d 1).2 s h) depth (allCoords t.width t.height) t true
      split
      · next t1 e heq =>
        rw [heq] at hs
        refine ⟨hs.1, fun s h => hs.2 s ?_⟩
        simp only [Outcome.raised.injEq] at h ⊢
        exact h
      · next t1 heq =>
        rw [heq] at hs
        exact ⟨(ih t1 maxDepth 1).1.trans hs.1, fun s h => ((ih t1 maxDepth 1).2 s h).trans hs.1⟩
      · next t1 n heq =>
        rw [heq] at hs
        split
        · refine ⟨hs.1, fun s h => ?_⟩
          simp only [Outcome.raised.injEq, Raised.solved.injEq] at h
          rw [← h]
          exact hs.1
        · split
          · exact ⟨hs.1, fun s h => by simp at h⟩
          · exact ⟨(ih t1 maxDepth (depth + 1)).1.trans hs.1,
              fun s h => ((ih t1 maxDepth (depth + 1)).2 s h).trans hs.1⟩
    · exact ⟨Table.Sub.refl t, fun s h => by simp at h⟩

/-- C7: monotonicity. Whatever way control leaves `forceBorder`, `enforceStakes` or
`solve`, and in particular when the call does not raise, every cell's candidates
afterwards are among its candidates before the call; the same holds for the board that a
solved signal of `solve` carries. -/
theorem candidates_monotone (fuel : Nat) (t : Table) :
    (∀ (line col : Int) (dir : Direction) (close : Bool),
      (forceBorderFuel fuel t line col dir close).1.Sub t) ∧
    (∀ (line col : Int), (enforceStakesFuel fuel t line col).1.Sub t) ∧
    (∀ (maxDepth : Int), (t.solve fuel maxDepth).1.Sub t) ∧
    (∀ (maxDepth : Int) (s : Table),
      (t.solve fuel maxDepth).2 = .raised (.solved s) → s.Sub t) :=
  ⟨fun line col dir close => forceBorderFuel_sub fuel t line col dir close,
    fun line col => enforceStakesFuel_sub fuel t line col,
    fun maxDepth => (solveFuel_sub fuel t maxDepth 1).1,
    fun maxDepth s h => (solveFuel_sub fuel t maxDepth 1).2 s h⟩

/-! ## Termination of the propagation -/

theorem sum_map_set {α : Type} (f : α → Nat) :
    ∀ (l : List α) (i : Nat) (h : i < l.length) (x : α),
      ((l.set i x).map f).sum + f (l.get ⟨i, h⟩) = (l.map f).sum + f x := by
  intro l
  induction l with
  | nil => intro i h; exact absurd h (Nat.not_lt_zero _)
  | cons a l ih =>
    intro i h x
    cases i with
    | zero => simp; omega
    | succ i =>
      have := ih i (Nat.lt_of_succ_lt_succ h) x
      simp only [List.set_cons_succ, List.map_cons, List.sum_cons, List.get_cons_succ] at this ⊢
      omega

/-- Writing a cell with fewer candidates lowers the number of candidates on the board. -/
theorem candidateCount_setCell_lt (t : Table) (line col : Nat) (x : Cell)
    (h1 : line < t.cells.length) (h2 : col < (t.cells.getD line []).length)
    (hx : x.candidates.length < (t.cellAt line col).candidates.length) :
    (t.setCell line col x).candidateCount < t.candidateCount := by
  have hrow : t.cells.getD line [] = t.cells.get ⟨line, h1⟩ := by
    rw [List.getD_eq_getElem?_getD, List.getElem?_eq_getElem h1]
    rfl
  have hcell : t.cellAt line col = (t.cells.getD line []).get ⟨col, h2⟩ := by
    unfold Table.cellAt
    rw [List.getD_eq_getElem?_getD (t.cells.getD line []), List.getElem?_eq_getElem h2]
    rfl
  have e1 := sum_map_set (fun cell : Cell => cell.candidates.length) (t.cells.getD line []) col
    h2 x
  have e2 := sum_map_set (fun row : List Cell =>
    (row.map (fun cell => cell.candidates.length)).sum) t.cells line h1
    ((t.cells.getD line []).set col x)
  rw [← hcell] at e1
  rw [← hrow] at e2
  unfold Table.candidateCount Table.setCell
  simp only at e1 e2 ⊢
  omega

theorem candidateCount_tighten_lt (t : Table) (line col : Nat) (dir : Direction)
    (close : Bool) (hc : CellsOK t) (h0 : (t.cellAt line col).stakes.get dir ≠ 0)
    (h1 : (t.cellAt line col).stakes.get dir ≠ (t.cellAt line col).candidates.length) :
    (t.tighten line col dir close).candidateCount < t.candidateCount := by
  obtain ⟨r1, r2⟩ := inRange_of_stakes_ne_zero t line col dir h0
  have hcount : (t.tighten line col dir close).candidateCount =
      (t.setCell line col (Cell.refreshStakes
        { t.cellAt line col with
          candidates := (t.cellAt line col).candidates.filter
            (fun c => forcePredicate close (c.get dir)) })).candidateCount := by
    unfold Table.candidateCount
    rw [tighten_cells]
  rw [hcount]
  apply candidateCount_setCell_lt t line col _ r1 r2
  rw [refreshStakes_candidates]
  have hs := (hc line col).1 dir (direction_mem_all dir)
  rw [hs] at h0 h1
  have hsum := List.length_eq_countP_add_countP (fun p : Piece => p.get dir)
    (t.cellAt line col).candidates
  simp only [Bool.not_eq_true, Bool.decide_eq_false] at hsum
  cases close with
  | false =>
    have : (fun c : Piece => forcePredicate false (c.get dir)) = fun p => p.get dir := by
      funext c; simp [forcePredicate]
    simp only [this, ← List.countP_eq_length_filter]
    have := List.countP_le_length (fun p : Piece => p.get dir)
      (l := (t.cellAt line col).candidates)
    omega
  | true =>
    have : (fun c : Piece => forcePredicate true (c.get dir)) = fun p => !(p.get dir) := by
      funext c; simp [forcePredicate]
    simp only [this, ← List.countP_eq_length_filter]
    omega

theorem enforceLoop_total (fuel : Nat)
    (hfb : ∀ (t : Table) (line col : Int) (dir : Direction) (close : Bool),
      CellsOK t → t.candidateCount < fuel →
      (forceBorderFuel fuel t line col dir close).2 ≠ .raised .outOfFuel ∧
      (forceBorderFuel fuel t line col dir close).1.candidateCount ≤ t.candidateCount)
    (line col : Nat) :
    ∀ (dirs : List Direction) (t : Table) (ret : Bool),
      CellsOK t → t.candidateCount < fuel →
      (enforceLoop (forceBorderFuel fuel) line col dirs t ret).2 ≠ .raised .outOfFuel ∧
      (enforceLoop (forceBorderFuel fuel) line col dirs t ret).1.candidateCount
        ≤ t.candidateCount := by
  intro dirs
  induction dirs with
  | nil => intro t ret _ _; exact ⟨by simp [enforceLoop], Nat.le_refl _⟩
  | cons i rest ih =>
    intro t ret hc hf
    unfold enforceLoop
    simp only
    split
    · have h1 := hfb t ((line : Int) + (displacement i).1) ((col : Int) + (displacement i).2)
        (oppositeDirection i) true hc hf
      have h2 := forceBorderFuel_cellsOK fuel t ((line : Int) + (displacement i).1)
        ((col : Int) + (displacement i).2) (oppositeDirection i) true hc
      split
      · next t1 b heq =>
        rw [heq] at h1 h2
        obtain ⟨a1, a2⟩ := ih t1 (ret || b) h2 (Nat.lt_of_le_of_lt h1.2 hf)
        exact ⟨a1, Nat.le_trans a2 h1.2⟩
      · next t1 e heq =>
        rw [heq] at h1
        exact h1
    · split
      · have h1 := hfb t ((line : Int) + (displacement i).1) ((col : Int) + (displacement i).2)
          (oppositeDirection i) false hc hf
        have h2 := forceBorderFuel_cellsOK fuel t ((line : Int) + (displacement i).1)
          ((col : Int) + (displacement i).2) (oppositeDirection i) false hc
        split
        · next t1 b heq =>
          rw [heq] at h1 h2
          obtain ⟨a1, a2⟩ := ih t1 (ret || b) h2 (Nat.lt_of_le_of_lt h1.2 hf)
          exact ⟨a1, Nat.le_trans a2 h1.2⟩
        · next t1 e heq =>
          rw [heq] at h1
          exact h1
      · exact ih t ret hc hf

/-- On a board with consistent stakes the propagation ends before its fuel is used up
when the fuel exceeds the number of candidates on the board. -/
theorem forceBorderFuel_total :
    ∀ (fuel : Nat) (t : Table) (line col : Int) (dir : Direction) (close : Bool),
      CellsOK t → t.candidateCount < fuel →
      (forceBorderFuel fuel t line col dir close).2 ≠ .raised .outOfFuel ∧
      (forceBorderFuel fuel t line col dir close).1.candidateCount ≤ t.candidateCount := by
  intro fuel
  induction fuel with
  | zero => intro t line col dir close _ hf; exact absurd hf (Nat.not_lt_zero _)
  | succ fuel ih =>
    intro t line col dir close hc hf
    unfold forceBorderFuel
    simp only
    split
    · split <;> exact ⟨by simp, Nat.le_refl _⟩
    · next h0 =>
      split
      · split <;> exact ⟨by simp, Nat.le_refl _⟩
      · next h1 =>
        have hlt := candidateCount_tighten_lt t (wrapIndex line t.height)
          (wrapIndex col t.width) dir close hc h0 h1
        have hc2 := tighten_cellsOK t (wrapIndex line t.height) (wrapIndex col t.width) dir
          close hc h0 h1
        unfold enforceStakesWith
        obtain ⟨a1, a2⟩ := enforceLoop_total fuel ih _ _ Direction.all _ false hc2 (by omega)
        exact ⟨a1, by omega⟩

/-- The model `Table.forceBorder` never runs out of fuel on a board with consistent
stakes: it returns or raises `Unsolvable`. -/
theorem forceBorder_total (t : Table) (line col : Int) (dir : Direction) (close : Bool)
    (hc : CellsOK t) :
    (∃ t1 b, t.forceBorder line col dir close = (t1, .ok b)) ∨
    (∃ t1, t.forceBorder line col dir close = (t1, .raised .unsolvable)) := by
  have h1 := (forceBorderFuel_total (t.candidateCount + 1) t line col dir close hc
    (Nat.lt_succ_self _)).1
  have h2 := forceBorderFuel_raised (t.candidateCount + 1) t line col dir close
  unfold Table.forceBorder
  cases hr : forceBorderFuel (t.candidateCount + 1) t line col dir close with
  | mk t1 o =>
    cases o with
    | ok b => exact Or.inl ⟨t1, b, rfl⟩
    | raised e =>
      rw [hr] at h1 h2
      rcases h2 e rfl with rfl | rfl
      · exact Or.inr ⟨t1, rfl⟩
      · exact absurd rfl h1

/-! ## The reachability check -/

theorem visitNeighbours_spec (t : Table) (c : Nat × Nat) :
    ∀ (dirs : List Direction) (U Q : List (Nat × Nat)), U.Nodup →
      (visitNeighbours t c dirs U Q).1.Nodup ∧
      (∀ q ∈ (visitNeighbours t c dirs U Q).1, q ∈ U) ∧
      (∀ q ∈ Q, q ∈ (visitNeighbours t c dirs U Q).2) ∧
      (∀ q ∈ (visitNeighbours t c dirs U Q).2, q ∈ Q ∨
        (q ∈ U ∧ q ∉ (visitNeighbours t c dirs U Q).1 ∧
          ∃ d ∈ dirs, (t.cellAt c.1 c.2).stakes.get d ≠ 0 ∧ q = t.neighbour c d)) ∧
      (∀ q ∈ U, q ∈ (visitNeighbours t c dirs U Q).1 ∨ q ∈ (visitNeighbours t c dirs U Q).2) ∧
      (∀ d ∈ dirs, (t.cellAt c.1 c.2).stakes.get d ≠ 0 →
        t.neighbour c d ∉ (visitNeighbours t c dirs U Q).1) ∧
      (visitNeighbours t c dirs U Q).1.length + (visitNeighbours t c dirs U Q).2.length
        = U.length + Q.length := by
  intro dirs
  induction dirs with
  | nil =>
    intro U Q hU
    exact ⟨hU, fun _ h => h, fun _ h => h, fun _ h => Or.inl h, fun _ h => Or.inl h,
      fun _ h => absurd h (List.not_mem_nil _), rfl⟩
  | cons i rest ih =>
    intro U Q hU
    unfold visitNeighbours
    split
    · next h0 =>
      obtain ⟨a1, a2, a3, a4, a5, a6, a7⟩ := ih U Q hU
      refine ⟨a1, a2, a3, ?_, a5, ?_, a7⟩
      · intro q hq
        rcases a4 q hq with h | ⟨h1, h2, d, hd, h3, h4⟩
        · exact Or.inl h
        · exact Or.inr ⟨h1, h2, d, List.mem_cons_of_mem _ hd, h3, h4⟩
      · intro d hd hs
        rcases List.mem_cons.mp hd with rfl | hd
        · exact absurd h0 hs
        · exact a6 d hd hs
    · next h0 =>
      split
      · next hn =>
        obtain ⟨a1, a2, a3, a4, a5, a6, a7⟩ :=
          ih (U.erase (t.neighbour c i)) (Q ++ [t.neighbour c i]) (hU.erase _)
        have hnot : t.neighbour c i ∉
            (visitNeighbours t c rest (U.erase (t.neighbour c i))
              (Q ++ [t.neighbour c i])).1 := by
          intro hm
          exact (hU.mem_erase_iff.mp (a2 _ hm)).1 rfl
        refine ⟨a1, fun q hq => List.mem_of_mem_erase (a2 q hq),
          fun q hq => a3 q (List.mem_append_left _ hq), ?_, ?_, ?_, ?_⟩
        · intro q hq
          rcases a4 q hq with h | ⟨h1, h2, d, hd, h3, h4⟩
          · rcases List.mem_append.mp h with h | h
            · exact Or.inl h
            · have hq' : q = t.neighbour c i := by simpa using h
              subst hq'
              exact Or.inr ⟨hn, hnot, i, List.mem_cons_self _ _, h0, rfl⟩
          · exact Or.inr ⟨List.mem_of_mem_erase h1, h2, d, List.mem_cons_of_mem _ hd, h3, h4⟩
        · intro q hq
          by_cases hqn : q = t.neighbour c i
          · subst hqn
            exact Or.inr (a3 _ (List.mem_append_right _ (List.mem_singleton_self _)))
          · exact a5 q (hU.mem_erase_iff.mpr ⟨hqn, hq⟩)
        · intro d hd hs
          rcases List.mem_cons.mp hd with rfl | hd
          · exact hnot
          · exact a6 d hd hs
        · rw [a7, List.length_erase_of_mem hn, List.length_append]
          have : 0 < U.length := List.length_pos_of_mem hn
          simp only [List.length_singleton]
          omega
      · next hn =>
        obtain ⟨a1, a2, a3, a4, a5, a6, a7⟩ := ih U Q hU
        refine ⟨a1, a2, a3, ?_, a5, ?_, a7⟩
        · intro q hq
          rcases a4 q hq with h | ⟨h1, h2, d, hd, h3, h4⟩
          · exact Or.inl h
          · exact Or.inr ⟨h1, h2, d, List.mem_cons_of_mem _ hd, h3, h4⟩
        · intro d hd hs
          rcases List.mem_cons.mp hd with rfl | hd
          · exact fun hm => hn (a2 _ hm)
          · exact a6 d hd hs

/-- One round of the `while` loop keeps the invariant. -/
theorem reachInv_round (t : Table) (start c : Nat × Nat) (U Q : List (Nat × Nat))
    (h : ReachInv t start U (c :: Q)) :
    ReachInv t start (visitNeighbours t c Direction.all U Q).1
      (visitNeighbours t c Direction.all U Q).2 := by
  obtain ⟨a1, a2, a3, a4, a5, a6, _⟩ := visitNeighbours_spec t c Direction.all U Q h.nodup
  have hc := h.queue c (List.mem_cons_self _ _)
  have hq' : ∀ q ∈ (visitNeighbours t c Direction.all U Q).2,
      q ∈ t.nonEmptyCells ∧ q ∉ (visitNeighbours t c Direction.all U Q).1 ∧
        t.Reachable start q := by
    intro q hq
    rcases a4 q hq with hm | ⟨h1, h2, d, _, h3, h4⟩
    · obtain ⟨b1, b2, b3⟩ := h.queue q (List.mem_cons_of_mem _ hm)
      exact ⟨b1, fun hm' => b2 (a2 q hm'), b3⟩
    · exact ⟨h.sub q h1, h2,
        Relation.ReflTransGen.tail hc.2.2 ⟨d, h3, h4, h.sub q h1⟩⟩
  refine ⟨a1, fun q hq => h.sub q (a2 q hq), fun hm => h.start_out (a2 _ hm), hq', ?_, ?_⟩
  · intro p hp hpu
    by_cases hpU : p ∈ U
    · rcases a5 p hpU with hm | hm
      · exact absurd hm hpu
      · exact (hq' p hm).2.2
    · exact h.visited p hp hpU
  · intro p hp hpu hpq d hd
    have hpU : p ∉ U := by
      intro hm
      rcases a5 p hm with hm' | hm'
      · exact hpu hm'
      · exact hpq hm'
    by_cases hpc : p = c
    · subst hpc
      exact a6 d (direction_mem_all d) hd
    · have hpQ : p ∉ c :: Q := by
        intro hm
        rcases List.mem_cons.mp hm with e | hm
        · exact hpc e
        · exact hpq (a3 p hm)
      exact fun hm => h.closed p hp hpU hpQ d hd (a2 _ hm)

/-- With enough fuel the loop ends, and the cells it leaves unvisited are the non-empty
cells that no path of possible steps reaches from the start cell. -/
theorem reachLoop_spec (t : Table) (start : Nat × Nat) (hs : start ∈ t.nonEmptyCells) :
    ∀ (fuel : Nat) (U Q : List (Nat × Nat)), ReachInv t start U Q →
      U.length + Q.length < fuel →
      ∃ U1, reachLoop t fuel U Q = some U1 ∧
        ∀ q, q ∈ U1 ↔ q ∈ t.nonEmptyCells ∧ ¬ t.Reachable start q := by
  intro fuel
  induction fuel with
  | zero => intro U Q _ hf; exact absurd hf (Nat.not_lt_zero _)
  | succ fuel ih =>
    intro U Q hinv hf
    cases Q with
    | nil =>
      refine ⟨U, rfl, fun q => ⟨fun hq => ⟨hinv.sub q hq, ?_⟩, fun hq => ?_⟩⟩
      · intro hr
        have key : ∀ p, t.Reachable start p → p ∈ t.nonEmptyCells ∧ p ∉ U := by
          intro p hp
          induction hp with
          | refl => exact ⟨hs, hinv.start_out⟩
          | tail _ hstep ihp =>
            obtain ⟨d, h1, h2, h3⟩ := hstep
            refine ⟨h3, ?_⟩
            rw [h2]
            exact hinv.closed _ ihp.1 ihp.2 (List.not_mem_nil _) d h1
        exact (key q hr).2 hq
      · by_contra hqU
        exact hq.2 (hinv.visited q hq.1 hqU)
    | cons c Q =>
      have hspec := visitNeighbours_spec t c Direction.all U Q hinv.nodup
      have hlen := hspec.2.2.2.2.2.2
      obtain ⟨U1, h1, h2⟩ := ih _ _ (reachInv_round t start c U Q hinv) (by
        rw [hlen]
        simp only [List.length_cons] at hf
        omega)
      exact ⟨U1, h1, h2⟩

theorem pairwise_coordLt_nodup (l : List (Nat × Nat)) (h : l.Pairwise coordLt) : l.Nodup := by
  refine List.Pairwise.imp ?_ h
  intro a b hab e
  subst e
  unfold coordLt at hab
  omega

/-- The invariant holds when the loop is entered. -/
theorem reachInv_init (t : Table) (start : Nat × Nat) (rest : List (Nat × Nat))
    (hne : t.nonEmptyCells = start :: rest) (hnd : t.nonEmptyCells.Nodup) :
    ReachInv t start (t.nonEmptyCells.erase start) [start] := by
  have hs : start ∈ t.nonEmptyCells := by rw [hne]; exact List.mem_cons_self _ _
  have hout : start ∉ t.nonEmptyCells.erase start := fun hm => (hnd.mem_erase_iff.mp hm).1 rfl
  refine ⟨hnd.erase _, fun q hq => List.mem_of_mem_erase hq, hout, ?_, ?_, ?_⟩
  · intro q hq
    have : q = start := by simpa using hq
    subst this
    exact ⟨hs, hout, Relation.ReflTransGen.refl⟩
  · intro p hp hpu
    have : p = start := by
      by_contra hne'
      exact hpu (hnd.mem_erase_iff.mpr ⟨hne', hp⟩)
    subst this
    exact Relation.ReflTransGen.refl
  · intro p hp hpu hpq
    have : p = start := by
      by_contra hne'
      exact hpu (hnd.mem_erase_iff.mpr ⟨hne', hp⟩)
    subst this
    exact absurd (List.mem_singleton_self _) hpq

/-- The reachability check on a board with a non-empty cell: it never runs out of fuel,
and it raises exactly when a non-empty cell is not reachable from the start cell. -/
theorem checkReachability_spec (t : Table) (start : Nat × Nat) (rest : List (Nat × Nat))
    (hne : t.nonEmptyCells = start :: rest) (hnd : t.nonEmptyCells.Nodup) :
    ((∃ q ∈ t.nonEmptyCells, ¬ t.Reachable start q) ∧
        t.checkReachability = (t, .raised .unsolvable)) ∨
    ((∀ q ∈ t.nonEmptyCells, t.Reachable start q) ∧ t.checkReachability = (t, .ok ())) := by
  have hs : start ∈ t.nonEmptyCells := by rw [hne]; exact List.mem_cons_self _ _
  obtain ⟨U1, h1, h2⟩ := reachLoop_spec t start hs (t.nonEmptyCells.length + 1)
    (t.nonEmptyCells.erase start) [start] (reachInv_init t start rest hne hnd) (by
      rw [List.length_erase_of_mem hs]
      have : 0 < t.nonEmptyCells.length := List.length_pos_of_mem hs
      simp only [List.length_singleton]
      omega)
  have hcr : t.checkReachability =
      if U1.isEmpty then (t, .ok ()) else (t, .raised .unsolvable) := by
    unfold Table.checkReachability
    rw [hne]
    simp only
    rw [← hne, h1]
  cases hU : U1 with
  | nil =>
    right
    rw [hcr, hU]
    refine ⟨?_, rfl⟩
    intro q hq
    by_contra hr
    have := (h2 q).mpr ⟨hq, hr⟩
    rw [hU] at this
    exact absurd this (List.not_mem_nil _)
  | cons u us =>
    left
    rw [hcr, hU]
    refine ⟨?_, rfl⟩
    have := (h2 u).mp (by rw [hU]; exact List.mem_cons_self _ _)
    exact ⟨u, this.1, this.2⟩

/-- C8: on a board with a non-empty cell, whose start cell is the least coordinate of
`nonEmptyCells`, `checkReachability` raises `Unsolvable` if and only if some non-empty cell
is not reached from the start cell by a path of non-empty cells whose steps leave a cell
through a direction with `stakes[d] > 0`; otherwise it returns, and in both cases the
board is unchanged. -/
theorem checkReachability_iff_unreachable (t : Table) (start : Nat × Nat)
    (rest : List (Nat × Nat)) (hne : t.nonEmptyCells = start :: rest)
    (hsorted : t.NonEmptySorted) :
    (∀ q ∈ t.nonEmptyCells, q = start ∨ coordLt start q) ∧
    (t.checkReachability = (t, .raised .unsolvable) ↔
      ∃ q ∈ t.nonEmptyCells, ¬ t.Reachable start q) ∧
    ((¬ ∃ q ∈ t.nonEmptyCells, ¬ t.Reachable start q) → t.checkReachability = (t, .ok ())) := by
  have hnd := pairwise_coordLt_nodup _ hsorted
  refine ⟨?_, ?_, ?_⟩
  · intro q hq
    unfold Table.NonEmptySorted at hsorted
    rw [hne] at hsorted hq
    rcases List.mem_cons.mp hq with e | hm
    · exact Or.inl e
    · exact Or.inr (List.rel_of_pairwise_cons hsorted hm)
  · rcases checkReachability_spec t start rest hne hnd with ⟨h1, h2⟩ | ⟨h1, h2⟩
    · exact ⟨fun _ => h1, fun _ => h2⟩
    · constructor
      · intro h
        rw [h2] at h
        simp at h
      · rintro ⟨q, hq, hr⟩
        exact absurd (h1 q hq) hr
  · intro hno
    rcases checkReachability_spec t start rest hne hnd with ⟨h1, _⟩ | ⟨_, h2⟩
    · exact absurd h1 hno
    · exact h2

/-- C8 on the board `1111` as constructed: every cell is reached, the check returns. -/
theorem checkReachability_iff_unreachable_witness :
    deadendRow.nonEmptyCells = (0, 0) :: [(0, 1), (0, 2), (0, 3)] ∧
    deadendRow.NonEmptySorted ∧
    (deadendRow.checkReachability = (deadendRow, .raised .unsolvable) ↔
      ∃ q ∈ deadendRow.nonEmptyCells, ¬ deadendRow.Reachable (0, 0) q) :=
  ⟨rfl, by decide,
    (checkReachability_iff_unreachable deadendRow (0, 0) [(0, 1), (0, 2), (0, 3)] rfl
      (by decide)).2.1⟩

/-- When the reachability check raises on a board with consistent stakes, no choice of one
candidate per cell connects the non-empty cells. -/
theorem unsolvable_not_connected (t : Table) (hs : t.StakesOK) (hsorted : t.NonEmptySorted)
    (hin : t.NonEmptyInGrid) (h : t.checkReachability = (t, .raised .unsolvable))
    (σ : Nat × Nat → Piece) (hch : t.Chooses σ) : ¬ t.ConnectedUnder σ := by
  intro hconn
  have hnd := pairwise_coordLt_nodup _ hsorted
  cases hne : t.nonEmptyCells with
  | nil =>
    unfold Table.checkReachability at h
    rw [hne] at h
    simp at h
  | cons start rest =>
    have hstart : start ∈ t.nonEmptyCells := by rw [hne]; exact List.mem_cons_self _ _
    rcases checkReachability_spec t start rest hne hnd with ⟨⟨q, hq, hr⟩, _⟩ | ⟨_, h2⟩
    · apply hr
      have key : ∀ x, Relation.ReflTransGen (t.OpenStep σ) start x →
          t.Reachable start x ∧ x ∈ t.nonEmptyCells := by
        intro x hx
        induction hx with
        | refl => exact ⟨Relation.ReflTransGen.refl, hstart⟩
        | tail _ hstep ih =>
          rename_i a b _
          obtain ⟨d, h1, h2, h3⟩ := hstep
          refine ⟨Relation.ReflTransGen.tail ih.1 ⟨d, ?_, h2, h3⟩, h3⟩
          obtain ⟨ha1, ha2⟩ := hin a ih.2
          have hmem := hch a.1 ha1 a.2 ha2
          have hso := (stakesOK_iff t).mp hs a.1 a.2 d (direction_mem_all d)
          rw [hso]
          have : 0 < List.countP (fun p : Piece => p.get d) (t.cellAt a.1 a.2).candidates :=
            List.countP_pos_iff.mpr ⟨σ (a.1, a.2), hmem, h1⟩
          omega
      exact (key q (hconn start hstart q hq)).1
    · rw [h2] at h
      simp at h

/-- C9: the reachability check is sound. If `checkReachability` raises `Unsolvable` on a
board with consistent stakes (whose `nonEmptyCells` is a sorted set of cells of the grid),
then no assignment of one current candidate to every cell makes all stubs match and the
non-empty cells connected. -/
theorem checkReachability_sound (t : Table) (hs : t.StakesOK) (hsorted : t.NonEmptySorted)
    (hin : t.NonEmptyInGrid) (h : t.checkReachability = (t, .raised .unsolvable)) :
    ¬ ∃ σ : Nat × Nat → Piece, t.Chooses σ ∧ t.StubsMatch σ ∧ t.ConnectedUnder σ := by
  rintro ⟨σ, hch, _, hconn⟩
  exact unsolvable_not_connected t hs hsorted hin h σ hch hconn

/-- C9 on the board of two DEADEND pairs, where the check raises. -/
theorem checkReachability_sound_witness :
    deadendPairs.StakesOK ∧ deadendPairs.NonEmptySorted ∧ deadendPairs.NonEmptyInGrid ∧
    deadendPairs.checkReachability = (deadendPairs, .raised .unsolvable) ∧
    ¬ ∃ σ : Nat × Nat → Piece,
      deadendPairs.Chooses σ ∧ deadendPairs.StubsMatch σ ∧ deadendPairs.ConnectedUnder σ :=
  ⟨by decide, by decide, by decide, by decide,
    checkReachability_sound deadendPairs (by decide) (by decide) (by decide) (by decide)⟩

/-- C7 on the board `1111`: the board that `solve` signals as solved has only candidates
of the board `solve` was called on. -/
theorem candidates_monotone_witness :
    (deadendRow.solve 40 intMax).2 = .raised (.solved deadendPairs) ∧
    deadendPairs.Sub deadendRow :=
  ⟨by decide, (candidates_monotone 40 deadendRow).2.2.2 intMax deadendPairs (by decide)⟩

/-! ## The solved signal -/

/-- C1 fails on the code. For the raw table `1111` of width 4 and height 1 the constructor
accepts the board and `solve()` signals the board `deadendPairs` as solved. Each of its
cells has one candidate and the stubs match, but the non-empty cells are not connected:
the code's own reachability check raises `Unsolvable` on it, and no choice of candidates
connects the cells. The check is never run on a trial board because `forceBorder` never
returns `true`. -/
theorem solve_signals_disconnected_board :
    Table.create 4 1 "1111" = .ok deadendRow ∧
    (deadendRow.solve 40 intMax).2 = .raised (.solved deadendPairs) ∧
    (∀ row ∈ deadendPairs.cells, ∀ cell ∈ row, cell.candidates.length = 1) ∧
    deadendPairs.checkReachability = (deadendPairs, .raised .unsolvable) ∧
    (∀ σ : Nat × Nat → Piece, deadendPairs.Chooses σ → ¬ deadendPairs.ConnectedUnder σ) :=
  ⟨by decide, by decide, by decide, by decide,
    fun σ hch => unsolvable_not_connected deadendPairs (by decide) (by decide) (by decide)
      (by decide) σ hch⟩

/-! ## The decoder on other characters -/

/-- C11 fails as stated. The branch for `c >= 'A'` reads an upper-case letter as the
value `c - 'A'`, a second alphabet that starts at 0, where the branch for `c >= 'a'` reads
a hex digit `c - 'a' + 10`. None of the six letters `A..F` decodes like its lower-case
counterpart: `A` is EMPTY where `a` is a LINE, `F` is a LINE where `f` is rejected. -/
theorem charToPT_upper_case_differs :
    charToPT 'A' ≠ charToPT 'a' ∧ charToPT 'B' ≠ charToPT 'b' ∧
    charToPT 'C' ≠ charToPT 'c' ∧ charToPT 'D' ≠ charToPT 'd' ∧
    charToPT 'E' ≠ charToPT 'e' ∧ charToPT 'F' ≠ charToPT 'f' ∧
    charToPT 'A' = .piece .PT_EMPTY ∧ charToPT 'a' = .piece .PT_LINE ∧
    charToPT 'F' = .piece .PT_LINE ∧ charToPT 'f' = .badCharacter := by
  decide

/-- C11 as amended: upper-case letters form a second alphabet. For every letter in `A..P`
`charToPT` gives the result of the decoding rules for the 4-bit value `c - 'A'`, and so
every letter in `A..F` decodes like the digit of that value, `0..5`. -/
theorem charToPT_upper_case (c : Char) (h : 65 ≤ c.toNat ∧ c.toNat ≤ 80) :
    charToPT c = decodeRule (c.toNat - 65) ∧
    (c.toNat ≤ 70 → charToPT c = charToPT (Char.ofNat (c.toNat - 65 + 48))) := by
  have hc : charToPT c = charToPTCode (narrowChar (c.toNat : Int)) := rfl
  rw [hc]
  generalize c.toNat = n at h
  obtain ⟨h1, h2⟩ := h
  interval_cases n <;> decide

/-- C11 as amended at the letters `F`, read as 5 like the digit `5`, and `P`, read as 15
and rejected. -/
theorem charToPT_upper_case_witness :
    charToPT 'F' = charToPT '5' ∧ charToPT 'F' = .piece .PT_LINE ∧
    charToPT 'P' = .badCharacter :=
  ⟨(charToPT_upper_case 'F' (by decide)).2 (by decide),
    (charToPT_upper_case 'F' (by decide)).1,
    (charToPT_upper_case 'P' (by decide)).1⟩

/-- C12 fails on the code. `charToPT` has no check of the range of the character: `g` is
read as the value 16, which the loop that strips trailing zero bits turns into 1, a
DEADEND. The constructor accepts the raw table `g` as a 1×1 board with a DEADEND. -/
theorem charToPT_accepts_non_hex :
    charToPT 'g' = .piece .PT_DEADEND ∧
    Table.create 1 1 "g" = .ok (singleBoard .PT_DEADEND) := by
  decide

/-! ## The piece catalogue -/

/-- The rotation step moves the stub on `d` to `(d + 1) mod 4`. -/
theorem rotatePiece_get (p : Piece) (d : Direction) :
    (rotatePiece p).get (Direction.ofIndex ((d.index + 1) % 4)) = p.get d := by
  obtain ⟨a, b, c, e⟩ := p
  cases d <;> rfl

/-- C13: for every piece kind, the candidates of a freshly constructed cell are exactly the
orbit of the canonical stub vector under the rotation `d → (d + 1) mod 4`, without
duplicates and in the order of the set, so that there is 1 rotation for EMPTY, 4 for
DEADEND, 2 for LINE, 4 for ELBOW and 4 for T. -/
theorem cell_new_candidates_orbit (pt : PieceType) :
    (∀ (p : Piece) (d : Direction),
      (rotatePiece p).get (Direction.ofIndex ((d.index + 1) % 4)) = p.get d) ∧
    (∀ p : Piece, p ∈ (Cell.new pt).candidates ↔ p ∈ orbit pt) ∧
    (Cell.new pt).candidates.Nodup ∧
    (Cell.new pt).candidates.Pairwise (fun p q => p.key < q.key) ∧
    (Cell.new pt).candidates.length = rotationCount pt ∧
    (Cell.new pt).type = pt := by
  refine ⟨rotatePiece_get, ?_, ?_, ?_, ?_, rfl⟩
  · intro p
    obtain ⟨a, b, c, e⟩ := p
    cases pt <;> cases a <;> cases b <;> cases c <;> cases e <;> decide
  · cases pt <;> decide
  · cases pt <;> decide
  · cases pt <;> decide

/-! ## Boards of one cell and boards without pieces -/

/-- C14 fails on the code. On a board of EMPTY cells `nonEmptyCells` is empty, and
`checkReachability`, which the constructor calls, dereferences `unvisited.begin()` of the
empty set: the construction of the 1×1 board `0` (and of the 2×1 board `00`) has no
defined behaviour, so it does not complete without error. -/
theorem create_all_empty_undefined :
    Table.create 1 1 "0" = .raised .undefinedBehaviour ∧
    Table.create 2 1 "00" = .raised .undefinedBehaviour := by
  decide

/-! ## More fuel does not change a finished search -/

theorem tryBlock_fuel (rec1 rec2 : Table → Int → Table × Outcome Unit)
    (hrec : FuelExtends rec1 rec2) (t : Table) (depth : Int) (i j : Nat) (dir : Direction)
    (close : Bool) (h : tryBlock rec1 t depth i j dir close ≠ .raised .outOfFuel) :
    tryBlock rec2 t depth i j dir close = tryBlock rec1 t depth i j dir close := by
  unfold tryBlock at h ⊢
  split
  · rfl
  · next other changed heq =>
    rw [heq] at h
    simp only at h
    split
    · split
      · rfl
      · next other1 u heq2 =>
        simp only [if_pos ‹changed = true›, heq2] at h
        rw [hrec _ _ h]
    · simp only [if_neg ‹¬ changed = true›] at h
      rw [hrec _ _ h]

theorem attemptWith_fuel (rec1 rec2 : Table → Int → Table × Outcome Unit)
    (hrec : FuelExtends rec1 rec2) (t : Table) (depth : Int) (i j : Nat) (dir : Direction)
    (close : Bool) (h : (attemptWith rec1 t depth i j dir close).2 ≠ .raised .outOfFuel) :
    attemptWith rec2 t depth i j dir close = attemptWith rec1 t depth i j dir close := by
  unfold attemptWith at h ⊢
  simp only at h ⊢
  split
  · next hcond =>
    rw [if_pos hcond] at h
    have hne : tryBlock rec1 t depth i j dir close ≠ .raised .outOfFuel := by
      intro e
      rw [e] at h
      exact h rfl
    rw [tryBlock_fuel rec1 rec2 hrec t depth i j dir close hne]
  · rfl

theorem scanProbes_fuel (rec1 rec2 : Table → Int → Table × Outcome Unit)
    (hrec : FuelExtends rec1 rec2) (depth : Int) (i j : Nat) :
    ∀ (ps : List (Direction × Bool)) (t : Table),
      (scanProbes rec1 depth i j ps t).2 ≠ .raised .outOfFuel →
      scanProbes rec2 depth i j ps t = scanProbes rec1 depth i j ps t := by
  intro ps
  induction ps with
  | nil => intro t _; rfl
  | cons q rest ih =>
    intro t h
    obtain ⟨d, close⟩ := q
    unfold scanProbes at h ⊢
    have ha : (attemptWith rec1 t depth i j d close).2 ≠ .raised .outOfFuel := by
      intro e
      apply h
      cases hr : attemptWith rec1 t depth i j d close with
      | mk t1 o =>
        rw [hr] at e
        simp only at e
        subst e
        rfl
    rw [attemptWith_fuel rec1 rec2 hrec t depth i j d close ha]
    split
    · rfl
    · next t1 heq =>
      rw [heq] at h
      exact ih t1 h
    · rfl

theorem scanCells_fuel (rec1 rec2 : Table → Int → Table × Outcome Unit)
    (hrec : FuelExtends rec1 rec2) (depth : Int) :
    ∀ (coords : List (Nat × Nat)) (t : Table) (nothingToDo : Bool),
      (scanCells rec1 depth coords t nothingToDo).2 ≠ .raised .outOfFuel →
      scanCells rec2 depth coords t nothingToDo = scanCells rec1 depth coords t nothingToDo := by
  intro coords
  induction coords with
  | nil => intro t n _; rfl
  | cons q rest ih =>
    intro t n h
    obtain ⟨i, j⟩ := q
    unfold scanCells at h ⊢
    split
    · next hs =>
      rw [if_pos hs] at h
      exact ih t n h
    · next hs =>
      rw [if_neg hs] at h
      have hp : (scanProbes rec1 depth i j probes t).2 ≠ .raised .outOfFuel := by
        intro e
        apply h
        cases hr : scanProbes rec1 depth i j probes t with
        | mk t1 o =>
          rw [hr] at e
          simp only at e
          subst e
          rfl
      rw [scanProbes_fuel rec1 rec2 hrec depth i j probes t hp]
      split
      · rfl
      · next t1 heq =>
        rw [heq] at h
        exact ih t1 false h
      · rfl

/-- A run of `solve` that ends without using up its fuel ends the same way with one more
unit of fuel. -/
theorem solveFuel_succ :
    ∀ (fuel : Nat) (t : Table) (maxDepth depth : Int),
      (solveFuel fuel t maxDepth depth).2 ≠ .raised .outOfFuel →
      solveFuel (fuel + 1) t maxDepth depth = solveFuel fuel t maxDepth depth := by
  intro fuel
  induction fuel with
  | zero => intro t maxDepth depth h; exact absurd rfl h
  | succ fuel ih =>
    intro t maxDepth depth h
    have hrec : FuelExtends (fun other d => solveFuel fuel other d 1)
        (fun other d => solveFuel (fuel + 1) other d 1) := fun other d hne => ih other d 1 hne
    rw [solveFuel] at h
    rw [solveFuel]
    split
    · next hd =>
      rw [if_pos hd] at h
      have hs : (scanCells (fun other d => solveFuel fuel other d 1) depth
          (allCoords t.width t.height) t true).2 ≠ .raised .outOfFuel := by
        intro e
        apply h
        cases hr : scanCells (fun other d => solveFuel fuel other d 1) depth
            (allCoords t.width t.height) t true with
        | mk t1 o =>
          rw [hr] at e
          simp only at e
          subst e
          rfl
      rw [scanCells_fuel _ _ hrec depth _ t true hs]
      conv => rhs; rw [solveFuel, if_pos hd]
      split
      · rfl
      · next t1 heq =>
        rw [heq] at h
        exact ih t1 maxDepth 1 h
      · next t1 n heq =>
        rw [heq] at h
        simp only at h ⊢
        split
        · rfl
        · next hn =>
          rw [if_neg hn] at h
          split
          · rfl
          · next hdm =>
            rw [if_neg hdm] at h
            exact ih t1 maxDepth (depth + 1) h
    · next hd =>
      conv => rhs; rw [solveFuel, if_neg hd]

/-- A run of `solve` that ends without using up its fuel ends the same way with any larger
fuel. -/
theorem solveFuel_mono (fuel : Nat) (t : Table) (maxDepth depth : Int)
    (h : (solveFuel fuel t maxDepth depth).2 ≠ .raised .outOfFuel) :
    ∀ fuel1, fuel ≤ fuel1 → solveFuel fuel1 t maxDepth depth = solveFuel fuel t maxDepth depth := by
  intro fuel1 hle
  induction fuel1 with
  | zero =>
    have : fuel = 0 := Nat.le_zero.mp hle
    subst this
    rfl
  | succ n ih =>
    by_cases hn : fuel ≤ n
    · have e := ih hn
      rw [← e] at h
      rw [solveFuel_succ n t maxDepth depth h, e]
    · have : fuel = n + 1 := by omega
      subst this
      rfl

theorem solve_mono (fuel : Nat) (t : Table) (maxDepth : Int)
    (h : (t.solve fuel maxDepth).2 ≠ .raised .outOfFuel) (fuel1 : Nat) (hle : fuel ≤ fuel1) :
    t.solve fuel1 maxDepth = t.solve fuel maxDepth :=
  solveFuel_mono fuel t maxDepth 1 h fuel1 hle

/-! ## Boards of one cell -/

theorem fillRows_single (c : Char) (pt : PieceType) (h : charToPT c = .piece pt)
    (hne : pt ≠ .PT_EMPTY) :
    fillRows 1 [c] (List.range 1) (List.replicate 1 []) [] = .ok ([[Cell.new pt]], [(0, 0)]) := by
  have h0 : rawAt [c] ((0 + 0 * 1) % 4294967296) = some c := rfl
  have hr : List.range 1 = [0] := rfl
  rw [hr]
  simp only [fillRows, fillRow, h0, h, if_pos hne, coordInsert, List.replicate, List.getD_cons_zero,
    List.nil_append, List.set_cons_zero]

/-- The constructor on a raw table of one character that decodes to a non-EMPTY kind. -/
theorem create_single (c : Char) (pt : PieceType) (h : charToPT c = .piece pt)
    (hne : pt ≠ .PT_EMPTY) :
    Table.create 1 1 (String.singleton c) = .ok (singleBoard pt) := by
  have hl : (String.singleton c).length = 1 := rfl
  have htl : (String.singleton c).toList = [c] := rfl
  unfold Table.create
  rw [hl, htl, fillRows_single c pt h hne]
  cases pt
  · exact absurd rfl hne
  all_goals decide

/-- C15: on a 1×1 board whose character decodes to the kind `pt`, the constructor returns
the board with a fresh cell of that kind, and `solve()` raises `Unsolvable` when the kind is
DEADEND, ELBOW or T and signals a solved board (the LINE in its vertical rotation, whose N
stub meets its own S stub through the wrap) when the kind is LINE, for every fuel of at
least 3. -/
theorem single_cell_board (c : Char) (pt : PieceType) (h : charToPT c = .piece pt) :
    (pt = .PT_DEADEND ∨ pt = .PT_ELBOW ∨ pt = .PT_T →
      Table.create 1 1 (String.singleton c) = .ok (singleBoard pt) ∧
      ∀ fuel, 3 ≤ fuel → ((singleBoard pt).solve fuel intMax).2 = .raised .unsolvable) ∧
    (pt = .PT_LINE →
      Table.create 1 1 (String.singleton c) = .ok (singleBoard pt) ∧
      ∀ fuel, 3 ≤ fuel →
        ((singleBoard pt).solve fuel intMax).2 = .raised (.solved verticalSingle)) := by
  constructor
  · intro hpt
    have hne : pt ≠ .PT_EMPTY := by rcases hpt with e | e | e <;> rw [e] <;> decide
    refine ⟨create_single c pt h hne, fun fuel hf => ?_⟩
    have h3 : ((singleBoard pt).solve 3 intMax).2 = .raised .unsolvable := by
      rcases hpt with e | e | e <;> rw [e] <;> decide
    rw [solve_mono 3 (singleBoard pt) intMax (by rw [h3]; decide) fuel hf]
    exact h3
  · intro hpt
    have hne : pt ≠ .PT_EMPTY := by rw [hpt]; decide
    refine ⟨create_single c pt h hne, fun fuel hf => ?_⟩
    have h3 : ((singleBoard pt).solve 3 intMax).2 = .raised (.solved verticalSingle) := by
      rw [hpt]; decide
    rw [solve_mono 3 (singleBoard pt) intMax (by rw [h3]; decide) fuel hf]
    exact h3

/-- C15 on the raw tables `1` (a DEADEND) and `5` (a LINE). -/
theorem single_cell_board_witness :
    charToPT '1' = .piece .PT_DEADEND ∧ charToPT '5' = .piece .PT_LINE ∧
    Table.create 1 1 "1" = .ok (singleBoard .PT_DEADEND) ∧
    ((singleBoard .PT_DEADEND).solve 10 intMax).2 = .raised .unsolvable ∧
    ((singleBoard .PT_LINE).solve 10 intMax).2 = .raised (.solved verticalSingle) :=
  ⟨by decide, by decide,
    ((single_cell_board '1' .PT_DEADEND (by decide)).1 (Or.inl rfl)).1,
    ((single_cell_board '1' .PT_DEADEND (by decide)).1 (Or.inl rfl)).2 10 (by decide),
    ((single_cell_board '5' .PT_LINE (by decide)).2 rfl).2 10 (by decide)⟩

/-! ## The number of tightening steps -/

theorem enforceLoopCount_erase
    (fbc : Table → Int → Int → Direction → Bool → (Table × Outcome Bool) × Nat)
    (fb : Table → Int → Int → Direction → Bool → Table × Outcome Bool)
    (hfb : ∀ t line col dir close, (fbc t line col dir close).1 = fb t line col dir close)
    (line col : Nat) :
    ∀ (dirs : List Direction) (t : Table) (ret : Bool) (n : Nat),
      (enforceLoopCount fbc line col dirs t ret n).1 = enforceLoop fb line col dirs t ret := by
  intro dirs
  induction dirs with
  | nil => intro t ret n; rfl
  | cons i rest ih =>
    intro t ret n
    unfold enforceLoopCount enforceLoop
    simp only
    split
    · have h1 := hfb t ((line : Int) + (displacement i).1) ((col : Int) + (displacement i).2)
        (oppositeDirection i) true
      split
      · next t1 b k heq =>
        rw [heq] at h1
        simp only at h1
        rw [← h1]
        exact ih _ _ _
      · next t1 e k heq =>
        rw [heq] at h1
        simp only at h1
        rw [← h1]
    · split
      · have h1 := hfb t ((line : Int) + (displacement i).1) ((col : Int) + (displacement i).2)
          (oppositeDirection i) false
        split
        · next t1 b k heq =>
          rw [heq] at h1
          simp only at h1
          rw [← h1]
          exact ih _ _ _
        · next t1 e k heq =>
          rw [heq] at h1
          simp only at h1
          rw [← h1]
      · exact ih _ _ _

/-- The counter does not change what the propagation does. -/
theorem forceBorderCount_erase :
    ∀ (fuel : Nat) (t : Table) (line col : Int) (dir : Direction) (close : Bool),
      (forceBorderCount fuel t line col dir close).1 = forceBorderFuel fuel t line col dir close := by
  intro fuel
  induction fuel with
  | zero => intro t line col dir close; rfl
  | succ fuel ih =>
    intro t line col dir close
    unfold forceBorderCount forceBorderFuel
    simp only
    split
    · split <;> rfl
    · split
      · split <;> rfl
      · unfold enforceStakesWith
        exact enforceLoopCount_erase _ _ ih _ _ _ _ _ _

theorem enforceStakesCount_erase (fuel : Nat) (t : Table) (line col : Int) :
    (enforceStakesCount fuel t line col).1 = enforceStakesFuel fuel t line col := by
  unfold enforceStakesCount enforceStakesFuel enforceStakesWith
  exact enforceLoopCount_erase _ _ (forceBorderCount_erase fuel) _ _ _ _ _ _

theorem sumCells_setCell (f : Cell → Nat) (t : Table) (line col : Nat) (x : Cell)
    (h1 : line < t.cells.length) (h2 : col < (t.cells.getD line []).length) :
    ((t.setCell line col x).cells.map (fun row => (row.map f).sum)).sum + f (t.cellAt line col)
      = (t.cells.map (fun row => (row.map f).sum)).sum + f x := by
  have hrow : t.cells.getD line [] = t.cells.get ⟨line, h1⟩ := by
    rw [List.getD_eq_getElem?_getD, List.getElem?_eq_getElem h1]
    rfl
  have hcell : t.cellAt line col = (t.cells.getD line []).get ⟨col, h2⟩ := by
    unfold Table.cellAt
    rw [List.getD_eq_getElem?_getD (t.cells.getD line []), List.getElem?_eq_getElem h2]
    rfl
  have e1 := sum_map_set f (t.cells.getD line []) col h2 x
  have e2 := sum_map_set (fun row : List Cell => (row.map f).sum) t.cells line h1
    ((t.cells.getD line []).set col x)
  rw [← hcell] at e1
  rw [← hrow] at e2
  unfold Table.setCell
  simp only at e1 e2 ⊢
  omega

theorem countP_lt_countP {α : Type} (p q : α → Bool) :
    ∀ (l : List α), (∀ x ∈ l, p x = true → q x = true) →
      (∃ x ∈ l, q x = true ∧ p x = false) → l.countP p < l.countP q := by
  intro l
  induction l with
  | nil => intro _ h; obtain ⟨x, hx, _⟩ := h; exact absurd hx (List.not_mem_nil _)
  | cons a l ih =>
    intro himp hex
    have hle : l.countP p ≤ l.countP q :=
      List.countP_mono_left (fun x hx => himp x (List.mem_cons_of_mem _ hx))
    rw [List.countP_cons, List.countP_cons]
    obtain ⟨x, hx, hq, hp⟩ := hex
    rcases List.mem_cons.mp hx with e | hm
    · subst e
      simp only [hq, hp, if_true]
      simp
      omega
    · have := ih (fun y hy => himp y (List.mem_cons_of_mem _ hy)) ⟨x, hm, hq, hp⟩
      have ha := himp a (List.mem_cons_self _ _)
      cases hpa : p a
      · simp only [Bool.false_eq_true, if_false]
        omega
      · rw [ha hpa]
        simp only [if_true]
        omega

/-- A tightening step at an undetermined edge leaves the cell with fewer undetermined
edges. -/
theorem undetermined_tighten_lt (cell : Cell) (dir : Direction) (close : Bool)
    (hs : cell.StakesOK) (h0 : cell.stakes.get dir ≠ 0)
    (h1 : cell.stakes.get dir ≠ cell.candidates.length) :
    (Cell.refreshStakes
      { cell with
        candidates := cell.candidates.filter (fun c => forcePredicate close (c.get dir)) }).undetermined < cell.undetermined := by
  have hnew : (Cell.refreshStakes
      { cell with
        candidates := cell.candidates.filter (fun c => forcePredicate close (c.get dir)) }).StakesOK := stakesOK_refresh _
  have hsub : ∀ p ∈ (Cell.refreshStakes
      { cell with
        candidates := cell.candidates.filter (fun c => forcePredicate close (c.get dir)) }).candidates, p ∈ cell.candidates := by
    intro p hp
    rw [refreshStakes_candidates] at hp
    exact (List.mem_filter.mp hp).1
  have hdet : (Cell.refreshStakes
      { cell with
        candidates := cell.candidates.filter (fun c => forcePredicate close (c.get dir)) }).Determined dir close := by
    apply determined_of_forall _ _ _ hnew
    intro p hp
    rw [refreshStakes_candidates] at hp
    exact (List.mem_filter.mp hp).2
  unfold Cell.undetermined
  apply countP_lt_countP
  · intro d _ hd
    simp only [decide_eq_true_eq] at hd ⊢
    constructor
    · intro e
      have hD : cell.Determined d true := by unfold Cell.Determined; simpa using e
      have := determined_mono cell _ d true hs hnew hsub hD
      unfold Cell.Determined at this
      exact hd.1 (by simpa using this)
    · intro e
      have hD : cell.Determined d false := by unfold Cell.Determined; simpa using e
      have := determined_mono cell _ d false hs hnew hsub hD
      unfold Cell.Determined at this
      exact hd.2 (by simpa using this)
  · refine ⟨dir, direction_mem_all dir, ?_, ?_⟩
    · simp only [decide_eq_true_eq]
      exact ⟨h0, h1⟩
    · simp only [decide_eq_false_iff_not, not_and_or, not_not]
      unfold Cell.Determined at hdet
      cases close
      · right; simpa using hdet
      · left; simpa using hdet

theorem undeterminedCount_tighten_lt (t : Table) (line col : Nat) (dir : Direction)
    (close : Bool) (hc : CellsOK t) (h0 : (t.cellAt line col).stakes.get dir ≠ 0)
    (h1 : (t.cellAt line col).stakes.get dir ≠ (t.cellAt line col).candidates.length) :
    (t.tighten line col dir close).undeterminedCount < t.undeterminedCount := by
  obtain ⟨r1, r2⟩ := inRange_of_stakes_ne_zero t line col dir h0
  have hlt := undetermined_tighten_lt (t.cellAt line col) dir close (hc line col).1 h0 h1
  have hsum := sumCells_setCell Cell.undetermined t line col (Cell.refreshStakes
        { t.cellAt line col with
          candidates := (t.cellAt line col).candidates.filter
            (fun c => forcePredicate close (c.get dir)) }) r1 r2
  unfold Table.undeterminedCount
  rw [tighten_cells]
  dsimp only at hlt hsum ⊢
  omega

theorem enforceLoopCount_bound (fuel : Nat)
    (hfb : ∀ (t : Table) (line col : Int) (dir : Direction) (close : Bool), CellsOK t →
      (forceBorderCount fuel t line col dir close).2 +
        (forceBorderCount fuel t line col dir close).1.1.undeterminedCount ≤ t.undeterminedCount)
    (line col : Nat) :
    ∀ (dirs : List Direction) (t : Table) (ret : Bool) (n : Nat), CellsOK t →
      (enforceLoopCount (forceBorderCount fuel) line col dirs t ret n).2 +
        (enforceLoopCount (forceBorderCount fuel) line col dirs t ret n).1.1.undeterminedCount
        ≤ n + t.undeterminedCount := by
  intro dirs
  induction dirs with
  | nil => intro t ret n _; exact Nat.le_refl _
  | cons i rest ih =>
    intro t ret n hc
    unfold enforceLoopCount
    simp only
    split
    · have h1 := hfb t ((line : Int) + (displacement i).1) ((col : Int) + (displacement i).2)
        (oppositeDirection i) true hc
      have h2 := forceBorderFuel_cellsOK fuel t ((line : Int) + (displacement i).1)
        ((col : Int) + (displacement i).2) (oppositeDirection i) true hc
      rw [← forceBorderCount_erase] at h2
      split
      · next t1 b k heq =>
        rw [heq] at h1 h2
        have := ih t1 (ret || b) (n + k) h2
        simp only at h1
        omega
      · next t1 e k heq =>
        rw [heq] at h1
        simp only at h1 ⊢
        omega
    · split
      · have h1 := hfb t ((line : Int) + (displacement i).1) ((col : Int) + (displacement i).2)
          (oppositeDirection i) false hc
        have h2 := forceBorderFuel_cellsOK fuel t ((line : Int) + (displacement i).1)
          ((col : Int) + (displacement i).2) (oppositeDirection i) false hc
        rw [← forceBorderCount_erase] at h2
        split
        · next t1 b k heq =>
          rw [heq] at h1 h2
          have := ih t1 (ret || b) (n + k) h2
          simp only at h1
          omega
        · next t1 e k heq =>
          rw [heq] at h1
          simp only at h1 ⊢
          omega
      · exact ih t ret n hc

/-- Every call of `forceBorder` that removes candidates determines an edge that was
undetermined: the number of such calls in a propagation is at most the number of edges
that the propagation determines. -/
theorem forceBorderCount_bound :
    ∀ (fuel : Nat) (t : Table) (line col : Int) (dir : Direction) (close : Bool), CellsOK t →
      (forceBorderCount fuel t line col dir close).2 +
        (forceBorderCount fuel t line col dir close).1.1.undeterminedCount
        ≤ t.undeterminedCount := by
  intro fuel
  induction fuel with
  | zero => intro t line col dir close _; exact Nat.le_of_eq (Nat.zero_add _)
  | succ fuel ih =>
    intro t line col dir close hc
    unfold forceBorderCount
    simp only
    split
    · split <;> exact Nat.le_of_eq (Nat.zero_add _)
    · next h0 =>
      split
      · split <;> exact Nat.le_of_eq (Nat.zero_add _)
      · next h1 =>
        have hlt := undeterminedCount_tighten_lt t (wrapIndex line t.height)
          (wrapIndex col t.width) dir close hc h0 h1
        have hc2 := tighten_cellsOK t (wrapIndex line t.height) (wrapIndex col t.width) dir
          close hc h0 h1
        have := enforceLoopCount_bound fuel ih
          (wrapIndex (wrapIndex line t.height)
            (t.tighten (wrapIndex line t.height) (wrapIndex col t.width) dir close).height)
          (wrapIndex (wrapIndex col t.width)
            (t.tighten (wrapIndex line t.height) (wrapIndex col t.width) dir close).width)
          Direction.all _ false 1 hc2
        omega

theorem sum_map_le {α : Type} (f : α → Nat) (k : Nat) :
    ∀ l : List α, (∀ x ∈ l, f x ≤ k) → (l.map f).sum ≤ k * l.length := by
  intro l
  induction l with
  | nil => intro _; simp
  | cons a l ih =>
    intro h
    have h1 := h a (List.mem_cons_self _ _)
    have h2 := ih (fun x hx => h x (List.mem_cons_of_mem _ hx))
    simp only [List.map_cons, List.sum_cons, List.length_cons]
    rw [Nat.mul_succ]
    omega

/-- A grid has at most four undetermined edges per cell. -/
theorem undeterminedCount_le (t : Table) (hg : t.Grid) :
    t.undeterminedCount ≤ 4 * t.width * t.height := by
  obtain ⟨_, _, _, _, h5, h6⟩ := hg
  unfold Table.undeterminedCount
  have hrow : ∀ row ∈ t.cells, (row.map Cell.undetermined).sum ≤ 4 * t.width := by
    intro row hr
    have := sum_map_le Cell.undetermined 4 row (fun cell _ => by
      unfold Cell.undetermined
      exact List.countP_le_length _)
    rw [h6 row hr] at this
    exact this
  have := sum_map_le (fun row : List Cell => (row.map Cell.undetermined).sum) (4 * t.width)
    t.cells hrow
  rw [h5] at this
  exact this

/-! ## More fuel does not change a finished propagation -/

theorem enforceLoop_fuel
    (fb1 fb2 : Table → Int → Int → Direction → Bool → Table × Outcome Bool)
    (hfb : ∀ t line col dir close, (fb1 t line col dir close).2 ≠ .raised .outOfFuel →
      fb2 t line col dir close = fb1 t line col dir close)
    (line col : Nat) :
    ∀ (dirs : List Direction) (t : Table) (ret : Bool),
      (enforceLoop fb1 line col dirs t ret).2 ≠ .raised .outOfFuel →
      enforceLoop fb2 line col dirs t ret = enforceLoop fb1 line col dirs t ret := by
  intro dirs
  induction dirs with
  | nil => intro t ret _; rfl
  | cons i rest ih =>
    intro t ret h
    unfold enforceLoop at h ⊢
    simp only at h ⊢
    split
    · next h0 =>
      rw [if_pos h0] at h
      have hc : (fb1 t ((line : Int) + (displacement i).1) ((col : Int) + (displacement i).2)
          (oppositeDirection i) true).2 ≠ .raised .outOfFuel := by
        intro e
        apply h
        cases hr : fb1 t ((line : Int) + (displacement i).1) ((col : Int) + (displacement i).2)
            (oppositeDirection i) true with
        | mk t1 o =>
          rw [hr] at e
          simp only at e
          subst e
          rfl
      rw [hfb _ _ _ _ _ hc]
      split
      · next t1 b heq =>
        rw [heq] at h
        exact ih t1 _ h
      · rfl
    · next h0 =>
      rw [if_neg h0] at h
      split
      · next h1 =>
        rw [if_pos h1] at h
        have hc : (fb1 t ((line : Int) + (displacement i).1) ((col : Int) + (displacement i).2)
            (oppositeDirection i) false).2 ≠ .raised .outOfFuel := by
          intro e
          apply h
          cases hr : fb1 t ((line : Int) + (displacement i).1)
              ((col : Int) + (displacement i).2) (oppositeDirection i) false with
          | mk t1 o =>
            rw [hr] at e
            simp only at e
            subst e
            rfl
        rw [hfb _ _ _ _ _ hc]
        split
        · next t1 b heq =>
          rw [heq] at h
          exact ih t1 _ h
        · rfl
      · next h1 =>
        rw [if_neg h1] at h
        exact ih t ret h

theorem forceBorderFuel_succ :
    ∀ (fuel : Nat) (t : Table) (line col : Int) (dir : Direction) (close : Bool),
      (forceBorderFuel fuel t line col dir close).2 ≠ .raised .outOfFuel →
      forceBorderFuel (fuel + 1) t line col dir close = forceBorderFuel fuel t line col dir close := by
  intro fuel
  induction fuel with
  | zero => intro t line col dir close h; exact absurd rfl h
  | succ fuel ih =>
    intro t line col dir close h
    rw [forceBorderFuel] at h
    rw [forceBorderFuel]
    conv => rhs; rw [forceBorderFuel]
    split
    · rfl
    · next h0 =>
      rw [if_neg h0] at h
      split
      · rfl
      · next h1 =>
        rw [if_neg h1] at h
        unfold enforceStakesWith at h ⊢
        exact enforceLoop_fuel _ _ ih _ _ _ _ _ h

/-- A propagation that ends without using up its fuel ends the same way with any larger
fuel. -/
theorem forceBorderFuel_mono (fuel : Nat) (t : Table) (line col : Int) (dir : Direction)
    (close : Bool) (h : (forceBorderFuel fuel t line col dir close).2 ≠ .raised .outOfFuel) :
    ∀ fuel1, fuel ≤ fuel1 →
      forceBorderFuel fuel1 t line col dir close = forceBorderFuel fuel t line col dir close := by
  intro fuel1 hle
  induction fuel1 with
  | zero =>
    have : fuel = 0 := Nat.le_zero.mp hle
    subst this
    rfl
  | succ n ih =>
    by_cases hn : fuel ≤ n
    · have e := ih hn
      rw [← e] at h
      rw [forceBorderFuel_succ n t line col dir close h, e]
    · have : fuel = n + 1 := by omega
      subst this
      rfl

/-- C18: propagation terminates. On a well-formed board (a grid whose cells have consistent
stakes and a candidate each), `forceBorder` and `enforceStakes` end, by returning or by
raising `Unsolvable`, with every fuel above the number of candidates on the board, and
all these fuels give the same result. A call of `forceBorder` that recurses passes on a
board with strictly fewer candidates. The number of calls of `forceBorder` that remove
candidates in one propagation is at most `4 * width * height`. -/
theorem propagation_terminates (t : Table) (hwf : t.WellFormed) (line col : Int)
    (dir : Direction) (close : Bool) :
    (∀ fuel, t.candidateCount < fuel →
      (forceBorderFuel fuel t line col dir close).2 ≠ .raised .outOfFuel ∧
      forceBorderFuel fuel t line col dir close = t.forceBorder line col dir close) ∧
    (∀ fuel, t.candidateCount < fuel →
      (enforceStakesFuel fuel t line col).2 ≠ .raised .outOfFuel ∧
      enforceStakesFuel fuel t line col = t.enforceStakes line col) ∧
    ((t.cellAt (wrapIndex line t.height) (wrapIndex col t.width)).stakes.get dir ≠ 0 →
      (t.cellAt (wrapIndex line t.height) (wrapIndex col t.width)).stakes.get dir ≠
        (t.cellAt (wrapIndex line t.height) (wrapIndex col t.width)).candidates.length →
      (∀ fuel, forceBorderFuel (fuel + 1) t line col dir close =
        enforceStakesFuel fuel
          (t.tighten (wrapIndex line t.height) (wrapIndex col t.width) dir close)
          (wrapIndex line t.height) (wrapIndex col t.width)) ∧
      (t.tighten (wrapIndex line t.height) (wrapIndex col t.width) dir close).candidateCount
        < t.candidateCount) ∧
    (∀ fuel,
      (forceBorderCount fuel t line col dir close).1 = forceBorderFuel fuel t line col dir close ∧
      (forceBorderCount fuel t line col dir close).2 ≤ 4 * t.width * t.height) ∧
    (∀ fuel,
      (enforceStakesCount fuel t line col).1 = enforceStakesFuel fuel t line col ∧
      (enforceStakesCount fuel t line col).2 ≤ 4 * t.width * t.height) := by
  obtain ⟨hg, hc⟩ := (wellFormed_iff t).mp hwf
  have hle := undeterminedCount_le t hg
  refine ⟨?_, ?_, ?_, ?_, ?_⟩
  · intro fuel hf
    have h0 := (forceBorderFuel_total (t.candidateCount + 1) t line col dir close hc
      (Nat.lt_succ_self _)).1
    have hm := forceBorderFuel_mono (t.candidateCount + 1) t line col dir close h0 fuel hf
    exact ⟨(forceBorderFuel_total fuel t line col dir close hc hf).1, hm⟩
  · intro fuel hf
    have h0 := (enforceLoop_total (t.candidateCount + 1)
      (forceBorderFuel_total (t.candidateCount + 1)) (wrapIndex line t.height)
      (wrapIndex col t.width) Direction.all t false hc (Nat.lt_succ_self _)).1
    have h1 := (enforceLoop_total fuel (forceBorderFuel_total fuel) (wrapIndex line t.height)
      (wrapIndex col t.width) Direction.all t false hc hf).1
    refine ⟨h1, ?_⟩
    exact enforceLoop_fuel (forceBorderFuel (t.candidateCount + 1)) (forceBorderFuel fuel)
      (fun t1 l c d cl hne => forceBorderFuel_mono _ t1 l c d cl hne fuel hf)
      _ _ _ _ _ h0
  · intro h0 h1
    refine ⟨fun fuel => ?_, candidateCount_tighten_lt t _ _ dir close hc h0 h1⟩
    rw [forceBorderFuel]
    simp only [if_neg h0, if_neg h1]
    rfl
  · intro fuel
    refine ⟨forceBorderCount_erase fuel t line col dir close, ?_⟩
    have := forceBorderCount_bound fuel t line col dir close hc
    omega
  · intro fuel
    refine ⟨enforceStakesCount_erase fuel t line col, ?_⟩
    have := enforceLoopCount_bound fuel (forceBorderCount_bound fuel) (wrapIndex line t.height)
      (wrapIndex col t.width) Direction.all t false 0 hc
    unfold enforceStakesCount
    omega

/-- C18 on the board `1111`: opening the W edge of the first cell ends by returning after
four calls of `forceBorder` that removed candidates, at most `4 * 4 * 1`. -/
theorem propagation_terminates_witness :
    deadendRow.WellFormed ∧
    (deadendRow.forceBorder 0 0 .D_W false).2 = .ok false ∧
    (forceBorderCount 17 deadendRow 0 0 .D_W false).2 = 4 ∧
    (forceBorderCount 17 deadendRow 0 0 .D_W false).2 ≤ 4 * deadendRow.width * deadendRow.height :=
  ⟨by decide, by decide, by decide,
    ((propagation_terminates deadendRow (by decide) 0 0 .D_W false).2.2.2.1 17).2⟩

/-! ## Propagation preserves solutions -/

theorem stubsMatch_congr {t t1 : Table} (hh : t1.height = t.height) (hw : t1.width = t.width)
    (σ : Nat × Nat → Piece) (h : t.StubsMatch σ) : t1.StubsMatch σ := by
  intro line hl col hc d hd
  rw [neighbour_congr hh hw]
  rw [hh] at hl
  rw [hw] at hc
  exact h line hl col hc d hd

/-- Under matching stubs the two sides of an edge carry the same state. -/
theorem stubsMatch_across (t : Table) (hg : t.Grid) (σ : Nat × Nat → Piece)
    (hm : t.StubsMatch σ) (line col : Nat) (hl : line < t.height) (hc : col < t.width)
    (d : Direction) :
    (σ (t.neighbour (line, col) d)).get (oppositeDirection d) = (σ (line, col)).get d := by
  cases hv : (σ (line, col)).get d
  · cases hb : (σ (t.neighbour (line, col) d)).get (oppositeDirection d)
    · rfl
    · obtain ⟨hl2, hc2⟩ := neighbour_lt t hg (line, col) d
      have := hm _ hl2 _ hc2 (oppositeDirection d) hb
      rw [neighbour_neighbour t hg line col hl hc d, oppositeDirection_involutive, hv] at this
      exact absurd this (by decide)
  · exact hm line hl col hc d hv

/-- A tightening step that agrees with `σ` keeps the choices of `σ`. -/
theorem tighten_chooses (t : Table) (σ : Nat × Nat → Piece) (line col : Nat)
    (dir : Direction) (close : Bool) (hch : t.Chooses σ)
    (hl : line < t.height) (hc : col < t.width)
    (hagree : forcePredicate close ((σ (line, col)).get dir) = true) :
    (t.tighten line col dir close).Chooses σ := by
  intro l hl1 c hc1
  rw [tighten_height] at hl1
  rw [tighten_width] at hc1
  rcases cellAt_tighten_cases t line col l c dir close with ⟨he, rfl, rfl⟩ | he
  · rw [he, refreshStakes_candidates]
    exact List.mem_filter.mpr ⟨hch l hl c hc, hagree⟩
  · rw [he]
    exact hch l hl1 c hc1

theorem chooses_agrees (t : Table) (hc : CellsOK t) (σ : Nat × Nat → Piece)
    (hch : t.Chooses σ) (line col : Nat) (hl : line < t.height) (hcl : col < t.width)
    (d : Direction) (close : Bool) (hd : (t.cellAt line col).Determined d close) :
    forcePredicate close ((σ (line, col)).get d) = true :=
  forall_of_determined _ d close (hc line col).1 hd _ (hch line hl col hcl)

theorem enforceLoop_keepsSolution (σ : Nat × Nat → Piece) (fuel : Nat)
    (hfb : KeepsSolution σ (forceBorderFuel fuel)) (line col : Nat) :
    ∀ (dirs : List Direction) (t : Table) (ret : Bool),
      t.Grid → CellsOK t → t.Chooses σ → t.StubsMatch σ →
      line < t.height → col < t.width →
      (enforceLoop (forceBorderFuel fuel) line col dirs t ret).2 ≠ .raised .unsolvable ∧
      (enforceLoop (forceBorderFuel fuel) line col dirs t ret).1.Chooses σ := by
  intro dirs
  induction dirs with
  | nil => intro t ret _ _ hch _ _ _; exact ⟨by simp [enforceLoop], hch⟩
  | cons i rest ih =>
    intro t ret hg hc hch hm hl hcl
    have hacross := stubsMatch_across t hg σ hm line col hl hcl i
    have step : ∀ close : Bool, (t.cellAt line col).Determined i close →
        ∀ t1 o, forceBorderFuel fuel t ((line : Int) + (displacement i).1)
          ((col : Int) + (displacement i).2) (oppositeDirection i) close = (t1, o) →
        o ≠ .raised .unsolvable ∧ t1.Grid ∧ CellsOK t1 ∧ t1.Chooses σ ∧ t1.StubsMatch σ ∧
          line < t1.height ∧ col < t1.width := by
      intro close hd t1 o heq
      have hag := chooses_agrees t hc σ hch line col hl hcl i close hd
      have hk := hfb t ((line : Int) + (displacement i).1) ((col : Int) + (displacement i).2)
        (oppositeDirection i) close hg hc hch hm (by
          have e : (wrapIndex ((line : Int) + (displacement i).1) t.height,
              wrapIndex ((col : Int) + (displacement i).2) t.width)
              = t.neighbour (line, col) i := rfl
          rw [e, hacross]
          exact hag)
      have hfr := forceBorderFuel_frame fuel t ((line : Int) + (displacement i).1)
        ((col : Int) + (displacement i).2) (oppositeDirection i) close hg hc
      rw [heq] at hk hfr
      obtain ⟨g1, c1, _, hh, hw, _⟩ := hfr
      exact ⟨hk.1, g1, c1, hk.2, stubsMatch_congr hh hw σ hm, by rw [hh]; exact hl,
        by rw [hw]; exact hcl⟩
    unfold enforceLoop
    simp only
    split
    · next h0 =>
      have hd : (t.cellAt line col).Determined i true := by
        unfold Cell.Determined; simpa using h0
      split
      · next t1 b heq =>
        obtain ⟨_, g1, c1, ch1, m1, l1, cl1⟩ := step true hd t1 _ heq
        exact ih t1 _ g1 c1 ch1 m1 l1 cl1
      · next t1 e heq =>
        obtain ⟨hne, _, _, ch1, _⟩ := step true hd t1 _ heq
        exact ⟨hne, ch1⟩
    · next h0 =>
      split
      · next h1 =>
        have hd : (t.cellAt line col).Determined i false := by
          unfold Cell.Determined; simpa using h1
        split
        · next t1 b heq =>
          obtain ⟨_, g1, c1, ch1, m1, l1, cl1⟩ := step false hd t1 _ heq
          exact ih t1 _ g1 c1 ch1 m1 l1 cl1
        · next t1 e heq =>
          obtain ⟨hne, _, _, ch1, _⟩ := step false hd t1 _ heq
          exact ⟨hne, ch1⟩
      · exact ih t ret hg hc hch hm hl hcl

/-- Forcing an edge to the state it has in a solution keeps the solution and does not raise
`Unsolvable`. -/
theorem forceBorderFuel_keepsSolution (σ : Nat × Nat → Piece) :
    ∀ fuel : Nat, KeepsSolution σ (forceBorderFuel fuel) := by
  intro fuel
  induction fuel with
  | zero =>
    intro t line col dir close _ _ hch _ _
    exact ⟨by simp [forceBorderFuel], hch⟩
  | succ fuel ih =>
    intro t line col dir close hg hc hch hm hag
    have hl := wrapIndex_lt line t.height hg.1
    have hcl := wrapIndex_lt col t.width hg.2.2.1
    have hmem := hch _ hl _ hcl
    unfold forceBorderFuel
    simp only
    split
    · next h0 =>
      split
      · exact ⟨by simp, hch⟩
      · next hcl0 =>
        exfalso
        have hd : (t.cellAt (wrapIndex line t.height) (wrapIndex col t.width)).Determined dir
            true := by unfold Cell.Determined; simpa using h0
        have := forall_of_determined _ dir true (hc _ _).1 hd _ hmem
        have hcf : close = false := by simpa using hcl0
        rw [hcf] at hag
        simp [forcePredicate] at this hag
        rw [hag] at this
        exact absurd this (by decide)
    · next h0 =>
      split
      · next h1 =>
        split
        · exact ⟨by simp, hch⟩
        · next hcl0 =>
          exfalso
          have hd : (t.cellAt (wrapIndex line t.height) (wrapIndex col t.width)).Determined dir
              false := by unfold Cell.Determined; simpa using h1
          have := forall_of_determined _ dir false (hc _ _).1 hd _ hmem
          have hct : close = true := by simpa using hcl0
          rw [hct] at hag
          simp [forcePredicate] at this hag
          rw [hag] at this
          exact absurd this (by decide)
      · next h1 =>
        have hg2 := tighten_grid t (wrapIndex line t.height) (wrapIndex col t.width) dir close hg
        have hc2 := tighten_cellsOK t (wrapIndex line t.height) (wrapIndex col t.width) dir
          close hc h0 h1
        have hch2 := tighten_chooses t σ _ _ dir close hch hl hcl hag
        have hm2 := stubsMatch_congr (tighten_height t (wrapIndex line t.height)
          (wrapIndex col t.width) dir close) (tighten_width t (wrapIndex line t.height)
          (wrapIndex col t.width) dir close) σ hm
        unfold enforceStakesWith
        rw [tighten_height, tighten_width, wrapIndex_idem line _ hg.1 hg.2.1,
          wrapIndex_idem col _ hg.2.2.1 hg.2.2.2.1]
        exact enforceLoop_keepsSolution σ fuel ih _ _ Direction.all _ false hg2 hc2 hch2 hm2
          (by rw [tighten_height]; exact hl) (by rw [tighten_width]; exact hcl)

theorem cellAt_default_of_not_inGrid (t : Table) (hg : t.Grid) (l c : Nat)
    (h : ¬ (l < t.height ∧ c < t.width)) : t.cellAt l c = Cell.new .PT_EMPTY := by
  obtain ⟨_, _, _, _, h5, h6⟩ := hg
  unfold Table.cellAt
  simp only [List.getD_eq_getElem?_getD]
  by_cases h1 : l < t.cells.length
  · have hrow : (t.cells[l]).length = t.width := h6 _ (List.getElem_mem _)
    have h2 : ¬ c < (t.cells[l]).length := by
      rw [hrow]
      intro hc
      exact h ⟨by rw [← h5]; exact h1, hc⟩
    simp [List.getElem?_eq_getElem h1, List.getElem?_eq_none (Nat.le_of_not_lt h2)]
  · simp [List.getElem?_eq_none (Nat.le_of_not_lt h1)]

/-- On a grid with consistent stakes, an assignment that picks a candidate in every cell
shows that no candidate set is empty. -/
theorem cellsOK_of_chooses (t : Table) (hg : t.Grid) (hs : t.StakesOK)
    (σ : Nat × Nat → Piece) (hch : t.Chooses σ) : CellsOK t := by
  intro l c
  refine ⟨(stakesOK_iff t).mp hs l c, ?_⟩
  by_cases h : l < t.height ∧ c < t.width
  · exact List.length_pos_of_mem (hch l h.1 c h.2)
  · rw [cellAt_default_of_not_inGrid t hg l c h]
    exact candidates_new_pos _

/-- C19: propagation preserves solutions. On a board (a grid) with consistent stakes, let
`σ` pick one current candidate per cell with all stubs matching across every toroidal
edge. Then `enforceStakes` on any cell, and `forceBorder(N, e, state)` whenever `σ(N)`
agrees with `state` on `e`, return without raising `Unsolvable` and leave `σ(c)` among the
candidates of every cell `c`; with other fuels of the model they do not raise `Unsolvable`
and keep `σ` either. -/
theorem propagation_preserves_solutions (t : Table) (hg : t.Grid) (hs : t.StakesOK)
    (σ : Nat × Nat → Piece) (hch : t.Chooses σ) (hm : t.StubsMatch σ) :
    (∀ (line col : Int), ∃ t1 b, t.enforceStakes line col = (t1, .ok b) ∧ t1.Chooses σ) ∧
    (∀ (line col : Int) (dir : Direction) (close : Bool),
      (σ (wrapIndex line t.height, wrapIndex col t.width)).get dir = !close →
      ∃ t1 b, t.forceBorder line col dir close = (t1, .ok b) ∧ t1.Chooses σ) ∧
    (∀ (fuel : Nat) (line col : Int),
      (enforceStakesFuel fuel t line col).2 ≠ .raised .unsolvable ∧
      (enforceStakesFuel fuel t line col).1.Chooses σ) ∧
    (∀ (fuel : Nat) (line col : Int) (dir : Direction) (close : Bool),
      (σ (wrapIndex line t.height, wrapIndex col t.width)).get dir = !close →
      (forceBorderFuel fuel t line col dir close).2 ≠ .raised .unsolvable ∧
      (forceBorderFuel fuel t line col dir close).1.Chooses σ) := by
  have hc := cellsOK_of_chooses t hg hs σ hch
  have hagree : ∀ (v close : Bool), v = !close → forcePredicate close v = true := by
    intro v close e
    subst e
    cases close <;> rfl
  have hE : ∀ (fuel : Nat) (line col : Int),
      (enforceStakesFuel fuel t line col).2 ≠ .raised .unsolvable ∧
      (enforceStakesFuel fuel t line col).1.Chooses σ := by
    intro fuel line col
    unfold enforceStakesFuel enforceStakesWith
    exact enforceLoop_keepsSolution σ fuel (forceBorderFuel_keepsSolution σ fuel) _ _
      Direction.all t false hg hc hch hm (wrapIndex_lt line _ hg.1) (wrapIndex_lt col _ hg.2.2.1)
  have hF : ∀ (fuel : Nat) (line col : Int) (dir : Direction) (close : Bool),
      (σ (wrapIndex line t.height, wrapIndex col t.width)).get dir = !close →
      (forceBorderFuel fuel t line col dir close).2 ≠ .raised .unsolvable ∧
      (forceBorderFuel fuel t line col dir close).1.Chooses σ := by
    intro fuel line col dir close hag
    exact forceBorderFuel_keepsSolution σ fuel t line col dir close hg hc hch hm
      (hagree _ _ hag)
  refine ⟨?_, ?_, hE, hF⟩
  · intro line col
    obtain ⟨h1, h2⟩ := hE (t.candidateCount + 1) line col
    have h3 := (enforceLoop_total (t.candidateCount + 1)
      (forceBorderFuel_total (t.candidateCount + 1)) (wrapIndex line t.height)
      (wrapIndex col t.width) Direction.all t false hc (Nat.lt_succ_self _)).1
    have h4 := enforceLoop_raised (fun e => e = .unsolvable ∨ e = .outOfFuel)
      (forceBorderFuel (t.candidateCount + 1))
      (fun t1 l c d cl e he => forceBorderFuel_raised _ t1 l c d cl e he)
      (wrapIndex line t.height) (wrapIndex col t.width) Direction.all t false
    unfold Table.enforceStakes
    unfold enforceStakesFuel enforceStakesWith at h1 h2 ⊢
    cases hr : enforceLoop (forceBorderFuel (t.candidateCount + 1)) (wrapIndex line t.height)
        (wrapIndex col t.width) Direction.all t false with
    | mk t1 o =>
      rw [hr] at h1 h2 h3 h4
      cases o with
      | ok b => exact ⟨t1, b, rfl, h2⟩
      | raised e =>
        rcases h4 e rfl with e1 | e1
        · subst e1; exact absurd rfl h1
        · subst e1; exact absurd rfl h3
  · intro line col dir close hag
    obtain ⟨h1, h2⟩ := hF (t.candidateCount + 1) line col dir close hag
    rcases forceBorder_total t line col dir close hc with ⟨t1, b, e⟩ | ⟨t1, e⟩
    · have e' : forceBorderFuel (t.candidateCount + 1) t line col dir close = (t1, .ok b) := e
      rw [e'] at h2
      exact ⟨t1, b, e, h2⟩
    · have e' : forceBorderFuel (t.candidateCount + 1) t line col dir close
          = (t1, .raised .unsolvable) := e
      rw [e'] at h1
      exact absurd rfl h1

/-- C19 on the board `11` with the solution in which the two DEADENDs face each other:
opening the E edge of the left cell returns and keeps the solution. -/
theorem propagation_preserves_solutions_witness :
    deadendPair.Grid ∧ deadendPair.StakesOK ∧ deadendPair.Chooses facingPair ∧
    deadendPair.StubsMatch facingPair ∧
    ∃ t1 b, deadendPair.forceBorder 0 0 .D_E false = (t1, .ok b) ∧ t1.Chooses facingPair :=
  ⟨by decide, by decide, by decide, by decide,
    (propagation_preserves_solutions deadendPair (by decide) (by decide) facingPair
      (by decide) (by decide)).2.1 0 0 .D_E false (by decide)⟩

/-! ## The search keeps solutions -/

/-- A call of `forceBorder` that agrees with `σ` leaves a board on which `σ` is still a
choice of candidates with matching stubs, and does not raise `Unsolvable`. -/
theorem forceBorder_hasSolution (σ : Nat × Nat → Piece) (t : Table) (line col : Int)
    (dir : Direction) (close : Bool) (h : HasSolution σ t)
    (hag : forcePredicate close
      ((σ (wrapIndex line t.height, wrapIndex col t.width)).get dir) = true) :
    (t.forceBorder line col dir close).2 ≠ .raised .unsolvable ∧
    HasSolution σ (t.forceBorder line col dir close).1 := by
  obtain ⟨hg, hc, hch, hm⟩ := h
  obtain ⟨h1, h2⟩ := forceBorderFuel_keepsSolution σ (t.candidateCount + 1) t line col dir close
    hg hc hch hm hag
  obtain ⟨g1, c1, _, hh, hw, _⟩ := forceBorderFuel_frame (t.candidateCount + 1) t line col dir
    close hg hc
  exact ⟨h1, g1, c1, h2, stubsMatch_congr hh hw σ hm⟩

theorem forceBorder_ok_false (t : Table) (line col : Int) (dir : Direction) (close : Bool)
    (t1 : Table) (changed : Bool) (h : t.forceBorder line col dir close = (t1, .ok changed)) :
    changed = false := by
  have := forceBorderFuel_never_true (t.candidateCount + 1) t line col dir close
  have h' : forceBorderFuel (t.candidateCount + 1) t line col dir close = (t1, .ok changed) := h
  rw [h'] at this
  cases changed
  · rfl
  · exact absurd rfl this

/-- If the `try` block of an attempt leaves with `Unsolvable`, the solution does not have
the state that the trial forces. -/
theorem tryBlock_unsolvable (σ : Nat × Nat → Piece)
    (solveRec : Table → Int → Table × Outcome Unit)
    (hrec : ∀ other d, HasSolution σ other → (solveRec other d).2 ≠ .raised .unsolvable)
    (t : Table) (depth : Int) (i j : Nat) (dir : Direction) (close : Bool)
    (h : HasSolution σ t)
    (hag : forcePredicate close
      ((σ (wrapIndex (i : Int) t.height, wrapIndex (j : Int) t.width)).get dir) = true) :
    tryBlock solveRec t depth i j dir close ≠ .raised .unsolvable := by
  obtain ⟨h1, h2⟩ := forceBorder_hasSolution σ t i j dir close h hag
  unfold tryBlock
  split
  · next t1 e heq =>
    rw [heq] at h1
    intro e1
    apply h1
    simp only [Outcome.raised.injEq] at e1 ⊢
    exact e1
  · next other changed heq =>
    rw [heq] at h2
    have hcf := forceBorder_ok_false t i j dir close other changed heq
    subst hcf
    simp only [Bool.false_eq_true, if_false]
    exact hrec other (depth - 1) h2

/-- An attempt keeps the solution and does not raise `Unsolvable`. -/
theorem attemptWith_hasSolution (σ : Nat × Nat → Piece)
    (solveRec : Table → Int → Table × Outcome Unit)
    (hrec : ∀ other d, HasSolution σ other → (solveRec other d).2 ≠ .raised .unsolvable)
    (t : Table) (depth : Int) (i j : Nat) (dir : Direction) (close : Bool)
    (h : HasSolution σ t) :
    (attemptWith solveRec t depth i j dir close).2 ≠ .raised .unsolvable ∧
    HasSolution σ (attemptWith solveRec t depth i j dir close).1 := by
  unfold attemptWith
  simp only
  split
  · split
    · exact ⟨by simp, h⟩
    · next heq =>
      have hag : forcePredicate (!close)
          ((σ (wrapIndex (i : Int) t.height, wrapIndex (j : Int) t.width)).get dir) = true := by
        by_contra hne
        have hag' : forcePredicate close
            ((σ (wrapIndex (i : Int) t.height, wrapIndex (j : Int) t.width)).get dir) = true := by
          cases close <;>
            cases hv : (σ (wrapIndex (i : Int) t.height, wrapIndex (j : Int) t.width)).get dir <;>
            simp [forcePredicate, hv] at hne ⊢
        exact tryBlock_unsolvable σ solveRec hrec t depth i j dir close h hag' heq
      obtain ⟨h1, h2⟩ := forceBorder_hasSolution σ t i j dir (!close) h hag
      split
      · next t1 e heq1 =>
        rw [heq1] at h1 h2
        exact ⟨h1, h2⟩
      · next t1 changed heq1 =>
        rw [heq1] at h2
        have hcf := forceBorder_ok_false t i j dir (!close) t1 changed heq1
        subst hcf
        simp only [Bool.false_eq_true, if_false]
        exact ⟨by simp, h2⟩
    · next e hne heq =>
      refine ⟨?_, h⟩
      intro e1
      simp only [Outcome.raised.injEq] at e1
      subst e1
      exact hne rfl
  · exact ⟨by simp, h⟩

theorem scanProbes_hasSolution (σ : Nat × Nat → Piece)
    (solveRec : Table → Int → Table × Outcome Unit)
    (hrec : ∀ other d, HasSolution σ other → (solveRec other d).2 ≠ .raised .unsolvable)
    (depth : Int) (i j : Nat) :
    ∀ (ps : List (Direction × Bool)) (t : Table), HasSolution σ t →
      (scanProbes solveRec depth i j ps t).2 ≠ .raised .unsolvable ∧
      HasSolution σ (scanProbes solveRec depth i j ps t).1 := by
  intro ps
  induction ps with
  | nil => intro t h; exact ⟨by simp [scanProbes], h⟩
  | cons q rest ih =>
    intro t h
    obtain ⟨d, close⟩ := q
    unfold scanProbes
    have ha := attemptWith_hasSolution σ solveRec hrec t depth i j d close h
    split
    · next t1 heq =>
      rw [heq] at ha
      exact ⟨by simp, ha.2⟩
    · next t1 heq =>
      rw [heq] at ha
      exact ih t1 ha.2
    · next t1 e heq =>
      rw [heq] at ha
      exact ha

theorem scanCells_hasSolution (σ : Nat × Nat → Piece)
    (solveRec : Table → Int → Table × Outcome Unit)
    (hrec : ∀ other d, HasSolution σ other → (solveRec other d).2 ≠ .raised .unsolvable)
    (depth : Int) :
    ∀ (coords : List (Nat × Nat)) (t : Table) (nothingToDo : Bool), HasSolution σ t →
      (scanCells solveRec depth coords t nothingToDo).2 ≠ .raised .unsolvable ∧
      HasSolution σ (scanCells solveRec depth coords t nothingToDo).1 := by
  intro coords
  induction coords with
  | nil => intro t n h; exact ⟨by simp [scanCells], h⟩
  | cons q rest ih =>
    intro t n h
    obtain ⟨i, j⟩ := q
    unfold scanCells
    split
    · exact ih t n h
    · have hp := scanProbes_hasSolution σ solveRec hrec depth i j probes t h
      split
      · next t1 heq =>
        rw [heq] at hp
        exact ⟨by simp, hp.2⟩
      · next t1 heq =>
        rw [heq] at hp
        exact ih t1 false hp.2
      · next t1 e heq =>
        rw [heq] at hp
        refine ⟨?_, hp.2⟩
        intro e1
        apply hp.1
        simp only [Outcome.raised.injEq] at e1 ⊢
        exact e1

/-- The search keeps every choice of candidates with matching stubs and does not raise
`Unsolvable` on a board that has one. -/
theorem solveFuel_hasSolution (σ : Nat × Nat → Piece) :
    ∀ (fuel : Nat) (t : Table) (maxDepth depth : Int), HasSolution σ t →
      (solveFuel fuel t maxDepth depth).2 ≠ .raised .unsolvable ∧
      HasSolution σ (solveFuel fuel t maxDepth depth).1 := by
  intro fuel
  induction fuel with
  | zero => intro t maxDepth depth h; exact ⟨by simp [solveFuel], h⟩
  | succ fuel ih =>
    intro t maxDepth depth h
    unfold solveFuel
    split
    · have hs := scanCells_hasSolution σ (fun other d => solveFuel fuel other d 1)
        (fun other d ho => (ih other d 1 ho).1) depth (allCoords t.width t.height) t true h
      split
      · next t1 e heq =>
        rw [heq] at hs
        refine ⟨?_, hs.2⟩
        intro e1
        apply hs.1
        simp only [Outcome.raised.injEq] at e1 ⊢
        exact e1
      · next t1 heq =>
        rw [heq] at hs
        exact ih t1 maxDepth 1 hs.2
      · next t1 n heq =>
        rw [heq] at hs
        split
        · exact ⟨by simp, hs.2⟩
        · split
          · exact ⟨by simp, hs.2⟩
          · exact ih t1 maxDepth (depth + 1) hs.2
    · exact ⟨by simp, h⟩

/-- C20: the search never discards a solution. On a board (a grid) with consistent stakes,
for every depth bound and every assignment `σ` of one current candidate per cell with all
stubs matching (in particular every valid solution, whose non-empty cells are connected as
well), `solve(maxDepth)` does not raise `Unsolvable`, and however control leaves it
(normal return, solved signal or any other way) every cell of the board it was called on
still has the rotation of `σ` among its candidates. -/
theorem search_keeps_solutions (t : Table) (hg : t.Grid) (hs : t.StakesOK)
    (σ : Nat × Nat → Piece) (hch : t.Chooses σ) (hm : t.StubsMatch σ)
    (fuel : Nat) (maxDepth : Int) :
    (t.solve fuel maxDepth).2 ≠ .raised .unsolvable ∧ (t.solve fuel maxDepth).1.Chooses σ := by
  obtain ⟨h1, h2⟩ := solveFuel_hasSolution σ fuel t maxDepth 1
    ⟨hg, cellsOK_of_chooses t hg hs σ hch, hch, hm⟩
  exact ⟨h1, h2.2.2.1⟩

/-- C20 on the board `11` with the solution in which the two DEADENDs face each other:
`solve()` signals a solved board, and the board it was called on keeps the solution. -/
theorem search_keeps_solutions_witness :
    deadendPair.Grid ∧ deadendPair.StakesOK ∧ deadendPair.Chooses facingPair ∧
    deadendPair.StubsMatch facingPair ∧ deadendPair.ConnectedUnder facingPair ∧
    (deadendPair.solve 20 intMax).2 ≠ .raised .unsolvable ∧
    (deadendPair.solve 20 intMax).1.Chooses facingPair := by
  have hconn : deadendPair.ConnectedUnder facingPair := by
    have h01 : deadendPair.OpenStep facingPair (0, 0) (0, 1) :=
      ⟨.D_E, by decide, by decide, by decide⟩
    have h10 : deadendPair.OpenStep facingPair (0, 1) (0, 0) :=
      ⟨.D_W, by decide, by decide, by decide⟩
    intro p hp q hq
    have hp' : p = (0, 0) ∨ p = (0, 1) := by simpa [deadendPair] using hp
    have hq' : q = (0, 0) ∨ q = (0, 1) := by simpa [deadendPair] using hq
    rcases hp' with rfl | rfl <;> rcases hq' with rfl | rfl
    · exact Relation.ReflTransGen.refl
    · exact Relation.ReflTransGen.single h01
    · exact Relation.ReflTransGen.single h10
    · exact Relation.ReflTransGen.refl
  have h := search_keeps_solutions deadendPair (by decide) (by decide) facingPair (by decide)
    (by decide) 20 intMax
  exact ⟨by decide, by decide, by decide, by decide, hconn, h.1, h.2⟩

/-! ## What the constructor builds -/

theorem kindAt_of_decodes (raw : List Char) (hd : Decodes raw) (idx : Nat)
    (h : idx < raw.length) :
    ∃ ch, raw.get? idx = some ch ∧ charToPT ch = .piece (kindAt raw idx) := by
  have hget : raw.get? idx = some (raw.get ⟨idx, h⟩) := List.get?_eq_get h
  have hp := hd (raw.get ⟨idx, h⟩) (List.get_mem raw idx h)
  obtain ⟨pt, hpt⟩ : ∃ pt, charToPT (raw.get ⟨idx, h⟩) = .piece pt := by
    cases hc : charToPT (raw.get ⟨idx, h⟩) with
    | piece pt => exact ⟨pt, rfl⟩
    | badCharacter => rw [hc] at hp; exact absurd hp (by decide)
    | outOfFuel => rw [hc] at hp; exact absurd hp (by decide)
  refine ⟨raw.get ⟨idx, h⟩, hget, ?_⟩
  unfold kindAt
  rw [hget]
  simp only [hpt]

/-- Filling a row of a raw table whose characters decode: the cells of the kinds of the
characters are appended and the coordinates of the non-EMPTY ones are inserted. -/
theorem fillRow_eq (width : Nat) (raw : List Char) (i : Nat) (hd : Decodes raw)
    (hlen : raw.length < 2147483648) :
    ∀ (js : List Nat) (row : List Cell) (ne : List (Nat × Nat)),
      (∀ j ∈ js, j + i * width < raw.length) →
      fillRow width raw i js row ne =
        .ok (row ++ js.map (fun j => Cell.new (kindAt raw (j + i * width))),
          insertRow width raw i js ne) := by
  intro js
  induction js with
  | nil => intro row ne _; simp [fillRow, insertRow]
  | cons j rest ih =>
    intro row ne hj
    have hidx := hj j (List.mem_cons_self _ _)
    obtain ⟨ch, hget, hch⟩ := kindAt_of_decodes raw hd _ hidx
    have hmod : (j + i * width) % 4294967296 = j + i * width := Nat.mod_eq_of_lt (by omega)
    have hraw : rawAt raw ((j + i * width) % 4294967296) = some ch := by
      unfold rawAt
      rw [hmod, if_pos (by omega), hget]
    unfold fillRow
    simp only [hraw, hch]
    rw [ih _ _ (fun j' hj' => hj j' (List.mem_cons_of_mem _ hj'))]
    simp [insertRow, List.foldl_cons]

theorem set_append_cons {α : Type} (x y : α) (L : List α) :
    ∀ A : List α, (A ++ y :: L).set A.length x = A ++ x :: L := by
  intro A
  induction A with
  | nil => rfl
  | cons a A ih => simp [ih]

theorem getD_append_cons {α : Type} (y d : α) (L : List α) :
    ∀ A : List α, (A ++ y :: L).getD A.length d = y := by
  intro A
  induction A with
  | nil => rfl
  | cons a A ih => simpa using ih

/-- Filling the rows of a raw table whose characters decode. -/
theorem fillRows_eq (width : Nat) (raw : List Char) (hd : Decodes raw)
    (hlen : raw.length < 2147483648) :
    ∀ (m k : Nat) (A : List (List Cell)) (ne : List (Nat × Nat)), A.length = k →
      (∀ i, k ≤ i → i < k + m → ∀ j, j < width → j + i * width < raw.length) →
      fillRows width raw (List.range' k m) (A ++ List.replicate m []) ne =
        .ok (A ++ (List.range' k m).map (freshRow width raw),
          insertRows width raw (List.range' k m) ne) := by
  intro m
  induction m with
  | zero => intro k A ne _ _; simp [fillRows, insertRows]
  | succ m ih =>
    intro k A ne hA hidx
    rw [List.range'_succ, List.replicate_succ]
    unfold fillRows
    have hget : (A ++ [] :: List.replicate m ([] : List Cell)).getD k [] = [] := by
      rw [← hA]; exact getD_append_cons _ _ _ A
    rw [hget, fillRow_eq width raw k hd hlen (List.range width) [] ne
      (fun j hj => hidx k (Nat.le_refl k) (by omega) j (List.mem_range.mp hj))]
    simp only [List.nil_append]
    have hset : (A ++ [] :: List.replicate m ([] : List Cell)).set k
        ((List.range width).map (fun j => Cell.new (kindAt raw (j + k * width))))
        = (A ++ [freshRow width raw k]) ++ List.replicate m [] := by
      rw [← hA, set_append_cons]
      simp [freshRow]
    rw [hset, ih (k + 1) (A ++ [freshRow width raw k]) _ (by simp [hA])
      (fun i h1 h2 j hj => hidx i (by omega) (by omega) j hj)]
    simp [insertRows, List.foldl_cons]

theorem mem_coordInsert_iff (p x : Nat × Nat) (l : List (Nat × Nat)) :
    x ∈ coordInsert p l ↔ x = p ∨ x ∈ l := by
  constructor
  · exact mem_coordInsert p l x
  · induction l with
    | nil => intro h; simpa [coordInsert] using h
    | cons q qs ih =>
      intro h
      unfold coordInsert
      split
      · rcases h with e | h
        · rw [e]; exact List.mem_cons_self _ _
        · exact List.mem_cons_of_mem _ h
      · split
        · rcases h with e | h
          · exact List.mem_cons_of_mem _ (ih (Or.inl e))
          · rcases List.mem_cons.mp h with e | h
            · rw [e]; exact List.mem_cons_self _ _
            · exact List.mem_cons_of_mem _ (ih (Or.inr h))
        · next h1 h2 =>
          rcases h with e | h
          · have : p = q := by
              apply Prod.ext <;> omega
            rw [e, this]; exact List.mem_cons_self _ _
          · exact h

theorem mem_insertRow (width : Nat) (raw : List Char) (i : Nat) (x : Nat × Nat) :
    ∀ (js : List Nat) (ne : List (Nat × Nat)),
      x ∈ insertRow width raw i js ne ↔
        x ∈ ne ∨ (x.1 = i ∧ x.2 ∈ js ∧ kindAt raw (x.2 + x.1 * width) ≠ .PT_EMPTY) := by
  intro js
  induction js with
  | nil => intro ne; simp [insertRow]
  | cons j rest ih =>
    intro ne
    have hstep : insertRow width raw i (j :: rest) ne = insertRow width raw i rest
        (if kindAt raw (j + i * width) ≠ .PT_EMPTY then coordInsert (i, j) ne else ne) := rfl
    rw [hstep, ih]
    by_cases hk : kindAt raw (j + i * width) ≠ .PT_EMPTY
    · rw [if_pos hk, mem_coordInsert_iff]
      constructor
      · rintro ((e | h) | ⟨h1, h2, h3⟩)
        · subst e
          exact Or.inr ⟨rfl, List.mem_cons_self _ _, hk⟩
        · exact Or.inl h
        · exact Or.inr ⟨h1, List.mem_cons_of_mem _ h2, h3⟩
      · rintro (h | ⟨h1, h2, h3⟩)
        · exact Or.inl (Or.inr h)
        · rcases List.mem_cons.mp h2 with e | h2
          · left; left
            exact Prod.ext h1 e
          · exact Or.inr ⟨h1, h2, h3⟩
    · rw [if_neg hk]
      constructor
      · rintro (h | ⟨h1, h2, h3⟩)
        · exact Or.inl h
        · exact Or.inr ⟨h1, List.mem_cons_of_mem _ h2, h3⟩
      · rintro (h | ⟨h1, h2, h3⟩)
        · exact Or.inl h
        · rcases List.mem_cons.mp h2 with e | h2
          · exfalso
            apply hk
            rw [← e, ← h1]
            exact h3
          · exact Or.inr ⟨h1, h2, h3⟩

theorem mem_insertRows (width : Nat) (raw : List Char) (x : Nat × Nat) :
    ∀ (rows : List Nat) (ne : List (Nat × Nat)),
      x ∈ insertRows width raw rows ne ↔
        x ∈ ne ∨ (x.1 ∈ rows ∧ x.2 < width ∧ kindAt raw (x.2 + x.1 * width) ≠ .PT_EMPTY) := by
  intro rows
  induction rows with
  | nil => intro ne; simp [insertRows]
  | cons i rest ih =>
    intro ne
    have hstep : insertRows width raw (i :: rest) ne
        = insertRows width raw rest (insertRow width raw i (List.range width) ne) := rfl
    rw [hstep, ih, mem_insertRow]
    simp only [List.mem_range, List.mem_cons]
    constructor
    · rintro ((h | ⟨h1, h2, h3⟩) | ⟨h1, h2, h3⟩)
      · exact Or.inl h
      · exact Or.inr ⟨Or.inl h1, h2, h3⟩
      · exact Or.inr ⟨Or.inr h1, h2, h3⟩
    · rintro (h | ⟨h1 | h1, h2, h3⟩)
      · exact Or.inl (Or.inl h)
      · exact Or.inl (Or.inr ⟨h1, h2, h3⟩)
      · exact Or.inr ⟨h1, h2, h3⟩

/-- The cells of the board that the constructor has built before the pass of
`enforceStakes`. -/
theorem cellAt_freshBoard (width height : Nat) (raw : List Char) (i j : Nat)
    (hi : i < height) (hj : j < width) :
    (freshBoard width height raw).cellAt i j = Cell.new (kindAt raw (j + i * width)) := by
  unfold Table.cellAt freshBoard freshRow
  simp only [List.getD_eq_getElem?_getD]
  simp [List.getElem?_map, List.getElem?_range, hi, hj]

theorem mem_nonEmptyCells_freshBoard (width height : Nat) (raw : List Char) (x : Nat × Nat) :
    x ∈ (freshBoard width height raw).nonEmptyCells ↔
      x.1 < height ∧ x.2 < width ∧ kindAt raw (x.2 + x.1 * width) ≠ .PT_EMPTY := by
  unfold freshBoard
  simp only
  rw [mem_insertRows]
  simp [List.mem_range]

/-- The constructor on a raw table of the right length whose characters decode: the board
of fresh cells is built, every cell is passed to `enforceStakes` and reachability is
checked. -/
theorem create_of_decodes (width height : Nat) (rawTable : String)
    (hw : width < 2147483648) (hh : height < 2147483648)
    (hlen : rawTable.length = width * height) (hsmall : width * height < 2147483648)
    (hd : Decodes rawTable.toList) :
    Table.create width height rawTable =
      match enforceAll (allCoords width height) (freshBoard width height rawTable.toList) with
      | (_, .raised e) => .raised e
      | (t1, .ok _) =>
        match t1.checkReachability with
        | (t2, .ok _) => .ok t2
        | (_, .raised e) => .raised e := by
  have hl : rawTable.toList.length = width * height := by
    rw [← hlen]; rfl
  have hfill := fillRows_eq width rawTable.toList hd (by omega) height 0 [] [] rfl
    (fun i _ hi j hj => by
      rw [hl]
      have : i + 1 ≤ height := by omega
      calc j + i * width < width + i * width := by omega
        _ = (i + 1) * width := by ring
        _ ≤ height * width := Nat.mul_le_mul_right _ this
        _ = width * height := Nat.mul_comm _ _)
  simp only [List.nil_append] at hfill
  rw [← List.range_eq_range'] at hfill
  unfold Table.create
  rw [if_neg (by rw [hlen, Nat.mod_eq_of_lt (by omega)]; exact fun h => h rfl),
    if_neg (by omega), hfill]
  rfl

/-- When every edge of the cell is undetermined the loop of `enforceStakes` calls nothing. -/
theorem enforceLoop_noop
    (fb : Table → Int → Int → Direction → Bool → Table × Outcome Bool) (line col : Nat)
    (t : Table) :
    ∀ (dirs : List Direction) (ret : Bool),
      (∀ d ∈ dirs, (t.cellAt line col).stakes.get d ≠ 0 ∧
        (t.cellAt line col).stakes.get d ≠ (t.cellAt line col).candidates.length) →
      enforceLoop fb line col dirs t ret = (t, .ok ret) := by
  intro dirs
  induction dirs with
  | nil => intro ret _; rfl
  | cons i rest ih =>
    intro ret h
    obtain ⟨h0, h1⟩ := h i (List.mem_cons_self _ _)
    unfold enforceLoop
    simp only [if_neg h0, if_neg h1]
    exact ih ret (fun d hd => h d (List.mem_cons_of_mem _ hd))

/-- When every edge of every cell is undetermined the pass of `enforceStakes` changes
nothing. -/
theorem enforceAll_noop (t : Table)
    (h : ∀ line col d, (t.cellAt (wrapIndex line t.height) (wrapIndex col t.width)).stakes.get d
        ≠ 0 ∧
      (t.cellAt (wrapIndex line t.height) (wrapIndex col t.width)).stakes.get d ≠
        (t.cellAt (wrapIndex line t.height) (wrapIndex col t.width)).candidates.length) :
    ∀ coords : List (Nat × Nat), enforceAll coords t = (t, .ok ()) := by
  intro coords
  induction coords with
  | nil => rfl
  | cons q rest ih =>
    obtain ⟨i, j⟩ := q
    unfold enforceAll
    have : t.enforceStakes i j = (t, .ok false) := by
      unfold Table.enforceStakes enforceStakesFuel enforceStakesWith
      exact enforceLoop_noop _ _ _ t Direction.all false (fun d _ => h i j d)
    rw [this]
    exact ih

/-! ## Boards of LINE pieces -/

theorem insertRow_sorted (width : Nat) (raw : List Char) (i : Nat) :
    ∀ (js : List Nat) (ne : List (Nat × Nat)), ne.Pairwise coordLt →
      (insertRow width raw i js ne).Pairwise coordLt := by
  intro js
  induction js with
  | nil => intro ne h; exact h
  | cons j rest ih =>
    intro ne h
    have hstep : insertRow width raw i (j :: rest) ne = insertRow width raw i rest
        (if kindAt raw (j + i * width) ≠ .PT_EMPTY then coordInsert (i, j) ne else ne) := rfl
    rw [hstep]
    apply ih
    split
    · exact coordInsert_sorted _ _ h
    · exact h

theorem insertRows_sorted (width : Nat) (raw : List Char) :
    ∀ (rows : List Nat) (ne : List (Nat × Nat)), ne.Pairwise coordLt →
      (insertRows width raw rows ne).Pairwise coordLt := by
  intro rows
  induction rows with
  | nil => intro ne h; exact h
  | cons i rest ih =>
    intro ne h
    have hstep : insertRows width raw (i :: rest) ne
        = insertRows width raw rest (insertRow width raw i (List.range width) ne) := rfl
    rw [hstep]
    exact ih _ (insertRow_sorted width raw i _ ne h)

theorem freshBoard_nonEmptySorted (width height : Nat) (raw : List Char) :
    (freshBoard width height raw).NonEmptySorted :=
  insertRows_sorted width raw _ [] List.Pairwise.nil

theorem freshBoard_grid (width height : Nat) (raw : List Char) (hw0 : 0 < width)
    (hw : width < 2147483648) (hh0 : 0 < height) (hh : height < 2147483648) :
    (freshBoard width height raw).Grid := by
  refine ⟨hh0, hh, hw0, hw, by simp [freshBoard], ?_⟩
  intro row hrow
  simp only [freshBoard, List.mem_map, List.mem_range] at hrow
  obtain ⟨i, _, rfl⟩ := hrow
  show (freshRow width raw i).length = width
  simp [freshRow]

theorem kindAt_lineRaw (w idx : Nat) (h : idx < w) : kindAt (lineRaw w) idx = .PT_LINE := by
  unfold kindAt lineRaw
  rw [List.get?_eq_getElem?, List.getElem?_replicate, if_pos h]
  rfl

theorem decodes_lineRaw (w : Nat) : Decodes (lineRaw w) := by
  intro ch hch
  rw [List.eq_of_mem_replicate hch]
  decide

theorem wrapIndex_natCast (n w : Nat) (hw0 : 0 < w) (h : n + w < 4294967296) :
    wrapIndex (n : Int) w = n % w := by
  unfold wrapIndex
  have h1 : ((n : Int) + (w : Int)) % 4294967296 = (n : Int) + (w : Int) :=
    Int.emod_eq_of_lt (by omega) (by omega)
  rw [h1, Int.add_emod_self]
  have h2 : (n : Int) % (w : Int) = ((n % w : Nat) : Int) := (Int.natCast_mod n w).symm
  rw [h2]
  exact Int.toNat_natCast _

/-- On the board of a row of LINE pieces every cell is a fresh LINE. -/
theorem cellAt_lineRow (w : Nat) (j : Nat) (hj : j < w) :
    (freshBoard w 1 (lineRaw w)).cellAt 0 j = Cell.new .PT_LINE := by
  rw [cellAt_freshBoard w 1 (lineRaw w) 0 j (by decide) hj, kindAt_lineRaw w _ (by omega)]

theorem mem_nonEmptyCells_lineRow (w : Nat) (x : Nat × Nat) :
    x ∈ (freshBoard w 1 (lineRaw w)).nonEmptyCells ↔ x.1 = 0 ∧ x.2 < w := by
  rw [mem_nonEmptyCells_freshBoard]
  constructor
  · rintro ⟨h1, h2, _⟩
    exact ⟨by omega, h2⟩
  · rintro ⟨h1, h2⟩
    refine ⟨by omega, h2, ?_⟩
    rw [h1, kindAt_lineRaw w _ (by omega)]
    decide

/-- On the board of a row of LINE pieces the reachability check returns: every cell is
reached by going east. -/
theorem checkReachability_lineRow (w : Nat) (hw0 : 0 < w) (hw : w < 2147483648) :
    (freshBoard w 1 (lineRaw w)).checkReachability = (freshBoard w 1 (lineRaw w), .ok ()) := by
  have hg := freshBoard_grid w 1 (lineRaw w) hw0 hw (by decide) (by decide)
  have hnd := pairwise_coordLt_nodup _ (freshBoard_nonEmptySorted w 1 (lineRaw w))
  have h00 : ((0, 0) : Nat × Nat) ∈ (freshBoard w 1 (lineRaw w)).nonEmptyCells :=
    (mem_nonEmptyCells_lineRow w (0, 0)).mpr ⟨rfl, hw0⟩
  cases hne : (freshBoard w 1 (lineRaw w)).nonEmptyCells with
  | nil => rw [hne] at h00; exact absurd h00 (List.not_mem_nil _)
  | cons start rest =>
    have hstart : start ∈ (freshBoard w 1 (lineRaw w)).nonEmptyCells := by
      rw [hne]; exact List.mem_cons_self _ _
    obtain ⟨hs1, hs2⟩ := (mem_nonEmptyCells_lineRow w start).mp hstart
    have hstep : ∀ j, j < w →
        (freshBoard w 1 (lineRaw w)).PossibleStep (0, j) (0, (j + 1) % w) := by
      intro j hj
      refine ⟨.D_E, ?_, ?_, ?_⟩
      · show ((freshBoard w 1 (lineRaw w)).cellAt 0 j).stakes.get .D_E ≠ 0
        rw [cellAt_lineRow w j hj]
        decide
      · have hn : (freshBoard w 1 (lineRaw w)).neighbour (0, j) .D_E
            = (wrapIndex ((0 : Nat) : Int) 1, wrapIndex ((j + 1 : Nat) : Int) w) := by
          unfold Table.neighbour
          simp [displacement, freshBoard]
        rw [hn, wrapIndex_natCast 0 1 (by decide) (by decide),
          wrapIndex_natCast (j + 1) w hw0 (by omega)]
      · exact (mem_nonEmptyCells_lineRow w _).mpr ⟨rfl, Nat.mod_lt _ hw0⟩
    have hreach : ∀ k, (freshBoard w 1 (lineRaw w)).Reachable start (0, (start.2 + k) % w) := by
      intro k
      induction k with
      | zero =>
        have : (0, (start.2 + 0) % w) = start := by
          apply Prod.ext
          · exact hs1.symm
          · simp [Nat.mod_eq_of_lt hs2]
        rw [this]
        exact Relation.ReflTransGen.refl
      | succ k ih =>
        have hs := hstep ((start.2 + k) % w) (Nat.mod_lt _ hw0)
        have e : ((start.2 + k) % w + 1) % w = (start.2 + (k + 1)) % w := by
          rw [Nat.mod_add_mod]
          rfl
        rw [e] at hs
        exact Relation.ReflTransGen.tail ih hs
    rcases checkReachability_spec _ start rest hne hnd with ⟨⟨q, hq, hr⟩, _⟩ | ⟨_, h2⟩
    · exfalso
      apply hr
      obtain ⟨hq1, hq2⟩ := (mem_nonEmptyCells_lineRow w q).mp hq
      have := hreach (q.2 + w - start.2)
      have e : (start.2 + (q.2 + w - start.2)) % w = q.2 := by
        have : start.2 + (q.2 + w - start.2) = q.2 + w := by omega
        rw [this, Nat.add_mod_right, Nat.mod_eq_of_lt hq2]
      rw [e] at this
      have hq' : q = (0, q.2) := Prod.ext hq1 rfl
      rw [hq']
      exact this
    · exact h2

/-- The constructor accepts a row of LINE pieces of any width and leaves the board of
fresh cells. -/
theorem create_lineRow (w : Nat) (hw0 : 0 < w) (hw : w < 2147483648) :
    Table.create w 1 (String.mk (lineRaw w)) = .ok (freshBoard w 1 (lineRaw w)) := by
  have hl : (String.mk (lineRaw w)).length = w * 1 := by
    show (lineRaw w).length = w * 1
    simp [lineRaw]
  rw [create_of_decodes w 1 (String.mk (lineRaw w)) hw (by decide) hl (by omega)
    (decodes_lineRaw w)]
  have hall : enforceAll (allCoords w 1) (freshBoard w 1 (lineRaw w))
      = (freshBoard w 1 (lineRaw w), .ok ()) := by
    apply enforceAll_noop
    intro line col d
    have hc : (freshBoard w 1 (lineRaw w)).cellAt
        (wrapIndex line (freshBoard w 1 (lineRaw w)).height)
        (wrapIndex col (freshBoard w 1 (lineRaw w)).width) = Cell.new .PT_LINE := by
      have h1 : wrapIndex line (freshBoard w 1 (lineRaw w)).height = 0 := by
        have := wrapIndex_lt line 1 (by decide)
        show wrapIndex line 1 = 0
        omega
      rw [h1]
      exact cellAt_lineRow w _ (wrapIndex_lt col w hw0)
    rw [hc]
    cases d <;> decide
  have htl : (String.mk (lineRaw w)).toList = lineRaw w := rfl
  rw [htl, hall]
  simp only
  rw [checkReachability_lineRow w hw0 hw]

/-- C16 fails as stated, already on the board of one LINE: for the raw table `5` of width 1
and height 1 the constructor returns the board with both rotations and `solve()` signals
the board whose cell holds the vertical rotation (N and S open), not the horizontal one. -/
theorem line_single_not_horizontal :
    Table.create 1 1 "5" = .ok (singleBoard .PT_LINE) ∧
    ((singleBoard .PT_LINE).solve 10 intMax).2 = .raised (.solved verticalSingle) ∧
    (verticalSingle.cellAt 0 0).candidates = [verticalLine] ∧
    horizontalLine ∉ (verticalSingle.cellAt 0 0).candidates ∧
    ((verticalSingle.cellAt 0 0).stakes.get .D_E = 0 ∧
      (verticalSingle.cellAt 0 0).stakes.get .D_N = 1) := by
  decide

/-- C16 as amended: for every row of LINE pieces of width `w ≥ 1` (within the range of
`int`) and for the 3×3 seed `555555555`, construction succeeds and leaves every cell a LINE
with both rotations as candidates; on the board of one LINE, `solve()` signals a solved
board in which the cell holds the vertical rotation (N and S open, E and W closed), for
every fuel of at least 3. -/
theorem line_boards (w : Nat) (hw0 : 1 ≤ w) (hw : w < 2147483648) :
    Table.create w 1 (String.mk (lineRaw w)) = .ok (freshBoard w 1 (lineRaw w)) ∧
    (∀ j, j < w → (freshBoard w 1 (lineRaw w)).cellAt 0 j = Cell.new .PT_LINE) ∧
    (Cell.new .PT_LINE).candidates = [horizontalLine, verticalLine] ∧
    Table.create 3 3 "555555555" = .ok (freshBoard 3 3 "555555555".toList) ∧
    (∀ i, i < 3 → ∀ j, j < 3 →
      (freshBoard 3 3 "555555555".toList).cellAt i j = Cell.new .PT_LINE) ∧
    (∀ fuel, 3 ≤ fuel →
      ((freshBoard 1 1 (lineRaw 1)).solve fuel intMax).2 = .raised (.solved verticalSingle)) ∧
    (verticalSingle.cellAt 0 0).candidates = [verticalLine] := by
  refine ⟨create_lineRow w hw0 hw, fun j hj => cellAt_lineRow w j hj, by decide, by decide,
    by decide, ?_, by decide⟩
  intro fuel hf
  have h3 : ((freshBoard 1 1 (lineRaw 1)).solve 3 intMax).2
      = .raised (.solved verticalSingle) := by decide
  rw [solve_mono 3 _ intMax (by rw [h3]; decide) fuel hf]
  exact h3

/-- C16 as amended, on the row of two LINE pieces. -/
theorem line_boards_witness :
    1 ≤ 2 ∧ 2 < 2147483648 ∧
    Table.create 2 1 (String.mk (lineRaw 2)) = .ok (freshBoard 2 1 (lineRaw 2)) :=
  ⟨by decide, by decide, (line_boards 2 (by decide) (by decide)).1⟩

/-! ## A board whose only piece is one DEADEND -/

/-- An invariant that `tighten` keeps is kept by the pass of `enforceStakes` of the
constructor. -/
theorem enforceAll_inv (P : Table → Prop)
    (hT : ∀ t line col dir close, P t → (t.cellAt line col).stakes.get dir ≠ 0 →
      (t.cellAt line col).stakes.get dir ≠ (t.cellAt line col).candidates.length →
      P (t.tighten line col dir close)) :
    ∀ (coords : List (Nat × Nat)) (t : Table), P t → P (enforceAll coords t).1 := by
  intro coords
  induction coords with
  | nil => intro t h; exact h
  | cons p rest ih =>
    obtain ⟨i, j⟩ := p
    intro t h
    have h1 : P (t.enforceStakes i j).1 := enforceStakesFuel_inv P hT _ t i j h
    unfold enforceAll
    rcases hr : t.enforceStakes (i : Int) (j : Int) with ⟨t1, o⟩
    rw [hr] at h1
    cases o with
    | ok b => exact ih t1 h1
    | raised e => exact h1

/-- On a board with consistent cells `enforceStakes` can only raise Unsolvable. -/
theorem enforceStakes_raised (t : Table) (line col : Int) (e : Raised) (hc : CellsOK t)
    (h : (t.enforceStakes line col).2 = .raised e) : e = .unsolvable := by
  have h1 : e = .unsolvable ∨ e = .outOfFuel :=
    enforceLoop_raised (fun e => e = .unsolvable ∨ e = .outOfFuel) _
      (fun t line col dir close e he => forceBorderFuel_raised _ t line col dir close e he)
      _ _ _ _ _ e h
  have h2 := (enforceLoop_total (t.candidateCount + 1)
    (fun t1 line col dir close hc1 hlt => forceBorderFuel_total _ t1 line col dir close hc1 hlt)
    (wrapIndex line t.height) (wrapIndex col t.width) Direction.all t false hc
    (Nat.lt_succ_self _)).1
  rcases h1 with h1 | h1
  · exact h1
  · subst h1
    exact absurd h h2

/-- On a board with consistent cells the pass of `enforceStakes` of the constructor can
only raise Unsolvable. -/
theorem enforceAll_raised :
    ∀ (coords : List (Nat × Nat)) (t : Table) (e : Raised), CellsOK t →
      (enforceAll coords t).2 = .raised e → e = .unsolvable := by
  intro coords
  induction coords with
  | nil => intro t e _ h; simp [enforceAll] at h
  | cons p rest ih =>
    obtain ⟨i, j⟩ := p
    intro t e hc h
    have h1 : CellsOK (t.enforceStakes i j).1 :=
      enforceStakesFuel_inv CellsOK
        (fun t line col dir close h h0 h1 => tighten_cellsOK t line col dir close h h0 h1)
        _ t i j hc
    have h2 := enforceStakes_raised t i j
    unfold enforceAll at h
    rcases hr : t.enforceStakes (i : Int) (j : Int) with ⟨t1, o⟩
    rw [hr] at h h1 h2
    cases o with
    | ok b => exact ih t1 e h1 h
    | raised e1 =>
      simp only [Outcome.raised.injEq] at h
      subst h
      exact h2 e1 hc rfl

/-- The cells of the board built from the raw table are consistent. -/
theorem freshBoard_cellsOK (width height : Nat) (raw : List Char) :
    CellsOK (freshBoard width height raw) := by
  rw [cellsOK_iff]
  constructor
  · intro row hrow cell hcell
    simp only [freshBoard, List.mem_map] at hrow
    obtain ⟨i, _, rfl⟩ := hrow
    simp only [freshRow, List.mem_map] at hcell
    obtain ⟨j, _, rfl⟩ := hcell
    exact stakesOK_new _
  · intro row hrow cell hcell
    simp only [freshBoard, List.mem_map] at hrow
    obtain ⟨i, _, rfl⟩ := hrow
    simp only [freshRow, List.mem_map] at hcell
    obtain ⟨j, _, rfl⟩ := hcell
    exact candidates_new_pos _

/-- Propagation only removes candidates: the candidates of every cell after the pass of the
constructor are a sublist of the candidates before. -/
theorem enforceAll_sublist (t0 : Table) (coords : List (Nat × Nat)) (l c : Nat) :
    ((enforceAll coords t0).1.cellAt l c).candidates.Sublist (t0.cellAt l c).candidates := by
  have h := enforceAll_inv
    (fun t => ∀ l c, (t.cellAt l c).candidates.Sublist (t0.cellAt l c).candidates)
    (fun t line col dir close ht _ _ l c => by
      rcases cellAt_tighten_cases t line col l c dir close with ⟨h1, h2, h3⟩ | h1
      · rw [h1, h2, h3]
        exact (List.filter_sublist _).trans (ht line col)
      · rw [h1]
        exact ht l c)
    coords t0 (fun l c => List.Sublist.refl _)
  exact h l c

/-- The constructor on a well-formed raw table with at least one piece either raises
Unsolvable or returns a board: a grid with consistent cells and neighbour agreement whose
candidates come from the fresh cells of the kinds of the raw table. -/
theorem create_cases (width height : Nat) (rawTable : String)
    (hw0 : 0 < width) (hw : width < 2147483648) (hh0 : 0 < height) (hh : height < 2147483648)
    (hlen : rawTable.length = width * height) (hsmall : width * height < 2147483648)
    (hd : Decodes rawTable.toList)
    (hne : (freshBoard width height rawTable.toList).nonEmptyCells ≠ []) :
    Table.create width height rawTable = .raised .unsolvable ∨
    ∃ t, Table.create width height rawTable = .ok t ∧
      ∀ l c, (t.cellAt l c).candidates.Sublist
        ((freshBoard width height rawTable.toList).cellAt l c).candidates := by
  have hcr := create_of_decodes width height rawTable hw hh hlen hsmall hd
  have hsub := enforceAll_sublist (freshBoard width height rawTable.toList)
    (allCoords width height)
  have hrs := enforceAll_raised (allCoords width height)
    (freshBoard width height rawTable.toList)
  have hst := enforceAll_settled (allCoords width height)
    (freshBoard width height rawTable.toList)
  rcases hr : enforceAll (allCoords width height) (freshBoard width height rawTable.toList)
    with ⟨t1, o⟩
  rw [hr] at hcr hsub hrs hst
  cases o with
  | raised e =>
    left
    rw [hcr, hrs e (freshBoard_cellsOK _ _ _) rfl]
  | ok u =>
    have h1 := hst t1 u (freshBoard_grid width height _ hw0 hw hh0 hh)
      (freshBoard_cellsOK _ _ _) rfl
    have hne1 : t1.nonEmptyCells ≠ [] := by rw [h1.2.2.2.2.1]; exact hne
    have hnd : t1.nonEmptyCells.Nodup := by
      rw [h1.2.2.2.2.1]
      exact pairwise_coordLt_nodup _ (freshBoard_nonEmptySorted width height _)
    rcases hl : t1.nonEmptyCells with _ | ⟨start, rest⟩
    · exact absurd hl hne1
    · rcases checkReachability_spec t1 start rest hl hnd with ⟨_, h2⟩ | ⟨_, h2⟩
      · left
        rw [hcr]
        simp only [h2]
      · right
        refine ⟨t1, ?_, hsub⟩
        rw [hcr]
        simp only [h2]

theorem step_ne (x n : Nat) (hx : x < n) (hn : 2 ≤ n) (δ : Int) (hδ : δ = 1 ∨ δ = -1) :
    (((x : Int) + δ) % (n : Int)).toNat ≠ x := by
  rcases hδ with rfl | rfl
  · by_cases h : x + 1 < n
    · rw [Int.emod_eq_of_lt (by omega) (by omega)]
      omega
    · have h1 : (x : Int) + 1 = n := by omega
      rw [h1, Int.emod_self]
      simp only [Int.toNat_zero]
      omega
  · by_cases h : x = 0
    · subst h
      rw [← Int.add_emod_self, Int.emod_eq_of_lt (by omega) (by omega)]
      omega
    · rw [Int.emod_eq_of_lt (by omega) (by omega)]
      omega

theorem pin_none : ∀ l ∈ (Cell.new .PT_DEADEND).candidates.sublists, l ≠ [] →
    stubCount .D_N l = 0 → stubCount .D_E l = 0 → stubCount .D_S l = 0 →
    stubCount .D_W l = 0 → False := by
  decide

theorem pin_row : ∀ l ∈ (Cell.new .PT_DEADEND).candidates.sublists, l ≠ [] →
    stubCount .D_E l = 0 → stubCount .D_W l = 0 →
    SelfFacing .D_N .D_S l →
    l = [⟨false, false, true, false⟩, ⟨true, false, false, false⟩] := by
  decide

theorem pin_column : ∀ l ∈ (Cell.new .PT_DEADEND).candidates.sublists, l ≠ [] →
    stubCount .D_N l = 0 → stubCount .D_S l = 0 →
    SelfFacing .D_E .D_W l →
    l = [⟨false, false, false, true⟩, ⟨false, true, false, false⟩] := by
  decide

theorem neighbour_ne_self (t : Table) (hg : t.Grid) (line col : Nat) (hl : line < t.height)
    (hc : col < t.width) (d : Direction)
    (h : (d = .D_N ∨ d = .D_S) ∧ 2 ≤ t.height ∨ (d = .D_E ∨ d = .D_W) ∧ 2 ≤ t.width) :
    t.neighbour (line, col) d ≠ (line, col) := by
  rw [neighbour_eq_mod t hg line col hl hc d]
  intro heq
  simp only [Prod.mk.injEq] at heq
  rcases h with ⟨hd, h2⟩ | ⟨hd, h2⟩
  · refine step_ne line t.height hl h2 (displacement d).1 ?_ heq.1
    rcases hd with rfl | rfl
    · right; rfl
    · left; rfl
  · refine step_ne col t.width hc h2 (displacement d).2 ?_ heq.2
    rcases hd with rfl | rfl
    · left; rfl
    · right; rfl

theorem neighbour_self (t : Table) (hg : t.Grid) (line col : Nat) (hl : line < t.height)
    (hc : col < t.width) (d : Direction)
    (h : (d = .D_N ∨ d = .D_S) ∧ t.height = 1 ∨ (d = .D_E ∨ d = .D_W) ∧ t.width = 1) :
    t.neighbour (line, col) d = (line, col) := by
  have h1 := neighbour_lt t hg (line, col) d
  rw [neighbour_eq_mod t hg line col hl hc d] at h1 ⊢
  simp only [Prod.mk.injEq]
  rcases h with ⟨hd, h2⟩ | ⟨hd, h2⟩
  · constructor
    · have := h1.1
      omega
    · have h3 : (displacement d).2 = 0 := by rcases hd with rfl | rfl <;> rfl
      rw [h3, add_zero, Int.emod_eq_of_lt (by omega) (by omega)]
      exact Int.toNat_natCast _
  · constructor
    · have h3 : (displacement d).1 = 0 := by rcases hd with rfl | rfl <;> rfl
      rw [h3, add_zero, Int.emod_eq_of_lt (by omega) (by omega)]
      exact Int.toNat_natCast _
    · have := h1.2
      omega

theorem loneDeadend_other (t : Table) (r c : Nat) (h : LoneDeadend t r c) (i j : Nat)
    (hi : i < t.height) (hj : j < t.width) (hne : (i, j) ≠ (r, c)) (d : Direction) :
    (t.cellAt i j).stakes.get d = 0 := by
  obtain ⟨_, hc, _, _, _, he, _⟩ := h
  have h1 := (hc i j).1 d (direction_mem_all _)
  rw [h1, he i j hi hj hne]
  cases d <;> rfl

theorem loneDeadend_closed (t : Table) (r c : Nat) (h : LoneDeadend t r c) (d : Direction)
    (hne : t.neighbour (r, c) d ≠ (r, c)) : (t.cellAt r c).stakes.get d = 0 := by
  have h0 := h
  obtain ⟨hg, _, ha, hr, hc, _, _⟩ := h
  have hlt := neighbour_lt t hg (r, c) d
  have h1 := (ha (t.neighbour (r, c) d).1 hlt.1 (t.neighbour (r, c) d).2 hlt.2
    (oppositeDirection d) (direction_mem_all _)).1
  rw [neighbour_neighbour t hg r c hr hc d, oppositeDirection_involutive] at h1
  exact h1 (loneDeadend_other t r c h0 _ _ hlt.1 hlt.2 hne _)

theorem loneDeadend_selfFacing (t : Table) (r c : Nat) (h : LoneDeadend t r c)
    (a : Direction) (hself : t.neighbour (r, c) a = (r, c)) :
    SelfFacing a (oppositeDirection a) (t.cellAt r c).candidates := by
  obtain ⟨hg, hc, ha, hr, hcw, _, _⟩ := h
  have hs : ∀ d, stubCount d (t.cellAt r c).candidates = (t.cellAt r c).stakes.get d :=
    fun d => ((hc r c).1 d (direction_mem_all _)).symm
  have hself2 : t.neighbour (r, c) (oppositeDirection a) = (r, c) := by
    have := neighbour_neighbour t hg r c hr hcw a
    rw [hself] at this
    exact this
  have h1 := (ha r hr c hcw a (direction_mem_all _)).2
  have h2 := (ha r hr c hcw (oppositeDirection a)
    (direction_mem_all _)).2
  rw [hself] at h1
  rw [hself2, oppositeDirection_involutive] at h2
  constructor
  · intro h3
    rw [hs] at h3 ⊢
    exact h1 h3
  · intro h3
    rw [hs] at h3 ⊢
    exact h2 h3

theorem loneDeadend_stubCount (t : Table) (r c : Nat) (h : LoneDeadend t r c) (d : Direction) :
    stubCount d (t.cellAt r c).candidates = (t.cellAt r c).stakes.get d :=
  ((h.2.1 r c).1 d (direction_mem_all d)).symm

theorem loneDeadend_candidates (t : Table) (r c : Nat) (h : LoneDeadend t r c) :
    (t.cellAt r c).candidates ∈ (Cell.new .PT_DEADEND).candidates.sublists ∧
      (t.cellAt r c).candidates ≠ [] := by
  refine ⟨List.mem_sublists.2 h.2.2.2.2.2.2, ?_⟩
  intro h0
  have := (h.2.1 r c).2
  rw [h0] at this
  simp at this

/-- On a board with at least two rows and two columns every neighbour of the DEADEND is an
EMPTY cell, which leaves it no candidate: the constructor cannot have returned it. -/
theorem loneDeadend_wide (t : Table) (r c : Nat) (h : LoneDeadend t r c)
    (hh : 2 ≤ t.height) (hw : 2 ≤ t.width) : False := by
  have hz : ∀ d, stubCount d (t.cellAt r c).candidates = 0 := by
    intro d
    rw [loneDeadend_stubCount t r c h d]
    apply loneDeadend_closed t r c h d
    apply neighbour_ne_self t h.1 r c h.2.2.2.1 h.2.2.2.2.1 d
    cases d
    · left; exact ⟨Or.inl rfl, hh⟩
    · right; exact ⟨Or.inl rfl, hw⟩
    · left; exact ⟨Or.inr rfl, hh⟩
    · right; exact ⟨Or.inr rfl, hw⟩
  have hc := loneDeadend_candidates t r c h
  exact pin_none _ hc.1 hc.2 (hz _) (hz _) (hz _) (hz _)

/-- On a single row of at least two columns the constructor leaves the DEADEND with the two
candidates that point up and down, into the cell itself. -/
theorem loneDeadend_row (t : Table) (r c : Nat) (h : LoneDeadend t r c)
    (hh : t.height = 1) (hw : 2 ≤ t.width) :
    ∃ ty, t.cellAt r c =
      ⟨ty, [⟨false, false, true, false⟩, ⟨true, false, false, false⟩], ⟨1, 0, 1, 0⟩⟩ := by
  have hc := loneDeadend_candidates t r c h
  have hne : ∀ d, d = .D_E ∨ d = .D_W → stubCount d (t.cellAt r c).candidates = 0 := by
    intro d hd
    rw [loneDeadend_stubCount t r c h d]
    apply loneDeadend_closed t r c h d
    exact neighbour_ne_self t h.1 r c h.2.2.2.1 h.2.2.2.2.1 d (Or.inr ⟨hd, hw⟩)
  have hsf := loneDeadend_selfFacing t r c h .D_N
    (neighbour_self t h.1 r c h.2.2.2.1 h.2.2.2.2.1 .D_N (Or.inl ⟨Or.inl rfl, hh⟩))
  have hl := pin_row _ hc.1 hc.2 (hne _ (Or.inl rfl)) (hne _ (Or.inr rfl)) hsf
  have hs := fun d => loneDeadend_stubCount t r c h d
  rcases hcell : t.cellAt r c with ⟨ty, cands, ⟨s0, s1, s2, s3⟩⟩
  rw [hcell] at hl hs
  simp only at hl hs
  subst hl
  have h0 := hs .D_N
  have h1 := hs .D_E
  have h2 := hs .D_S
  have h3 := hs .D_W
  simp only [stubCount, Quad.get] at h0 h1 h2 h3
  refine ⟨ty, ?_⟩
  rw [← h0, ← h1, ← h2, ← h3]
  rfl

/-- On a single column of at least two rows the constructor leaves the DEADEND with the two
candidates that point left and right, into the cell itself. -/
theorem loneDeadend_column (t : Table) (r c : Nat) (h : LoneDeadend t r c)
    (hh : 2 ≤ t.height) (hw : t.width = 1) :
    ∃ ty, t.cellAt r c =
      ⟨ty, [⟨false, false, false, true⟩, ⟨false, true, false, false⟩], ⟨0, 1, 0, 1⟩⟩ := by
  have hc := loneDeadend_candidates t r c h
  have hne : ∀ d, d = .D_N ∨ d = .D_S → stubCount d (t.cellAt r c).candidates = 0 := by
    intro d hd
    rw [loneDeadend_stubCount t r c h d]
    apply loneDeadend_closed t r c h d
    exact neighbour_ne_self t h.1 r c h.2.2.2.1 h.2.2.2.2.1 d (Or.inl ⟨hd, hh⟩)
  have hsf := loneDeadend_selfFacing t r c h .D_E
    (neighbour_self t h.1 r c h.2.2.2.1 h.2.2.2.2.1 .D_E (Or.inr ⟨Or.inl rfl, hw⟩))
  have hl := pin_column _ hc.1 hc.2 (hne _ (Or.inl rfl)) (hne _ (Or.inr rfl)) hsf
  have hs := fun d => loneDeadend_stubCount t r c h d
  rcases hcell : t.cellAt r c with ⟨ty, cands, ⟨s0, s1, s2, s3⟩⟩
  rw [hcell] at hl hs
  simp only at hl hs
  subst hl
  have h0 := hs .D_N
  have h1 := hs .D_E
  have h2 := hs .D_S
  have h3 := hs .D_W
  simp only [stubCount, Quad.get] at h0 h1 h2 h3
  refine ⟨ty, ?_⟩
  rw [← h0, ← h1, ← h2, ← h3]
  rfl

theorem forceBorderFuel_open_closed (fuel : Nat) (t : Table) (line col : Int) (dir : Direction)
    (h : (t.cellAt (wrapIndex line t.height) (wrapIndex col t.width)).stakes.get dir = 0) :
    forceBorderFuel (fuel + 1) t line col dir false = (t, .raised .unsolvable) := by
  rw [forceBorderFuel]
  simp [h]

theorem forceBorderFuel_close_closed (fuel : Nat) (t : Table) (line col : Int) (dir : Direction)
    (h : (t.cellAt (wrapIndex line t.height) (wrapIndex col t.width)).stakes.get dir = 0) :
    forceBorderFuel (fuel + 1) t line col dir true = (t, .ok false) := by
  rw [forceBorderFuel]
  simp [h]

theorem forceBorderFuel_close_open (fuel : Nat) (t : Table) (line col : Int) (dir : Direction)
    (h0 : (t.cellAt (wrapIndex line t.height) (wrapIndex col t.width)).stakes.get dir ≠ 0)
    (h : (t.cellAt (wrapIndex line t.height) (wrapIndex col t.width)).stakes.get dir =
      (t.cellAt (wrapIndex line t.height) (wrapIndex col t.width)).candidates.length) :
    forceBorderFuel (fuel + 1) t line col dir true = (t, .raised .unsolvable) := by
  rw [forceBorderFuel]
  simp only [h0, if_false]
  simp [h]

theorem forceBorderFuel_tighten (fuel : Nat) (t : Table) (line col : Int) (dir : Direction)
    (close : Bool)
    (h0 : (t.cellAt (wrapIndex line t.height) (wrapIndex col t.width)).stakes.get dir ≠ 0)
    (h1 : (t.cellAt (wrapIndex line t.height) (wrapIndex col t.width)).stakes.get dir ≠
      (t.cellAt (wrapIndex line t.height) (wrapIndex col t.width)).candidates.length) :
    forceBorderFuel (fuel + 1) t line col dir close =
      enforceStakesWith (forceBorderFuel fuel)
        (t.tighten (wrapIndex line t.height) (wrapIndex col t.width) dir close)
        (wrapIndex line t.height) (wrapIndex col t.width) := by
  rw [forceBorderFuel]
  simp only [h0, h1, if_false]

theorem enforceLoop_closed_ok
    (fb : Table → Int → Int → Direction → Bool → Table × Outcome Bool) (line col : Nat)
    (i : Direction) (rest : List Direction) (t : Table) (ret : Bool) (t1 : Table) (b : Bool)
    (h : (t.cellAt line col).stakes.get i = 0)
    (hfb : fb t ((line : Int) + (displacement i).1) ((col : Int) + (displacement i).2)
      (oppositeDirection i) true = (t1, .ok b)) :
    enforceLoop fb line col (i :: rest) t ret = enforceLoop fb line col rest t1 (ret || b) := by
  rw [enforceLoop]
  simp only [h, if_true, hfb]

theorem enforceLoop_closed_raised
    (fb : Table → Int → Int → Direction → Bool → Table × Outcome Bool) (line col : Nat)
    (i : Direction) (rest : List Direction) (t : Table) (ret : Bool) (t1 : Table) (e : Raised)
    (h : (t.cellAt line col).stakes.get i = 0)
    (hfb : fb t ((line : Int) + (displacement i).1) ((col : Int) + (displacement i).2)
      (oppositeDirection i) true = (t1, .raised e)) :
    enforceLoop fb line col (i :: rest) t ret = (t1, .raised e) := by
  rw [enforceLoop]
  simp only [h, if_true, hfb]

theorem enforceLoop_open_raised
    (fb : Table → Int → Int → Direction → Bool → Table × Outcome Bool) (line col : Nat)
    (i : Direction) (rest : List Direction) (t : Table) (ret : Bool) (t1 : Table) (e : Raised)
    (h0 : (t.cellAt line col).stakes.get i ≠ 0)
    (h : (t.cellAt line col).stakes.get i = (t.cellAt line col).candidates.length)
    (hfb : fb t ((line : Int) + (displacement i).1) ((col : Int) + (displacement i).2)
      (oppositeDirection i) false = (t1, .raised e)) :
    enforceLoop fb line col (i :: rest) t ret = (t1, .raised e) := by
  rw [enforceLoop]
  simp only [h0, if_false]
  simp only [h, if_true, hfb]

/-- A cell that is its own neighbour across `a` and whose edges `a` and its opposite are
determined differently makes `enforceStakes` raise Unsolvable at `a`. -/
theorem selfLoop_raises (fuel : Nat) (t : Table) (line col : Nat) (a : Direction)
    (rest : List Direction) (ret : Bool)
    (hL : wrapIndex ((line : Int) + (displacement a).1) t.height = line)
    (hC : wrapIndex ((col : Int) + (displacement a).2) t.width = col)
    (h : ((t.cellAt line col).stakes.get a = 0 ∧
          (t.cellAt line col).stakes.get (oppositeDirection a) ≠ 0 ∧
          (t.cellAt line col).stakes.get (oppositeDirection a) =
            (t.cellAt line col).candidates.length) ∨
         ((t.cellAt line col).stakes.get a ≠ 0 ∧
          (t.cellAt line col).stakes.get a = (t.cellAt line col).candidates.length ∧
          (t.cellAt line col).stakes.get (oppositeDirection a) = 0)) :
    enforceLoop (forceBorderFuel (fuel + 1)) line col (a :: rest) t ret =
      (t, .raised .unsolvable) := by
  rcases h with ⟨h1, h2, h3⟩ | ⟨h1, h2, h3⟩
  · apply enforceLoop_closed_raised _ _ _ _ _ _ _ _ _ h1
    apply forceBorderFuel_close_open
    · rw [hL, hC]; exact h2
    · rw [hL, hC]; exact h3
  · apply enforceLoop_open_raised _ _ _ _ _ _ _ _ _ h1 h2
    apply forceBorderFuel_open_closed
    rw [hL, hC]; exact h3

theorem wrapIndex_one (x : Int) : wrapIndex x 1 = 0 :=
  Nat.lt_one_iff.mp (wrapIndex_lt x 1 Nat.one_pos)

/-- On a single row, forcing the bottom edge of the DEADEND either way raises Unsolvable:
the one candidate left points into the cell itself, whose opposite edge is closed. -/
theorem row_forceBorder (t : Table) (r c : Nat) (ty : PieceType) (hg : t.Grid)
    (hcc : CellsOK t) (hh : t.height = 1) (hr : r < t.height) (hc : c < t.width)
    (hcell : t.cellAt r c =
      ⟨ty, [⟨false, false, true, false⟩, ⟨true, false, false, false⟩], ⟨1, 0, 1, 0⟩⟩)
    (close : Bool) :
    t.forceBorder r c .D_S close = (t.tighten r c .D_S close, .raised .unsolvable) := by
  have h0 : (t.cellAt r c).stakes.get .D_S ≠ 0 := by
    rw [hcell]; exact (by decide : (1 : Nat) ≠ 0)
  have h1 : (t.cellAt r c).stakes.get .D_S ≠ (t.cellAt r c).candidates.length := by
    rw [hcell]; exact (by decide : (1 : Nat) ≠ 2)
  have hlt := candidateCount_tighten_lt t r c .D_S close hcc h0 h1
  obtain ⟨k, hk⟩ : ∃ k, t.candidateCount = k + 1 := ⟨t.candidateCount - 1, by omega⟩
  have hwr : wrapIndex (r : Int) t.height = r := wrapIndex_of_lt r _ hr hg.2.1
  have hwc : wrapIndex (c : Int) t.width = c := wrapIndex_of_lt c _ hc hg.2.2.2.1
  unfold Table.forceBorder
  rw [hk, forceBorderFuel_tighten _ _ _ _ _ _ (by rw [hwr, hwc]; exact h0)
    (by rw [hwr, hwc]; exact h1), hwr, hwc]
  unfold enforceStakesWith
  rw [tighten_height, tighten_width, hwr, hwc]
  apply selfLoop_raises
  · rw [tighten_height, hh, wrapIndex_one]; omega
  · rw [tighten_width]
    show wrapIndex ((c : Int) + 0) t.width = c
    rw [add_zero, hwc]
  · rw [cellAt_tighten_eq t r c .D_S close h0, hcell]
    cases close
    · left; exact ⟨rfl, (by decide : (1 : Nat) ≠ 0), rfl⟩
    · right; exact ⟨(by decide : (1 : Nat) ≠ 0), rfl, rfl⟩

/-- On a single column, forcing the left edge of the DEADEND either way raises Unsolvable:
the closed top edge is passed to the EMPTY cell above, and the one candidate left points
into the cell itself, whose opposite edge is closed. -/
theorem column_forceBorder (t : Table) (r c : Nat) (ty : PieceType) (h : LoneDeadend t r c)
    (hh : 2 ≤ t.height) (hw : t.width = 1)
    (hcell : t.cellAt r c =
      ⟨ty, [⟨false, false, false, true⟩, ⟨false, true, false, false⟩], ⟨0, 1, 0, 1⟩⟩)
    (close : Bool) :
    t.forceBorder r c .D_W close = (t.tighten r c .D_W close, .raised .unsolvable) := by
  have hg := h.1
  have hr := h.2.2.2.1
  have hc := h.2.2.2.2.1
  have h0 : (t.cellAt r c).stakes.get .D_W ≠ 0 := by
    rw [hcell]; exact (by decide : (1 : Nat) ≠ 0)
  have h1 : (t.cellAt r c).stakes.get .D_W ≠ (t.cellAt r c).candidates.length := by
    rw [hcell]; exact (by decide : (1 : Nat) ≠ 2)
  have hlt := candidateCount_tighten_lt t r c .D_W close h.2.1 h0 h1
  obtain ⟨k, hk⟩ : ∃ k, t.candidateCount = k + 1 := ⟨t.candidateCount - 1, by omega⟩
  have hwr : wrapIndex (r : Int) t.height = r := wrapIndex_of_lt r _ hr hg.2.1
  have hwc : wrapIndex (c : Int) t.width = c := wrapIndex_of_lt c _ hc hg.2.2.2.1
  unfold Table.forceBorder
  rw [hk, forceBorderFuel_tighten _ _ _ _ _ _ (by rw [hwr, hwc]; exact h0)
    (by rw [hwr, hwc]; exact h1), hwr, hwc]
  unfold enforceStakesWith
  rw [tighten_height, tighten_width, hwr, hwc]
  have hN : ((t.tighten r c .D_W close).cellAt r c).stakes.get .D_N = 0 := by
    rw [cellAt_tighten_eq t r c .D_W close h0, hcell]
    cases close <;> rfl
  have hnb := neighbour_ne_self t hg r c hr hc .D_N (Or.inl ⟨Or.inl rfl, hh⟩)
  have hnlt := neighbour_lt t hg (r, c) .D_N
  have hfb : forceBorderFuel (k + 1) (t.tighten r c .D_W close)
      ((r : Int) + (displacement .D_N).1) ((c : Int) + (displacement .D_N).2)
      (oppositeDirection .D_N) true = (t.tighten r c .D_W close, .ok false) := by
    apply forceBorderFuel_close_closed
    rw [tighten_height, tighten_width]
    show ((t.tighten r c .D_W close).cellAt (t.neighbour (r, c) .D_N).1
      (t.neighbour (r, c) .D_N).2).stakes.get (oppositeDirection .D_N) = 0
    rw [cellAt_tighten_ne t r c _ _ .D_W close
      (fun hx => hnb (Prod.ext hx.1 hx.2))]
    exact loneDeadend_other t r c h _ _ hnlt.1 hnlt.2 hnb _
  show enforceLoop _ r c (.D_N :: .D_E :: [.D_S, .D_W]) _ false = _
  rw [enforceLoop_closed_ok _ _ _ _ _ _ _ _ _ hN hfb]
  apply selfLoop_raises
  · rw [tighten_height]
    show wrapIndex ((r : Int) + 0) t.height = r
    rw [add_zero, hwr]
  · rw [tighten_width, hw, wrapIndex_one]; omega
  · rw [cellAt_tighten_eq t r c .D_W close h0, hcell]
    cases close
    · left; exact ⟨rfl, (by decide : (1 : Nat) ≠ 0), rfl⟩
    · right; exact ⟨(by decide : (1 : Nat) ≠ 0), rfl, rfl⟩

/-- The scan of `solve` passes over solved cells. -/
theorem scanCells_skip (solveRec : Table → Int → Table × Outcome Unit) (depth : Int)
    (t : Table) (rest : List (Nat × Nat)) (nothingToDo : Bool) :
    ∀ pre : List (Nat × Nat), (∀ p ∈ pre, (t.cellAt p.1 p.2).isSolved = true) →
      scanCells solveRec depth (pre ++ rest) t nothingToDo =
        scanCells solveRec depth rest t nothingToDo := by
  intro pre
  induction pre with
  | nil => intro _; rfl
  | cons p pre ih =>
    obtain ⟨i, j⟩ := p
    intro h
    rw [List.cons_append, scanCells]
    have h1 : (t.cellAt i j).isSolved = true := h (i, j) (List.mem_cons_self _ _)
    simp only [h1, if_true]
    exact ih (fun q hq => h q (List.mem_cons_of_mem _ hq))

/-- An attempt whose condition fails does nothing. -/
theorem attemptWith_skip (solveRec : Table → Int → Table × Outcome Unit) (t : Table)
    (depth : Int) (i j : Nat) (dir : Direction) (close : Bool)
    (h : (t.cellAt i j).stakes.get dir = 0) :
    attemptWith solveRec t depth i j dir close = (t, .ok false) := by
  unfold attemptWith
  simp [h]

/-- An attempt whose trial and whose resolution both raise Unsolvable in `forceBorder`
raises Unsolvable. -/
theorem attemptWith_raises (solveRec : Table → Int → Table × Outcome Unit) (t : Table)
    (depth : Int) (i j : Nat) (dir : Direction) (close : Bool) (t2 t3 : Table)
    (h0 : 0 < (t.cellAt i j).stakes.get dir)
    (h1 : (t.cellAt i j).stakes.get dir < (t.cellAt i j).candidates.length)
    (h2 : t.forceBorder i j dir close = (t2, .raised .unsolvable))
    (h3 : t.forceBorder i j dir (!close) = (t3, .raised .unsolvable)) :
    attemptWith solveRec t depth i j dir close = (t3, .raised .unsolvable) := by
  unfold attemptWith tryBlock
  simp only [h0, h1, and_self, if_true, h2, h3]

/-- When every cell but `(r, c)` is solved and the probes of `(r, c)` raise Unsolvable, so
does `solve`. -/
theorem solveFuel_raises (fuel : Nat) (t t1 : Table) (r c : Nat) (hr : r < t.height)
    (hc : c < t.width)
    (hs : ∀ i j, i < t.height → j < t.width → (i, j) ≠ (r, c) →
      (t.cellAt i j).isSolved = true)
    (hu : (t.cellAt r c).isSolved = false)
    (hp : ∀ solveRec, scanProbes solveRec 1 r c probes t = (t1, .raised .unsolvable)) :
    solveFuel (fuel + 1) t intMax 1 = (t1, .raised .unsolvable) := by
  obtain ⟨pre, post, hsplit, hnot⟩ :=
    List.eq_append_cons_of_mem ((mem_allCoords t.width t.height r c).2 ⟨hr, hc⟩)
  have hpre : ∀ p ∈ pre, (t.cellAt p.1 p.2).isSolved = true := by
    intro p hp1
    have hm : (p.1, p.2) ∈ allCoords t.width t.height := by
      rw [hsplit]
      exact List.mem_append_left _ hp1
    have hm1 := (mem_allCoords t.width t.height p.1 p.2).1 hm
    exact hs p.1 p.2 hm1.1 hm1.2 (fun hx => hnot (hx ▸ hp1))
  rw [solveFuel]
  have hd : (1 : Int) ≤ intMax := by decide
  simp only [hd, if_true]
  rw [hsplit, scanCells_skip _ _ _ _ _ pre hpre, scanCells]
  simp only [hu, hp]
  simp

theorem loneDeadend_solved (t : Table) (r c : Nat) (h : LoneDeadend t r c) (i j : Nat)
    (hi : i < t.height) (hj : j < t.width) (hne : (i, j) ≠ (r, c)) :
    (t.cellAt i j).isSolved = true := by
  unfold Cell.isSolved
  rw [h.2.2.2.2.2.1 i j hi hj hne]
  rfl

/-- On a single row of at least two columns `solve` raises Unsolvable at the DEADEND: the
probes of its left edge are skipped (that edge is closed) and the probe of its bottom edge
fails both ways. -/
theorem loneDeadend_solve_row (t : Table) (r c : Nat) (h : LoneDeadend t r c)
    (hh : t.height = 1) (hw : 2 ≤ t.width) (fuel : Nat) :
    (solveFuel (fuel + 1) t intMax 1).2 = .raised .unsolvable := by
  obtain ⟨ty, hcell⟩ := loneDeadend_row t r c h hh hw
  have hf := row_forceBorder t r c ty h.1 h.2.1 hh h.2.2.2.1 h.2.2.2.2.1 hcell
  have hW : (t.cellAt r c).stakes.get .D_W = 0 := by rw [hcell]; rfl
  rw [solveFuel_raises fuel t (t.tighten r c .D_S false) r c h.2.2.2.1 h.2.2.2.2.1
    (loneDeadend_solved t r c h) (by rw [Cell.isSolved, hcell]; rfl)]
  intro solveRec
  unfold probes
  rw [scanProbes, attemptWith_skip _ _ _ _ _ _ _ hW]
  simp only
  rw [scanProbes, attemptWith_skip _ _ _ _ _ _ _ hW]
  simp only
  rw [scanProbes, attemptWith_raises _ _ _ _ _ _ _ _ _
    (by rw [hcell]; exact (by decide : 0 < 1))
    (by rw [hcell]; exact (by decide : 1 < 2)) (hf true) (hf false)]

/-- On a single column of at least two rows `solve` raises Unsolvable at the DEADEND: the
first probe, of its left edge, fails both ways. -/
theorem loneDeadend_solve_column (t : Table) (r c : Nat) (h : LoneDeadend t r c)
    (hh : 2 ≤ t.height) (hw : t.width = 1) (fuel : Nat) :
    (solveFuel (fuel + 1) t intMax 1).2 = .raised .unsolvable := by
  obtain ⟨ty, hcell⟩ := loneDeadend_column t r c h hh hw
  have hf := column_forceBorder t r c ty h hh hw hcell
  rw [solveFuel_raises fuel t (t.tighten r c .D_W false) r c h.2.2.2.1 h.2.2.2.2.1
    (loneDeadend_solved t r c h) (by rw [Cell.isSolved, hcell]; rfl)]
  intro solveRec
  unfold probes
  rw [scanProbes, attemptWith_raises _ _ _ _ _ _ _ _ _
    (by rw [hcell]; exact (by decide : 0 < 1))
    (by rw [hcell]; exact (by decide : 1 < 2)) (hf true) (hf false)]

/-- A board returned by the constructor for a raw table with one DEADEND and EMPTY cells
elsewhere is a board whose only piece is that DEADEND. -/
theorem create_loneDeadend (width height : Nat) (rawTable : String) (r c : Nat) (t : Table)
    (hr : r < height) (hc : c < width)
    (hdead : kindAt rawTable.toList (c + r * width) = .PT_DEADEND)
    (hempty : ∀ i j, i < height → j < width → (i, j) ≠ (r, c) →
      kindAt rawTable.toList (j + i * width) = .PT_EMPTY)
    (hok : Table.create width height rawTable = .ok t)
    (hsub : ∀ l c, (t.cellAt l c).candidates.Sublist
      ((freshBoard width height rawTable.toList).cellAt l c).candidates) :
    LoneDeadend t r c := by
  obtain ⟨hg, hcc, ha, hw, hh, _, _, _⟩ := create_ok width height rawTable t hok
  refine ⟨hg, hcc, ha, by rw [hh]; exact hr, by rw [hw]; exact hc, ?_, ?_⟩
  · intro i j hi hj hne
    rw [hh] at hi
    rw [hw] at hj
    have h1 := hsub i j
    rw [cellAt_freshBoard width height _ i j hi hj, hempty i j hi hj hne] at h1
    exact h1.eq_of_length_le (hcc i j).2
  · have h1 := hsub r c
    rw [cellAt_freshBoard width height _ r c hr hc, hdead] at h1
    exact h1

/-- C17: a board whose only non-EMPTY cell is one DEADEND is never signalled solved. For
every raw table of the right length that decodes to one DEADEND and EMPTY cells elsewhere,
either the constructor raises Unsolvable, or it returns a board on which `solve()` raises
Unsolvable for every fuel of at least 3; with at least two rows and two columns it is the
constructor that raises. -/
theorem lone_deadend_unsolvable (width height : Nat) (rawTable : String) (r c : Nat)
    (hw : width < 2147483648) (hh : height < 2147483648)
    (hlen : rawTable.length = width * height) (hsmall : width * height < 2147483648)
    (hd : Decodes rawTable.toList) (hr : r < height) (hc : c < width)
    (hdead : kindAt rawTable.toList (c + r * width) = .PT_DEADEND)
    (hempty : ∀ i j, i < height → j < width → (i, j) ≠ (r, c) →
      kindAt rawTable.toList (j + i * width) = .PT_EMPTY) :
    (Table.create width height rawTable = .raised .unsolvable ∨
      ∃ t, Table.create width height rawTable = .ok t ∧
        ∀ fuel, 3 ≤ fuel → (t.solve fuel intMax).2 = .raised .unsolvable) ∧
    (2 ≤ width → 2 ≤ height → Table.create width height rawTable = .raised .unsolvable) := by
  have hne : (freshBoard width height rawTable.toList).nonEmptyCells ≠ [] := by
    intro h0
    have h1 : (r, c) ∈ (freshBoard width height rawTable.toList).nonEmptyCells :=
      (mem_nonEmptyCells_freshBoard width height _ (r, c)).2
        ⟨hr, hc, by rw [hdead]; decide⟩
    rw [h0] at h1
    exact absurd h1 (List.not_mem_nil _)
  have hcases := create_cases width height rawTable (by omega) hw (by omega) hh hlen hsmall
    hd hne
  have hbig : 2 ≤ width → 2 ≤ height →
      Table.create width height rawTable = .raised .unsolvable := by
    intro hw2 hh2
    rcases hcases with h1 | ⟨t, hok, hsub⟩
    · exact h1
    · have hl := create_loneDeadend width height rawTable r c t hr hc hdead hempty hok hsub
      obtain ⟨_, _, _, hwt, hht, _⟩ := create_ok width height rawTable t hok
      exact (loneDeadend_wide t r c hl (by omega) (by omega)).elim
  refine ⟨?_, hbig⟩
  rcases hcases with h1 | ⟨t, hok, hsub⟩
  · exact Or.inl h1
  · right
    refine ⟨t, hok, fun fuel hf => ?_⟩
    have hl := create_loneDeadend width height rawTable r c t hr hc hdead hempty hok hsub
    obtain ⟨_, _, _, hwt, hht, _⟩ := create_ok width height rawTable t hok
    obtain ⟨f, rfl⟩ : ∃ f, fuel = f + 1 := ⟨fuel - 1, by omega⟩
    by_cases hw2 : 2 ≤ width
    · by_cases hh2 : 2 ≤ height
      · exact (loneDeadend_wide t r c hl (by omega) (by omega)).elim
      · exact loneDeadend_solve_row t r c hl (by omega) (by omega) f
    · by_cases hh2 : 2 ≤ height
      · exact loneDeadend_solve_column t r c hl (by omega) (by omega) f
      · have hw1 : width = 1 := by omega
        have hh1 : height = 1 := by omega
        subst hw1 hh1
        have hr0 : r = 0 := by omega
        have hc0 : c = 0 := by omega
        subst hr0 hc0
        obtain ⟨ch, hch⟩ : ∃ ch, rawTable.toList = [ch] := by
          have h1 : rawTable.toList.length = 1 := by
            rw [← String.length]; exact hlen
          match hx : rawTable.toList, h1 with
          | [ch], _ => exact ⟨ch, rfl⟩
        have hraw : rawTable = String.singleton ch := by
          apply String.ext
          exact hch
        have hpt : charToPT ch = .piece .PT_DEADEND := by
          rw [hch] at hdead
          have h2 : kindAt [ch] 0 = .PT_DEADEND := hdead
          unfold kindAt at h2
          simp only [List.get?_cons_zero] at h2
          rcases hx : charToPT ch with pt | _ | _
          · rw [hx] at h2
            simp only at h2
            rw [h2]
          · rw [hx] at h2; simp at h2
          · rw [hx] at h2; simp at h2
        have hs := create_single ch .PT_DEADEND hpt (by decide)
        rw [hraw, hs] at hok
        simp only [Outcome.ok.injEq] at hok
        subst hok
        have h3 : ((singleBoard .PT_DEADEND).solve 3 intMax).2 = .raised .unsolvable := by
          decide
        rw [solve_mono 3 (singleBoard .PT_DEADEND) intMax (by rw [h3]; decide) (f + 1) hf]
        exact h3

/-- C17 on the 3×3 board with a DEADEND in the corner, where the constructor raises, and
on the row of two cells `10`. -/
theorem lone_deadend_unsolvable_witness :
    Table.create 3 3 "100000000" = .raised .unsolvable ∧
    (Table.create 2 1 "10" = .raised .unsolvable ∨
      ∃ t, Table.create 2 1 "10" = .ok t ∧
        ∀ fuel, 3 ≤ fuel → (t.solve fuel intMax).2 = .raised .unsolvable) := by
  constructor
  · refine (lone_deadend_unsolvable 3 3 "100000000" 0 0 (by decide) (by decide) (by decide)
      (by decide) (by decide) (by decide) (by decide) (by decide) ?_).2 (by decide) (by decide)
    intro i j hi hj hne
    interval_cases i <;> interval_cases j <;> first | exact absurd rfl hne | decide
  · refine (lone_deadend_unsolvable 2 1 "10" 0 0 (by decide) (by decide) (by decide)
      (by decide) (by decide) (by decide) (by decide) (by decide) ?_).1
    intro i j hi hj hne
    interval_cases i
    interval_cases j <;> first | exact absurd rfl hne | decide

end Netwalker
